import Mathlib

/-!
# Policy engine and history store of the Prometheus policy autoscaler

A shallow embedding of `pkg/policy/engine.go` and `pkg/history/store.go`.

* Go `int32` values are integers carried with their range; every arithmetic
  operation wraps modulo `2^32` (two's complement), as Go specifies.
* Go `float64` arithmetic is a parameter of the development (`FloatSem`): the
  engine is embedded once for every choice of the float operations.  The
  IEEE-754 binary64 instance `binary64` is used to evaluate concrete inputs.
* `time.Time` instants are integers counting nanoseconds on one time line,
  `time.Duration` is a 64-bit nanosecond count.
* Go multiple return values `(Decision, error)` are a pair whose second
  component is `none` for a `nil` error.
-/

namespace Autoscaler

/-! ## Machine integers -/

/-- Go `int32`: an integer in `[-2^31, 2^31 - 1]`. -/
structure Int32 where
  val : Int
  lo : -2147483648 ≤ val
  hi : val ≤ 2147483647
deriving DecidableEq

namespace Int32

/-- Two's complement reduction of an integer into the `int32` range. -/
def wrap (x : Int) : Int32 :=
  ⟨(x + 2147483648) % 4294967296 - 2147483648, by omega, by omega⟩

instance (n : Nat) : OfNat Int32 n := ⟨wrap n⟩

instance : Inhabited Int32 := ⟨wrap 0⟩

/-- Go `a + b` on `int32`. -/
def add (a b : Int32) : Int32 := wrap (a.val + b.val)

/-- Go `a - b` on `int32`. -/
def sub (a b : Int32) : Int32 := wrap (a.val - b.val)

/-- Go unary `-a` on `int32`. -/
def neg (a : Int32) : Int32 := wrap (-a.val)

/-- Go `a * b` on `int32`. -/
def mul (a b : Int32) : Int32 := wrap (a.val * b.val)

/-- Go `a / b` on `int32`: the quotient truncated toward zero, wrapped (so that
`MinInt32 / -1 = MinInt32`).  Go panics when `b` is zero; this embedding is
total and gives `0` there.  The engine divides by the constant `100` and by
`int32(len(desired))` for a non-empty slice, which is zero only for a slice
of a multiple of `2^32` entries. -/
def div (a b : Int32) : Int32 := wrap (Int.tdiv a.val b.val)

end Int32

/-- Two's complement reduction of an integer into the `int64` range. -/
def wrap64 (x : Int) : Int :=
  (x + 9223372036854775808) % 18446744073709551616 - 9223372036854775808

/-! ## Int -/

/-! An instant of `time.Time` is an integer: nanoseconds on a single time
line.  A `time.Duration` is an integer too: a nanosecond count held in an
`int64`. -/

/-- The constant `time.Second`. -/
def Second : Int := 1000000000

/-- The largest `time.Duration`. -/
def maxDuration : Int := 9223372036854775807

/-- The smallest `time.Duration`. -/
def minDuration : Int := -9223372036854775808

/-- Model of `Time.Sub`: the difference `t - u`, saturated to the range of
`time.Duration`. -/
def Time.Sub (t u : Int) : Int :=
  if t - u > maxDuration then maxDuration
  else if t - u < minDuration then minDuration
  else t - u

/-- Model of `Time.Add` for an instant `t` and a duration `d`. -/
def Time.Add (t d : Int) : Int := t + d

/-- Model of `Time.After`. -/
def Time.After (t u : Int) : Bool := decide (u < t)

/-- The expression `time.Duration(s) * time.Second` for an `int32` count of
seconds `s`. -/
def secondsDuration (s : Int32) : Int := wrap64 (s.val * Second)

/-! ## Floating point -/

/-- The `float64` operations the engine uses.  The engine is embedded for an
arbitrary choice of them. -/
structure FloatSem where
  /-- Carrier of `float64` values. -/
  F : Type
  /-- The zero value of a `float64` variable. -/
  zero : F
  /-- The literal `1.0`. -/
  one : F
  /-- Conversion `float64(v)` of an `int32`. -/
  ofInt32 : Int32 → F
  /-- Operator `x + y`. -/
  add : F → F → F
  /-- Operator `x * y`. -/
  mul : F → F → F
  /-- Operator `x / y`. -/
  div : F → F → F
  /-- Operator `x < y`; `x > y` is `y < x`. -/
  lt : F → F → Bool
  /-- Operator `x == y`. -/
  eq : F → F → Bool
  /-- Conversion `int32(x)`. -/
  toInt32 : F → Int32
  /-- Formatting with the verb `%.4f`. -/
  fmt4 : F → String

/-! ## API types (`api/v1alpha1`) -/

/-- Thresholds and step sizes for scaling decisions. -/
structure ScaleDirection (fs : FloatSem) where
  Threshold : fs.F
  Step : Int32

/-- One PromQL-based signal. -/
structure MetricSpec (fs : FloatSem) where
  Name : String
  PromQL : String
  Weight : Option fs.F
  ScaleUp : Option (ScaleDirection fs)
  ScaleDown : Option (ScaleDirection fs)

/-- Aggregation strategies are strings. -/
abbrev AggregationStrategy := String

def AggregationMax : AggregationStrategy := "max"
def AggregationMin : AggregationStrategy := "min"
def AggregationAverage : AggregationStrategy := "average"
def AggregationWeighted : AggregationStrategy := "weighted"

/-- Stabilization, cooldown and rate limiting; every field is optional. -/
structure BehaviorSpec where
  StabilizationWindowSeconds : Option Int32
  ScaleUpCooldownSeconds : Option Int32
  ScaleDownCooldownSeconds : Option Int32
  MaxScaleUpStepPercent : Option Int32
  MaxScaleDownStepPercent : Option Int32

/-- The fields of `PrometheusAutoscalerSpec` read by the engine and the loop. -/
structure PrometheusAutoscalerSpec (fs : FloatSem) where
  MinReplicas : Int32
  MaxReplicas : Int32
  Mode : String
  Aggregation : AggregationStrategy
  Metrics : List (MetricSpec fs)
  Behavior : Option BehaviorSpec

/-! ## Engine types (`pkg/policy/engine.go`) -/

/-- A record stored per evaluation. -/
structure HistorySample where
  Timestamp : Int
  DesiredReplicas : Int32
deriving DecidableEq

/-- What the reconciler passes into the engine for one decision.  The Go map
`Samples` is a partial function on metric names. -/
structure Input (fs : FloatSem) where
  CurrentReplicas : Int32
  Spec : PrometheusAutoscalerSpec fs
  Samples : String → Option fs.F
  Now : Int
  LastScaleTime : Option Int
  History : List HistorySample

/-- The engine's answer for one reconciliation tick. -/
structure Decision where
  DesiredReplicas : Int32
  Reason : String
  CooldownActive : Bool
deriving DecidableEq

/-- The zero value `Decision{}`. -/
def Decision.zero : Decision := ⟨Int32.wrap 0, "", false⟩

/-! ## The decision engine -/

variable {fs : FloatSem}

/-- Maps one metric sample to a desired replica count
(`DefaultEngine.desiredFromMetric`). -/
def desiredFromMetric (current : Int32) (sample : fs.F) (ms : MetricSpec fs) : Int32 :=
  let desired := current
  -- Scale up if configured and sample is above the threshold.
  let desired :=
    match ms.ScaleUp with
    | some up => if fs.lt up.Threshold sample then Int32.add current up.Step else desired
    | none => desired
  -- Scale down if configured and sample is below the threshold.
  let desired :=
    match ms.ScaleDown with
    | some down =>
      if fs.lt sample down.Threshold then
        let desired := Int32.sub current down.Step
        if desired.val < 1 then 1 else desired
      else desired
    | none => desired
  desired

/-- The loop `for _, v := range desired[1:]` of the `min` strategy. -/
def minLoop (init : Int32) (rest : List Int32) : Int32 :=
  rest.foldl (fun mn v => if v.val < mn.val then v else mn) init

/-- The loop `for _, v := range desired[1:]` of the `max` strategy. -/
def maxLoop (init : Int32) (rest : List Int32) : Int32 :=
  rest.foldl (fun mx v => if v.val > mx.val then v else mx) init

/-- The loop `for _, v := range desired { sum += v }`. -/
def sumLoop (desired : List Int32) : Int32 :=
  desired.foldl (fun sum v => Int32.add sum v) (Int32.wrap 0)

/-- The loop of the `weighted` strategy, from the index `i` on: it returns
`(num, den)`.  The Go expression `weights[i]` panics when `weights` is
shorter than `desired`; `Decide` appends to both slices in lock step, and
this total embedding reads the zero value there. -/
def weightedLoop (fs : FloatSem) (weights : List fs.F) :
    List Int32 → Nat → fs.F → fs.F → fs.F × fs.F
  | [], _, num, den => (num, den)
  | v :: vs, i, num, den =>
    let w := weights.getD i fs.zero
    weightedLoop fs weights vs (i + 1) (fs.add num (fs.mul (fs.ofInt32 v) w)) (fs.add den w)

/-- Combines the per-metric recommendations into a single number
(`DefaultEngine.aggregate`). -/
def aggregate (fs : FloatSem) (desired : List Int32) (weights : List fs.F)
    (strategy : AggregationStrategy) : Int32 :=
  match desired with
  | [] => 1
  | d0 :: rest =>
    if strategy = AggregationMin then
      minLoop d0 rest
    else if strategy = AggregationAverage then
      Int32.div (sumLoop (d0 :: rest)) (Int32.wrap ((d0 :: rest).length))
    else if strategy = AggregationWeighted then
      let nd := weightedLoop fs weights (d0 :: rest) 0 fs.zero fs.zero
      if fs.eq nd.2 fs.zero then d0 else fs.toInt32 (fs.div nd.1 nd.2)
    else
      maxLoop d0 rest

/-- The absolute step size allowed for a given percentage (`rateLimitStep`). -/
def rateLimitStep (current percent : Int32) : Int32 :=
  if percent.val ≤ 0 then 0
  else
    let step := Int32.div (Int32.mul current percent) 100
    if step.val < 1 then 1 else step

/-- The cooldown part of `applyCooldownAndHistory` (the block guarded by
`in.LastScaleTime != nil`): the adjusted count and `cooldownActive`. -/
def cooldownPhase (inp : Input fs) (behavior : BehaviorSpec) (desired : Int32) : Int32 × Bool :=
  match inp.LastScaleTime with
  | none => (desired, false)
  | some last =>
    let elapsed := Time.Sub inp.Now last
    let st : Int32 × Bool :=
      match behavior.ScaleUpCooldownSeconds with
      | some s =>
        if desired.val > inp.CurrentReplicas.val ∧ elapsed < secondsDuration s then
          (inp.CurrentReplicas, true)
        else (desired, false)
      | none => (desired, false)
    match behavior.ScaleDownCooldownSeconds with
    | some s =>
      if st.1.val < inp.CurrentReplicas.val ∧ elapsed < secondsDuration s then
        (inp.CurrentReplicas, true)
      else st
    | none => st

/-- The loop `for _, h := range in.History` of the stabilization window: the
running maximum `maxInWindow`, started at `init`. -/
def windowScan (cutoff : Int) (hist : List HistorySample) (init : Int32) : Int32 :=
  hist.foldl
    (fun maxInWindow h =>
      if Time.After h.Timestamp cutoff = true ∧ h.DesiredReplicas.val > maxInWindow.val then
        h.DesiredReplicas
      else maxInWindow)
    init

/-- The stabilization-window part of `applyCooldownAndHistory`. -/
def stabilizationPhase (inp : Input fs) (behavior : BehaviorSpec) (desired : Int32) : Int32 :=
  match behavior.StabilizationWindowSeconds with
  | some w =>
    if desired.val < inp.CurrentReplicas.val then
      let window := secondsDuration w
      let cutoff := Time.Add inp.Now (wrap64 (-window))
      windowScan cutoff inp.History desired
    else desired
  | none => desired

/-- The rate-limiting part of `applyCooldownAndHistory`, from
`delta := desired - in.CurrentReplicas` to the end. -/
def rateLimitPhase (inp : Input fs) (behavior : BehaviorSpec) (desired : Int32)
    (cooldownActive : Bool) : Int32 × Bool :=
  let delta := Int32.sub desired inp.CurrentReplicas
  if delta.val = 0 then (desired, cooldownActive)
  else
    let desired :=
      match behavior.MaxScaleUpStepPercent with
      | some p =>
        if delta.val > 0 then
          let allowed := rateLimitStep inp.CurrentReplicas p
          if delta.val > allowed.val then Int32.add inp.CurrentReplicas allowed else desired
        else desired
      | none => desired
    let desired :=
      match behavior.MaxScaleDownStepPercent with
      | some p =>
        if delta.val < 0 then
          let allowed := rateLimitStep inp.CurrentReplicas p
          if (Int32.neg delta).val > allowed.val then Int32.sub inp.CurrentReplicas allowed
          else desired
        else desired
      | none => desired
    let desired := if desired.val < 1 then 1 else desired
    (desired, cooldownActive)

/-- Limits how aggressively desired changes are applied
(`DefaultEngine.applyCooldownAndHistory`). -/
def applyCooldownAndHistory (inp : Input fs) (desired : Int32) : Int32 × Bool :=
  match inp.Spec.Behavior with
  | none => (desired, false)
  | some behavior =>
    let cd := cooldownPhase inp behavior desired
    let desired := stabilizationPhase inp behavior cd.1
    rateLimitPhase inp behavior desired cd.2

/-- The function `joinReasons`. -/
def joinReasons (parts : List String) : String :=
  match parts with
  | [] => ""
  | p0 :: rest => rest.foldl (fun out p => out ++ "; " ++ p) p0

/-- State of the loop over the metrics in `Decide`. -/
structure MetricAcc (fs : FloatSem) where
  metricDesired : List Int32
  metricWeights : List fs.F
  reasons : List String

/-- One iteration of the loop `for _, ms := range in.Spec.Metrics`. -/
def metricStep (inp : Input fs) (acc : MetricAcc fs) (ms : MetricSpec fs) : MetricAcc fs :=
  match inp.Samples ms.Name with
  | none =>
    -- Missing metric is treated as neutral.
    ⟨acc.metricDesired ++ [inp.CurrentReplicas], acc.metricWeights ++ [fs.one], acc.reasons⟩
  | some sample =>
    let perMetricDesired := desiredFromMetric inp.CurrentReplicas sample ms
    let weight := match ms.Weight with
      | some w => w
      | none => fs.one
    ⟨acc.metricDesired ++ [perMetricDesired], acc.metricWeights ++ [weight],
      acc.reasons ++ [ms.Name ++ "=" ++ fs.fmt4 sample ++ " -> " ++ toString perMetricDesired.val]⟩

/-- The bounds clamp of `Decide`: first the lower bound, then the upper. -/
def clampBounds (desired mn mx : Int32) : Int32 :=
  let desired := if desired.val < mn.val then mn else desired
  if desired.val > mx.val then mx else desired

/-- The core policy logic for one reconciliation cycle
(`DefaultEngine.Decide`): the returned decision and error. -/
def Decide (fs : FloatSem) (inp : Input fs) : Decision × Option String :=
  if inp.Spec.Metrics.length = 0 then
    (Decision.zero, some "no metrics defined in spec")
  else
    let acc := inp.Spec.Metrics.foldl (metricStep inp) ⟨[], [], []⟩
    let aggregated := aggregate fs acc.metricDesired acc.metricWeights inp.Spec.Aggregation
    let desired := clampBounds aggregated inp.Spec.MinReplicas inp.Spec.MaxReplicas
    let cooled := applyCooldownAndHistory inp desired
    let reason := "metrics=[" ++ joinReasons acc.reasons ++ "], aggregation=" ++ inp.Spec.Aggregation
    (⟨cooled.1, reason, cooled.2⟩, none)


/-! ## IEEE-754 binary64 -/

/-- A binary64 value: not-a-number, an infinity, or the finite number
`(-1)^neg * m * 2^e`.  Below `x <<< k` is `x * 2^k` and `x >>> k` is
`x / 2^k` rounded down.  The operations below return finite values in the
canonical form `m < 2^53`, `-1074 ≤ e ≤ 971`, and `2^52 ≤ m` unless
`e = -1074`. -/
inductive B64 where
  | nan
  | inf (neg : Bool)
  | fin (neg : Bool) (m : Nat) (e : Int)
deriving DecidableEq, Repr

namespace B64

/-- Number of binary digits of `n`, for `n < 2^fuel`. -/
def bitLenFine : Nat → Nat → Nat
  | 0, _ => 0
  | fuel + 1, n => if n = 0 then 0 else bitLenFine fuel (n / 2) + 1

/-- Number of binary digits of `n`, for `n < 2^(64 * (fuel + 1))`: whole
64-bit limbs are counted first. -/
def bitLenAux : Nat → Nat → Nat
  | 0, n => bitLenFine 64 n
  | fuel + 1, n =>
    if n < 18446744073709551616 then bitLenFine 64 n
    else bitLenAux fuel (n / 18446744073709551616) + 64

/-- Number of binary digits of `n` (for `n < 2^8192`). -/
def bitLen (n : Nat) : Nat := bitLenAux 127 n

/-- The quotient `n / d` rounded to the nearest integer, ties to even. -/
def divRoundEven (n d : Nat) : Nat :=
  let q := n / d
  let r := n % d
  if 2 * r > d ∨ (2 * r = d ∧ q % 2 = 1) then q + 1 else q

/-- The positive rational `n / d` rounded to the nearest binary64 value, ties
to even, with the sign `neg`. -/
def round (neg : Bool) (n d : Nat) : B64 :=
  if n = 0 then fin neg 0 (-1074)
  else
    let a : Int := bitLen n
    let b : Int := bitLen d
    -- floor of the binary logarithm of n / d
    let l : Int :=
      if d <<< (a - b).toNat ≤ n <<< (b - a).toNat then a - b else a - b - 1
    let e : Int := if l - 52 < -1074 then -1074 else l - 52
    let q := divRoundEven (n <<< (-e).toNat) (d <<< e.toNat)
    let me : Nat × Int := if q = 9007199254740992 then (4503599627370496, e + 1) else (q, e)
    if me.2 > 971 then inf neg else fin neg me.1 me.2

/-- The literal `0`. -/
def zero : B64 := fin false 0 (-1074)

/-- The literal `1.0`. -/
def one : B64 := fin false 4503599627370496 (-52)

/-- Conversion of an integer that a binary64 represents after rounding. -/
def ofInt (v : Int) : B64 := round (decide (v < 0)) v.natAbs 1

/-- The signed integer `i` with `x = i * 2^k` for finite `x` of exponent at
least `k`. -/
def scaled (neg : Bool) (m : Nat) (e k : Int) : Int :=
  let i : Int := (m <<< (e - k).toNat : Nat)
  if neg then -i else i

/-- Addition. -/
def add : B64 → B64 → B64
  | nan, _ => nan
  | _, nan => nan
  | inf s, inf t => if s = t then inf s else nan
  | inf s, fin _ _ _ => inf s
  | fin _ _ _, inf t => inf t
  | fin s m e, fin t n f =>
    let k := if e < f then e else f
    let i := scaled s m e k + scaled t n f k
    if i = 0 then fin (s && t) 0 (-1074)
    else round (decide (i < 0)) (i.natAbs <<< k.toNat) (1 <<< (-k).toNat)

/-- Multiplication. -/
def mul : B64 → B64 → B64
  | nan, _ => nan
  | _, nan => nan
  | inf s, inf t => inf (xor s t)
  | inf s, fin t n _ => if n = 0 then nan else inf (xor s t)
  | fin s m _, inf t => if m = 0 then nan else inf (xor s t)
  | fin s m e, fin t n f =>
    round (xor s t) ((m * n) <<< (e + f).toNat) (1 <<< (-(e + f)).toNat)

/-- Division. -/
def div : B64 → B64 → B64
  | nan, _ => nan
  | _, nan => nan
  | inf _, inf _ => nan
  | inf s, fin t _ _ => inf (xor s t)
  | fin s _ _, inf t => fin (xor s t) 0 (-1074)
  | fin s m e, fin t n f =>
    if n = 0 then (if m = 0 then nan else inf (xor s t))
    else round (xor s t) (m <<< (e - f).toNat) (n <<< (f - e).toNat)

/-- Comparison `x < y`. -/
def lt : B64 → B64 → Bool
  | nan, _ => false
  | _, nan => false
  | inf s, inf t => s && !t
  | inf s, fin _ _ _ => s
  | fin _ _ _, inf t => !t
  | fin s m e, fin t n f =>
    let k := if e < f then e else f
    decide (scaled s m e k < scaled t n f k)

/-- Comparison `x == y`. -/
def eq : B64 → B64 → Bool
  | nan, _ => false
  | _, nan => false
  | inf s, inf t => s == t
  | inf _, fin _ _ _ => false
  | fin _ _ _, inf _ => false
  | fin s m e, fin t n f =>
    let k := if e < f then e else f
    decide (scaled s m e k = scaled t n f k)

/-- The value truncated toward zero, for a finite value. -/
def trunc (neg : Bool) (m : Nat) (e : Int) : Int :=
  let i : Int := ((m <<< e.toNat) >>> (-e).toNat : Nat)
  if neg then -i else i

/-- Conversion to `int32`.  Go leaves the result implementation-specific when
the truncated value does not fit; this is the result on amd64. -/
def toInt32 : B64 → Int32
  | fin s m e =>
    if h : -2147483648 ≤ trunc s m e ∧ trunc s m e ≤ 2147483647 then ⟨trunc s m e, h.1, h.2⟩
    else Int32.wrap (-2147483648)
  | _ => Int32.wrap (-2147483648)

/-- The digits of `n`, padded with zeros to four places. -/
def pad4 (n : Nat) : String :=
  let s := toString n
  String.mk (List.replicate (4 - s.length) (Char.ofNat 48)) ++ s

/-- Formatting with the verb `%.4f`. -/
def fmt4 : B64 → String
  | nan => "NaN"
  | inf s => if s then "-Inf" else "+Inf"
  | fin s m e =>
    let q := divRoundEven ((m * 10000) <<< e.toNat) (1 <<< (-e).toNat)
    (if s then "-" else "") ++ toString (q / 10000) ++ "." ++ pad4 (q % 10000)

end B64

/-- The IEEE-754 binary64 semantics of `float64`, round to nearest even. -/
def binary64 : FloatSem where
  F := B64
  zero := B64.zero
  one := B64.one
  ofInt32 := fun v => B64.ofInt v.val
  add := B64.add
  mul := B64.mul
  div := B64.div
  lt := B64.lt
  eq := B64.eq
  toInt32 := B64.toInt32
  fmt4 := B64.fmt4


/-! ## The history store (`pkg/history/store.go`) -/

/-- In-memory history keyed by the namespaced name of the policy.  The Go map
is a function from keys to slices; an absent key holds the empty slice.  The
mutex only serialises access and has no counterpart here. -/
structure Store where
  data : String → List HistorySample

/-- An initialized store (`NewStore`). -/
def NewStore : Store := ⟨fun _ => []⟩

/-- A copy of the history for a given key (`Store.Get`). -/
def Store.Get (s : Store) (key : String) : List HistorySample := s.data key

/-- Adds a new sample to the history for the given key and keeps at most
`max` samples (`Store.Append`).  The Go slice expression
`history[len(history)-max:]` panics for a negative `max`; this total embedding
keeps nothing there. -/
def Store.Append (s : Store) (key : String) (sample : HistorySample) (max : Int) : Store :=
  let history := s.data key ++ [sample]
  let history :=
    if (history.length : Int) > max then history.drop ((history.length : Int) - max).toNat
    else history
  ⟨fun k => if k = key then history else s.data k⟩

/-- A sequence of calls `Append(key, sample, max)`, one per sample, in order. -/
def Store.appendAll (s : Store) (key : String) (samples : List HistorySample) (max : Int) :
    Store :=
  samples.foldl (fun st sample => st.Append key sample max) s

/-! ## Concrete inputs -/

/-- A metric without scaling directions and without a weight. -/
def plainMetric : MetricSpec binary64 := ⟨"cpu", "cpu_query", none, none, none⟩

/-- A behavior block that only sets a scale-down cooldown of 60 seconds. -/
def downCooldownOnly : BehaviorSpec := ⟨none, none, some 60, none, none⟩

/-- Twenty running replicas with bounds `[2, 10]`, no sample for the only
metric, and a scale 10 seconds ago under a scale-down cooldown of 60 seconds. -/
def inputAboveMax : Input binary64 :=
  { CurrentReplicas := 20
    Spec := ⟨2, 10, "Apply", "max", [plainMetric], some downCooldownOnly⟩
    Samples := fun _ => none
    Now := 100000000000
    LastScaleTime := some 90000000000
    History := [] }

/-- A behavior block with a stabilization window of 30 seconds, cooldowns of 60
seconds and step caps of 50 percent. -/
def fullBehavior : BehaviorSpec := ⟨some 30, some 60, some 60, some 50, some 50⟩

/-- Eight running replicas with bounds `[2, 10]`, a metric that asks for three
replicas fewer, a scale 90 seconds ago and one entry of 8 in the history
window. -/
def inputInRange : Input binary64 :=
  { CurrentReplicas := 8
    Spec := ⟨2, 10, "Apply", "max",
      [⟨"cpu", "cpu_query", none, some ⟨B64.ofInt 70, 2⟩, some ⟨B64.ofInt 30, 3⟩⟩],
      some fullBehavior⟩
    Samples := fun n => if n = "cpu" then some (B64.ofInt 10) else none
    Now := 100000000000
    LastScaleTime := some 10000000000
    History := [⟨80000000000, 8⟩, ⟨50000000000, 9⟩] }

/-- A workload scaled to zero with bounds `[0, 10]`, no sample and no behavior
block. -/
def inputZeroNoBehavior : Input binary64 :=
  { CurrentReplicas := 0
    Spec := ⟨0, 10, "Apply", "max", [plainMetric], none⟩
    Samples := fun _ => none
    Now := 100000000000
    LastScaleTime := none
    History := [] }

/-- A workload scaled to zero with bounds `[1, 10]`, no sample, and a scale 10
seconds ago under a scale-up cooldown of 60 seconds. -/
def inputZeroCooldown : Input binary64 :=
  { CurrentReplicas := 0
    Spec := ⟨1, 10, "Apply", "max", [plainMetric], some ⟨none, some 60, none, none, none⟩⟩
    Samples := fun _ => none
    Now := 100000000000
    LastScaleTime := some 90000000000
    History := [] }

/-- Scenario C: five running replicas, a metric whose scale-down fires and
asks for 2, a scale 10 seconds ago, and a scale-down cooldown of 60 seconds. -/
def inputScenarioC : Input binary64 :=
  { CurrentReplicas := 5
    Spec := ⟨1, 10, "Apply", "max",
      [⟨"cpu", "cpu_query", none, none, some ⟨B64.ofInt 30, 3⟩⟩], some downCooldownOnly⟩
    Samples := fun n => if n = "cpu" then some (B64.ofInt 10) else none
    Now := 100000000000
    LastScaleTime := some 90000000000
    History := [] }

/-- A metric whose scale-down fires below 30 and removes 5 replicas. -/
def downMetric : MetricSpec binary64 :=
  ⟨"cpu", "cpu_query", none, none, some ⟨B64.ofInt 30, 5⟩⟩

/-- Eight running replicas, candidate 3, a stabilization window of 30 seconds
and one history entry of 8 taken exactly 30 seconds ago. -/
def inputWindowEdge : Input binary64 :=
  { CurrentReplicas := 8
    Spec := ⟨1, 10, "Apply", "max", [downMetric], some ⟨some 30, none, none, none, none⟩⟩
    Samples := fun n => if n = "cpu" then some (B64.ofInt 10) else none
    Now := 100000000000
    LastScaleTime := none
    History := [⟨70000000000, 8⟩] }

/-- Eight running replicas, candidate 3, a stabilization window of 30 seconds,
a scale-up cap of 50 percent and one history entry of 20 taken 20 seconds
ago. -/
def inputWindowUpCap : Input binary64 :=
  { CurrentReplicas := 8
    Spec := ⟨1, 30, "Apply", "max", [downMetric], some ⟨some 30, none, none, some 50, none⟩⟩
    Samples := fun n => if n = "cpu" then some (B64.ofInt 10) else none
    Now := 100000000000
    LastScaleTime := none
    History := [⟨80000000000, 20⟩] }

/-- A current count of -2 with bounds `[-10, -3]`, a stabilization window of 30
seconds, a scale-down cap of 50 percent and one history entry of 2147483647
taken 20 seconds ago. -/
def inputWindowNegative : Input binary64 :=
  { CurrentReplicas := Int32.wrap (-2)
    Spec := ⟨Int32.wrap (-10), Int32.wrap (-3), "Apply", "max", [plainMetric],
      some ⟨some 30, none, none, none, some 50⟩⟩
    Samples := fun _ => none
    Now := 100000000000
    LastScaleTime := none
    History := [⟨80000000000, 2147483647⟩] }

/-- Ten running replicas with bounds `[1, 100]`, a metric asking for 20 more
and a scale-up cap of 50 percent. -/
def inputUpCap : Input binary64 :=
  { CurrentReplicas := 10
    Spec := ⟨1, 100, "Apply", "max",
      [⟨"cpu", "cpu_query", none, some ⟨B64.ofInt 70, 20⟩, none⟩],
      some ⟨none, none, none, some 50, none⟩⟩
    Samples := fun n => if n = "cpu" then some (B64.ofInt 80) else none
    Now := 100000000000
    LastScaleTime := none
    History := [] }

/-- An input whose specification lists no metric. -/
def inputNoMetrics : Input binary64 :=
  { CurrentReplicas := 4
    Spec := ⟨2, 10, "Apply", "max", [], none⟩
    Samples := fun _ => none
    Now := 100000000000
    LastScaleTime := none
    History := [] }

/-- Scenario A: four running replicas, bounds `[2, 10]`, one metric with a
scale-up threshold of 70 and step 2, sample 80, no behavior block. -/
def inputScenarioA : Input binary64 :=
  { CurrentReplicas := 4
    Spec := ⟨2, 10, "Apply", "max",
      [⟨"cpu", "cpu_query", none, some ⟨B64.ofInt 70, 2⟩, none⟩], none⟩
    Samples := fun n => if n = "cpu" then some (B64.ofInt 80) else none
    Now := 100000000000
    LastScaleTime := none
    History := [] }

/-- The history sample with timestamp `i` seconds and count `i`. -/
def sampleAt (i : Nat) : HistorySample := ⟨(i : Int) * 1000000000, Int32.wrap i⟩

/-- A metric with its own weight and scale directions. -/
def memMetric : MetricSpec binary64 :=
  ⟨"mem", "mem_query", some (B64.ofInt 3), some ⟨B64.ofInt 70, 4⟩, some ⟨B64.ofInt 30, 1⟩⟩

/-- Four running replicas under weighted aggregation; the metric `cpu` has the
sample 80 and asks for 6, the metric `mem` has no sample. -/
def inputMissingMem : Input binary64 :=
  { CurrentReplicas := 4
    Spec := ⟨2, 10, "Apply", "weighted",
      [⟨"cpu", "cpu_query", none, some ⟨B64.ofInt 70, 2⟩, none⟩, memMetric], none⟩
    Samples := fun n => if n = "cpu" then some (B64.ofInt 80) else none
    Now := 100000000000
    LastScaleTime := none
    History := [] }

/-- The `float64` values of the decimal literals `0.1`, `0.2` and `0.3`. -/
def tenthWeights : List B64 :=
  [B64.fin false 7205759403792794 (-56), B64.fin false 7205759403792794 (-55),
    B64.fin false 5404319552844595 (-54)]

/-! ## Quantities named by the properties -/

variable {fs : FloatSem}

/-- The per-metric projections and weights `Decide` collects. -/
def collected (fs : FloatSem) (inp : Input fs) : MetricAcc fs :=
  inp.Spec.Metrics.foldl (metricStep inp) ⟨[], [], []⟩

/-- The aggregated projection clamped into the bounds: the value `Decide`
passes to `applyCooldownAndHistory`. -/
def clamped (fs : FloatSem) (inp : Input fs) : Int32 :=
  clampBounds
    (aggregate fs (collected fs inp).metricDesired (collected fs inp).metricWeights
      inp.Spec.Aggregation)
    inp.Spec.MinReplicas inp.Spec.MaxReplicas

/-- The projection of one metric: the current count when the metric has no
sample, the result of `desiredFromMetric` otherwise. -/
def projection (inp : Input fs) (ms : MetricSpec fs) : Int32 :=
  match inp.Samples ms.Name with
  | none => inp.CurrentReplicas
  | some sample => desiredFromMetric inp.CurrentReplicas sample ms

/-- The weight `Decide` records for one metric: `1.0` when the metric has no
sample or declares no weight, the declared weight otherwise. -/
def effectiveWeight (inp : Input fs) (ms : MetricSpec fs) : fs.F :=
  match inp.Samples ms.Name with
  | none => fs.one
  | some _ =>
    match ms.Weight with
    | some w => w
    | none => fs.one

/-- A metric without its `scaleUp`, `scaleDown` and `weight`. -/
def stripMetric (ms : MetricSpec fs) : MetricSpec fs :=
  { ms with Weight := none, ScaleUp := none, ScaleDown := none }

/-- The input whose metric list is `pre ++ stripMetric m :: post` and whose
sample set maps the name of `m` to `v`. -/
def withNeutralSample (inp : Input fs) (pre post : List (MetricSpec fs)) (m : MetricSpec fs)
    (v : fs.F) : Input fs :=
  { inp with
    Spec := { inp.Spec with Metrics := pre ++ stripMetric m :: post }
    Samples := fun n => if n = m.Name then some v else inp.Samples n }

/-- The bounds clamp in the words of the specification: the value clamped into
`[mn, mx]`, over the integers. -/
def clampInto (mn mx x : Int) : Int := max mn (min mx x)

/-- The count after clamping, cooldown and stabilization: the value from which
`applyCooldownAndHistory` computes `delta`. -/
def stabilized (fs : FloatSem) (inp : Input fs) (b : BehaviorSpec) : Int32 :=
  stabilizationPhase inp b (cooldownPhase inp b (clamped fs inp)).1

/-- The bound `max(1, ⌊current · percent / 100⌋)` of the specification, over
the integers. -/
def stepBound (current percent : Int32) : Int :=
  max 1 (current.val * percent.val / 100)


/-- The exact value of a finite binary64 value as a rational number (zero for
an infinity or not-a-number). -/
def B64.toRat : B64 → Rat
  | .fin s m e => (if s then -1 else 1) * (m : Rat) * (2 : Rat) ^ e
  | _ => 0

/-- Rounding of a rational number toward zero. -/
def truncRat (q : Rat) : Int := if 0 ≤ q then ⌊q⌋ else -⌊-q⌋

/-- The weighted aggregate in the words of the specification, over the
rationals: `Σ(p_i · w_i) / Σ w_i` rounded toward zero, and the first
projection when the total weight is zero. -/
def weightedSpec (p : List Int32) (w : List Rat) : Int :=
  if w.sum = 0 then (p.headD 0).val
  else truncRat ((List.zipWith (fun a b => (a.val : Rat) * b) p w).sum / w.sum)

/-- One iteration of the loop of the `weighted` strategy on a pair of a
projection and its weight. -/
def weightedStep (fs : FloatSem) (nd : fs.F × fs.F) (vw : Int32 × fs.F) : fs.F × fs.F :=
  (fs.add nd.1 (fs.mul (fs.ofInt32 vw.1) vw.2), fs.add nd.2 vw.2)

namespace B64

/-- The canonical binary64 form of the positive integer `N < 2^53`. -/
def canon (neg : Bool) (N : Nat) : B64 :=
  fin neg (N <<< (53 - bitLen N)) ((bitLen N : Int) - 53)

/-- The value `x` is the integer `z`, of magnitude below `2^53`, in canonical
form (a zero of either sign for `z = 0`). -/
def IsInt (x : B64) (z : Int) : Prop :=
  (z = 0 ∧ ∃ s, x = fin s 0 (-1074)) ∨
    (z ≠ 0 ∧ z.natAbs < 9007199254740992 ∧ x = canon (decide (z < 0)) z.natAbs)

end B64

/-- A metric whose scale-up fires above 70 (two more replicas) and whose
scale-down fires below 90 (three fewer). -/
def bothFireMetric : MetricSpec binary64 :=
  ⟨"cpu", "cpu_query", none, some ⟨B64.ofInt 70, 2⟩, some ⟨B64.ofInt 90, 3⟩⟩

/-- The exact sum of a list of projections, over the integers. -/
def exactSum (desired : List Int32) : Int := (desired.map (fun v => v.val)).sum

/-- Four running replicas, a metric asking for 6, a scale 10 seconds ago, a
scale-up cooldown of 5 seconds (elapsed) and a scale-down cooldown of 600
seconds (not elapsed). -/
def inputUpAllowed : Input binary64 :=
  { CurrentReplicas := 4
    Spec := ⟨1, 10, "Apply", "max",
      [⟨"cpu", "cpu_query", none, some ⟨B64.ofInt 70, 2⟩, none⟩],
      some ⟨none, some 5, some 600, none, none⟩⟩
    Samples := fun n => if n = "cpu" then some (B64.ofInt 80) else none
    Now := 100000000000
    LastScaleTime := some 90000000000
    History := [] }

/-- Scenario D: eight running replicas, candidate 3, a stabilization window of
30 seconds and one history entry of 8 taken 20 seconds ago. -/
def inputScenarioD : Input binary64 :=
  { CurrentReplicas := 8
    Spec := ⟨1, 10, "Apply", "max", [downMetric], some ⟨some 30, none, none, none, none⟩⟩
    Samples := fun n => if n = "cpu" then some (B64.ofInt 10) else none
    Now := 100000000000
    LastScaleTime := none
    History := [⟨80000000000, 8⟩, ⟨70000000000, 9⟩] }

/-- A history entry is strictly newer than `w` seconds before `now`. -/
def inWindow (now : Int) (w : Int32) (h : HistorySample) : Bool :=
  decide (now - w.val * 1000000000 < h.Timestamp)

/-- The maximum of `d` and the values `vals`, over the integers. -/
def windowMax (d : Int) (vals : List Int) : Int := vals.foldl max d

/-- The clamped aggregate after the cooldown step: the scale-down candidate the
stabilization window looks at. -/
def cooled (fs : FloatSem) (inp : Input fs) (b : BehaviorSpec) : Int32 :=
  (cooldownPhase inp b (clamped fs inp)).1

/-- The part of `Reconcile` from `HistoryStore.Get` to `HistoryStore.Append`
with the engine `Decide`: the history of `key` becomes the input's `History`,
the engine decides, and a successful decision is appended as
`{Now, DesiredReplicas}` with the bound 20.  Returns the store, the decision
and the error. -/
def decideAndRecord (fs : FloatSem) (s : Store) (key : String) (inp : Input fs) :
    Store × Decision × Option String :=
  let input : Input fs := { inp with History := s.Get key }
  let out := Decide fs input
  match out.2 with
  | some e => (s, out.1, some e)
  | none => (s.Append key ⟨input.Now, out.1.DesiredReplicas⟩ 20, out.1, none)

/-- Consecutive cycles at the times `nows`: every cycle runs `decideAndRecord`
on the input `inp` with its own `Now`, on the store the cycle before left.
Returns the decisions in order. -/
def runCycles (fs : FloatSem) (key : String) (inp : Input fs) :
    Store → List Int → List Decision
  | _, [] => []
  | s, t :: ts =>
    let o := decideAndRecord fs s key { inp with Now := t }
    o.2.1 :: runCycles fs key inp o.1 ts

/-- Every time in the list is less than `gap` after the one before it, the
first one less than `gap` after `prev`. -/
def spaced (gap : Int) : Int → List Int → Prop
  | _, [] => True
  | prev, t :: ts => t - prev < gap ∧ spaced gap t ts

/-- Eight running replicas and a metric that asks for 3 in every cycle, under a
behavior block that only sets a stabilization window of 30 seconds. -/
def inputLowSignal : Input binary64 :=
  { CurrentReplicas := 8
    Spec := ⟨1, 10, "Apply", "max", [downMetric], some ⟨some 30, none, none, none, none⟩⟩
    Samples := fun n => if n = "cpu" then some (B64.ofInt 10) else none
    Now := 0
    LastScaleTime := none
    History := [] }

/-- A store whose history for `default/web` is the single entry `{0, 8}`. -/
def storeOneEntry : Store := NewStore.Append "default/web" ⟨0, 8⟩ 20

/-! ## The control loop (`pkg/controller/prometheusautoscaler_controller.go`)

`Reconcile` talks to four collaborators: the API client (`Get`, `Patch`,
`Status().Update`), the Prometheus client factory, the policy engine and the
event recorder.  Here their answers are fields of a record, so that a
statement about every `Reconciler` is a statement about whatever they return;
the calls that write are collected, in order, as a list of effects. -/

def ModeApply : String := "Apply"
def ModeDryRun : String := "DryRun"

/-- The workload to scale (`TargetRef`). -/
structure TargetRef where
  APIVersion : String
  Kind : String
  Name : String
  Namespace : String

/-- How to reach Prometheus (`PrometheusConfig`). -/
structure PrometheusConfig where
  URL : String
  AuthSecretRef : Option String

def ConditionTrue : String := "True"
def ConditionFalse : String := "False"

/-- The fields of `metav1.Condition` that `setCondition` fills; `CondType` is
the field `Type`. -/
structure Condition where
  CondType : String
  Status : String
  Reason : String
  Message : String
  LastTransitionTime : Int
deriving DecidableEq

/-- What the controller last computed or applied
(`PrometheusAutoscalerStatus`). -/
structure PrometheusAutoscalerStatus where
  CurrentReplicas : Option Int32
  DesiredReplicas : Option Int32
  LastScaleTime : Option Int
  LastPrometheusSample : String
  Conditions : List Condition
deriving DecidableEq

/-- The autoscaler object.  `TargetRef` and `Prometheus` are fields of the
spec in Go; the engine does not read them and they are kept beside `Spec`
here.  `DeletionTimestamp` is `none` when `IsZero()` holds. -/
structure PrometheusAutoscaler (fs : FloatSem) where
  Namespace : String
  Name : String
  DeletionTimestamp : Option Int
  TargetRef : TargetRef
  Prometheus : PrometheusConfig
  Spec : PrometheusAutoscalerSpec fs
  Status : PrometheusAutoscalerStatus

/-- The field `Spec.Replicas` of the target `Deployment`. -/
structure Deployment where
  Replicas : Option Int32

/-- The answer of a `client.Get`. -/
inductive GetResult (α : Type) where
  | found (obj : α)
  | notFound
  | failed (msg : String)

/-- A write issued by `Reconcile`: `Status().Update` with the status it
carries, `Patch` of the target with the replica count it carries, or an
event. -/
inductive Effect where
  | statusUpdate (status : PrometheusAutoscalerStatus)
  | patch (replicas : Int32)
  | event (eventtype reason message : String)
deriving DecidableEq

/-- The reconciler with the answers of its collaborators for one call of
`Reconcile`: the two `Get`s, the client factory (a client answers the `i`-th
query of the cycle for a PromQL string), the engine, the history store, the
results of `Status().Update` (which `Reconcile` at most logs) and of `Patch`,
the library functions
`meta.SetStatusCondition` and `json.Marshal`, and the clock readings
`time.Now()` for the input, `metav1.Now()` in `setCondition` and
`metav1.Now()` after a patch. -/
structure Reconciler (fs : FloatSem) where
  GetAutoscaler : GetResult (PrometheusAutoscaler fs)
  GetDeployment : String → String → GetResult Deployment
  PromClientFactory : String → Except String (Nat → String → Except String fs.F)
  PolicyEngine : Input fs → Decision × Option String
  HistoryStore : Store
  StatusUpdate : PrometheusAutoscalerStatus → Option String
  Patch : Int32 → Option String
  SetStatusCondition : List Condition → Condition → List Condition
  Marshal : List (String × fs.F) → String
  Now : Int
  ConditionTime : Int
  ScaleTime : Int

/-- What a call of `Reconcile` leaves behind: `Result.RequeueAfter` in
nanoseconds, the returned error, the writes in order, the history store, and
`pa.Status` as it stands at the return (`none` when no autoscaler was
read). -/
structure Outcome where
  RequeueAfter : Int
  Err : Option String
  Effects : List Effect
  HistoryStore : Store
  Status : Option PrometheusAutoscalerStatus

/-- The helper `setCondition`, with the message already formatted. -/
def setCondition (r : Reconciler fs) (status : PrometheusAutoscalerStatus)
    (condType condStatus reason msg : String) : PrometheusAutoscalerStatus :=
  { status with
    Conditions :=
      r.SetStatusCondition status.Conditions ⟨condType, condStatus, reason, msg, r.ConditionTime⟩ }

/-- The loop `for _, ms := range pa.Spec.Metrics` of `Reconcile`: the
assignments `samples[ms.Name] = val` in order, or the first query error. -/
def querySamples (query : Nat → String → Except String fs.F) :
    List (MetricSpec fs) → Nat → List (String × fs.F) → Except String (List (String × fs.F))
  | [], _, acc => Except.ok acc
  | ms :: rest, i, acc =>
    match query i ms.PromQL with
    | Except.error e => Except.error e
    | Except.ok val => querySamples query rest (i + 1) (acc ++ [(ms.Name, val)])

/-- The map that a sequence of assignments `samples[name] = val` builds: the
last assignment to a name wins. -/
def samplesMap (assigned : List (String × fs.F)) : String → Option fs.F :=
  fun name => (assigned.reverse.find? (fun p => p.1 = name)).map (fun p => p.2)

/-- What `Reconcile` holds once the engine has decided without an error. -/
structure Decided (fs : FloatSem) where
  pa : PrometheusAutoscaler fs
  deploy : Deployment
  samples : List (String × fs.F)
  currentReplicas : Int32
  input : Input fs
  decision : Decision

/-- The first part of `Reconcile`, up to the call of the engine: an early
return, or the decision with what led to it. -/
def decidePhase (r : Reconciler fs) : Outcome ⊕ Decided fs :=
  match r.GetAutoscaler with
  | GetResult.notFound => Sum.inl ⟨0, none, [], r.HistoryStore, none⟩
  | GetResult.failed msg =>
    Sum.inl ⟨0, some ("getting PrometheusAutoscaler: " ++ msg), [], r.HistoryStore, none⟩
  | GetResult.found pa =>
    if pa.DeletionTimestamp.isSome then
      Sum.inl ⟨0, none, [], r.HistoryStore, some pa.Status⟩
    else
      match r.GetDeployment pa.TargetRef.Namespace pa.TargetRef.Name with
      | GetResult.notFound =>
        let status := setCondition r pa.Status "TargetFound" ConditionFalse "NotFound"
          ("Target workload " ++ pa.TargetRef.Namespace ++ "/" ++ pa.TargetRef.Name ++
            " not found")
        Sum.inl ⟨30000000000, none, [Effect.statusUpdate status], r.HistoryStore, some status⟩
      | GetResult.failed msg =>
        Sum.inl ⟨0, some ("getting target deployment: " ++ msg), [], r.HistoryStore,
          some pa.Status⟩
      | GetResult.found deploy =>
        match r.PromClientFactory pa.Prometheus.URL with
        | Except.error e =>
          let status := setCondition r pa.Status "PrometheusAvailable" ConditionFalse
            "ClientError" e
          Sum.inl ⟨60000000000, none, [Effect.statusUpdate status], r.HistoryStore,
            some status⟩
        | Except.ok promClient =>
          match querySamples promClient pa.Spec.Metrics 0 [] with
          | Except.error e =>
            let status := setCondition r pa.Status "PrometheusAvailable" ConditionFalse
              "QueryError" e
            Sum.inl ⟨30000000000, none, [Effect.statusUpdate status], r.HistoryStore,
              some status⟩
          | Except.ok samples =>
            let currentReplicas : Int32 :=
              match deploy.Replicas with
              | some n => n
              | none => 1
            let historyKey := pa.Namespace ++ "/" ++ pa.Name
            let hist := r.HistoryStore.Get historyKey
            let input : Input fs :=
              { CurrentReplicas := currentReplicas
                Spec := pa.Spec
                Samples := samplesMap samples
                Now := r.Now
                LastScaleTime := pa.Status.LastScaleTime
                History := hist }
            match r.PolicyEngine input with
            | (_, some e) =>
              let status := setCondition r pa.Status "SpecValid" ConditionFalse "PolicyError" e
              Sum.inl ⟨60000000000, none, [Effect.statusUpdate status], r.HistoryStore,
                some status⟩
            | (decision, none) =>
              Sum.inr ⟨pa, deploy, samples, currentReplicas, input, decision⟩

/-- The second part of `Reconcile`, from `desired := decision.DesiredReplicas`
to the end. -/
def applyPhase (r : Reconciler fs) (d : Decided fs) : Outcome :=
  let desired := d.decision.DesiredReplicas
  let store := r.HistoryStore.Append (d.pa.Namespace ++ "/" ++ d.pa.Name)
    ⟨d.input.Now, desired⟩ 20
  let status : PrometheusAutoscalerStatus :=
    { d.pa.Status with
      LastPrometheusSample := r.Marshal d.samples
      DesiredReplicas := some desired
      CurrentReplicas := some d.currentReplicas }
  if d.pa.Spec.Mode = ModeDryRun then
    let status := setCondition r status "Ready" ConditionTrue "DryRun"
      "Computed desired replicas in DryRun mode; no changes applied"
    ⟨30000000000, none, [Effect.statusUpdate status], store, some status⟩
  else if desired = d.currentReplicas then
    let status := setCondition r status "Ready" ConditionTrue "SteadyState"
      "Current replicas already match desired"
    ⟨30000000000, none, [Effect.statusUpdate status], store, some status⟩
  else
    match r.Patch desired with
    | some e =>
      let status := setCondition r status "Ready" ConditionFalse "ScaleFailed" e
      ⟨0, some ("patching target deployment: " ++ e),
        [Effect.patch desired, Effect.statusUpdate status], store, some status⟩
    | none =>
      let status := { status with LastScaleTime := some r.ScaleTime }
      let status := setCondition r status "Ready" ConditionTrue "Scaled"
        ("Scaled from " ++ toString d.currentReplicas.val ++ " to " ++ toString desired.val)
      ⟨30000000000, none,
        [Effect.patch desired, Effect.statusUpdate status,
          Effect.event "Normal" "Scaled"
            ("Scaled target " ++ d.pa.TargetRef.Namespace ++ "/" ++ d.pa.TargetRef.Name ++
              " from " ++ toString d.currentReplicas.val ++ " to " ++ toString desired.val)],
        store, some status⟩

/-- The core control loop (`PrometheusAutoscalerReconciler.Reconcile`). -/
def Reconcile (r : Reconciler fs) : Outcome :=
  match decidePhase r with
  | Sum.inl out => out
  | Sum.inr d => applyPhase r d

/-- A stand-in for `meta.SetStatusCondition` to run `Reconcile` with: the
condition of the same type is replaced, or the new one is appended. -/
def replaceCondition (conditions : List Condition) (c : Condition) : List Condition :=
  if conditions.any (fun x => x.CondType = c.CondType) then
    conditions.map (fun x => if x.CondType = c.CondType then c else x)
  else conditions ++ [c]

/-- An autoscaler in DryRun mode for the deployment `default/web`, last scaled
at second 10. -/
def dryRunAutoscaler : PrometheusAutoscaler binary64 :=
  { Namespace := "default"
    Name := "web"
    DeletionTimestamp := none
    TargetRef := ⟨"apps/v1", "Deployment", "web", "default"⟩
    Prometheus := ⟨"http://prometheus:9090", none⟩
    Spec := ⟨1, 10, ModeDryRun, "max",
      [⟨"cpu", "cpu_query", none, some ⟨B64.ofInt 70, 2⟩, none⟩], none⟩
    Status := ⟨none, none, some 10000000000, "", []⟩ }

/-- A reconciler whose collaborators all answer: the autoscaler
`dryRunAutoscaler`, a deployment of 4 replicas, a Prometheus value of 80 for
every query, the engine `Decide`, and a status update that fails. -/
def dryRunReconciler : Reconciler binary64 :=
  { GetAutoscaler := GetResult.found dryRunAutoscaler
    GetDeployment := fun _ _ => GetResult.found ⟨some 4⟩
    PromClientFactory := fun _ => Except.ok (fun _ _ => Except.ok (B64.ofInt 80))
    PolicyEngine := Decide binary64
    HistoryStore := NewStore
    StatusUpdate := fun _ => some "conflict"
    Patch := fun _ => none
    SetStatusCondition := replaceCondition
    Marshal := fun _ => "\x7b\"cpu\":80\x7d"
    Now := 100000000000
    ConditionTime := 100000000001
    ScaleTime := 100000000002 }

/-- A reconciler for one cycle at the time `now` on the store `s`: an Apply
autoscaler `default/web` with the spec of `inputLowSignal`, a deployment of 8
replicas, a Prometheus value of 10 for every query and the engine `Decide`. -/
def lowSignalReconciler (s : Store) (now : Int) : Reconciler binary64 :=
  { GetAutoscaler := GetResult.found
      { Namespace := "default"
        Name := "web"
        DeletionTimestamp := none
        TargetRef := ⟨"apps/v1", "Deployment", "web", "default"⟩
        Prometheus := ⟨"http://prometheus:9090", none⟩
        Spec := inputLowSignal.Spec
        Status := ⟨none, none, none, "", []⟩ }
    GetDeployment := fun _ _ => GetResult.found ⟨some 8⟩
    PromClientFactory := fun _ => Except.ok (fun _ _ => Except.ok (B64.ofInt 10))
    PolicyEngine := Decide binary64
    HistoryStore := s
    StatusUpdate := fun _ => none
    Patch := fun _ => none
    SetStatusCondition := replaceCondition
    Marshal := fun _ => ""
    Now := now
    ConditionTime := now
    ScaleTime := now }

/-! ## Basic facts -/

theorem Int32.ext {a b : Int32} (h : a.val = b.val) : a = b := by
  cases a; cases b; cases h; rfl

theorem Int32.wrap_val_of_range {x : Int} (h1 : -2147483648 ≤ x) (h2 : x ≤ 2147483647) :
    (Int32.wrap x).val = x := by
  show (x + 2147483648) % 4294967296 - 2147483648 = x
  omega

theorem Int32.add_val (a b : Int32) :
    (Int32.add a b).val = (a.val + b.val + 2147483648) % 4294967296 - 2147483648 := rfl

theorem Int32.sub_val (a b : Int32) :
    (Int32.sub a b).val = (a.val - b.val + 2147483648) % 4294967296 - 2147483648 := rfl

theorem Int32.neg_val (a : Int32) :
    (Int32.neg a).val = (-a.val + 2147483648) % 4294967296 - 2147483648 := rfl

theorem Int32.mul_val (a b : Int32) :
    (Int32.mul a b).val = (a.val * b.val + 2147483648) % 4294967296 - 2147483648 := rfl

theorem Int32.div_val (a b : Int32) :
    (Int32.div a b).val = (Int.tdiv a.val b.val + 2147483648) % 4294967296 - 2147483648 := rfl

theorem Int32.ofNat_val_zero : (0 : Int32).val = 0 := rfl

theorem Int32.ofNat_val_one : (1 : Int32).val = 1 := rfl

theorem Int32.ofNat_val_hundred : (100 : Int32).val = 100 := rfl

/-- On a non-empty metric list `Decide` returns no error and the result of
`applyCooldownAndHistory` at the clamped aggregate. -/
theorem Decide_of_metrics (inp : Input fs) (hm : 1 ≤ inp.Spec.Metrics.length) :
    (Decide fs inp).2 = none ∧
    (Decide fs inp).1.DesiredReplicas = (applyCooldownAndHistory inp (clamped fs inp)).1 ∧
    (Decide fs inp).1.CooldownActive = (applyCooldownAndHistory inp (clamped fs inp)).2 := by
  have hl : ¬ inp.Spec.Metrics.length = 0 := by omega
  simp only [Decide, hl, if_false, clamped, collected]
  exact ⟨trivial, trivial, trivial⟩

theorem clampBounds_le_max (d mn mx : Int32) : (clampBounds d mn mx).val ≤ mx.val := by
  unfold clampBounds
  simp only
  split <;> split <;> omega

theorem clampBounds_ge_min (d mn mx : Int32) (h : mn.val ≤ mx.val) :
    mn.val ≤ (clampBounds d mn mx).val := by
  unfold clampBounds
  simp only
  split <;> split <;> omega


theorem rateLimitStep_nonneg (current percent : Int32) :
    0 ≤ (rateLimitStep current percent).val := by
  unfold rateLimitStep
  split
  · exact le_refl _
  · simp only
    split
    · decide
    · omega

/-- The cooldown phase either keeps the count it is given and reports no
cooldown, or returns the current count and reports a cooldown. -/
theorem cooldownPhase_cases (inp : Input fs) (b : BehaviorSpec) (d : Int32) :
    cooldownPhase inp b d = (d, false) ∨ cooldownPhase inp b d = (inp.CurrentReplicas, true) := by
  unfold cooldownPhase
  split
  · exact Or.inl rfl
  · dsimp only
    repeat' split
    all_goals first | exact Or.inl rfl | exact Or.inr rfl

theorem windowScan_cons (cutoff : Int) (h : HistorySample) (t : List HistorySample)
    (init : Int32) :
    windowScan cutoff (h :: t) init =
      windowScan cutoff t
        (if Time.After h.Timestamp cutoff = true ∧ h.DesiredReplicas.val > init.val then
          h.DesiredReplicas
        else init) := rfl

theorem windowScan_ge_init (cutoff : Int) (hist : List HistorySample) (init : Int32) :
    init.val ≤ (windowScan cutoff hist init).val := by
  induction hist generalizing init with
  | nil => exact le_refl _
  | cons h t ih =>
    rw [windowScan_cons]
    split
    · rename_i hc
      exact le_trans (le_of_lt hc.2) (ih _)
    · exact ih _

theorem windowScan_ge_mem (cutoff : Int) (hist : List HistorySample) (init : Int32)
    (h : HistorySample) (hmem : h ∈ hist) (hafter : Time.After h.Timestamp cutoff = true) :
    h.DesiredReplicas.val ≤ (windowScan cutoff hist init).val := by
  induction hist generalizing init with
  | nil => cases hmem
  | cons x t ih =>
    rcases List.mem_cons.mp hmem with rfl | hin
    · rw [windowScan_cons]
      split
      · exact windowScan_ge_init _ _ _
      · rename_i hc
        have h2 := windowScan_ge_init cutoff t init
        have : ¬ h.DesiredReplicas.val > init.val := fun hgt => hc ⟨hafter, hgt⟩
        omega
    · exact ih _ hin

theorem windowScan_le_bound (cutoff : Int) (hist : List HistorySample) (init : Int32) (bound : Int)
    (hinit : init.val ≤ bound)
    (hh : ∀ h ∈ hist, Time.After h.Timestamp cutoff = true → h.DesiredReplicas.val ≤ bound) :
    (windowScan cutoff hist init).val ≤ bound := by
  induction hist generalizing init with
  | nil => exact hinit
  | cons x t ih =>
    rw [windowScan_cons]
    apply ih
    · split
      · rename_i hc
        exact hh x (List.mem_cons_self _ _) hc.1
      · exact hinit
    · intro h hm
      exact hh h (List.mem_cons_of_mem _ hm)

theorem stabilizationPhase_eq (inp : Input fs) (b : BehaviorSpec) (d : Int32) :
    stabilizationPhase inp b d =
      match b.StabilizationWindowSeconds with
      | some w =>
        if d.val < inp.CurrentReplicas.val then
          windowScan (Time.Add inp.Now (wrap64 (-secondsDuration w))) inp.History d
        else d
      | none => d := rfl

theorem stabilizationPhase_ge (inp : Input fs) (b : BehaviorSpec) (d : Int32) :
    d.val ≤ (stabilizationPhase inp b d).val := by
  rw [stabilizationPhase_eq]
  split
  · split
    · exact windowScan_ge_init _ _ _
    · exact le_refl _
  · exact le_refl _

theorem stabilizationPhase_le_bound (inp : Input fs) (b : BehaviorSpec) (d : Int32) (bound : Int)
    (hd : d.val ≤ bound) (hh : ∀ h ∈ inp.History, h.DesiredReplicas.val ≤ bound) :
    (stabilizationPhase inp b d).val ≤ bound := by
  rw [stabilizationPhase_eq]
  split
  · split
    · exact windowScan_le_bound _ _ _ _ hd (fun h hm _ => hh h hm)
    · exact hd
  · exact hd


/-- Rate limiting keeps the count between the current count and the count it
is given, when the latter is not negative and the current count is positive. -/
theorem rateLimitPhase_between (inp : Input fs) (b : BehaviorSpec) (r : Int32) (ca : Bool)
    (hr : 0 ≤ r.val) (hc : 1 ≤ inp.CurrentReplicas.val) :
    ((rateLimitPhase inp b r ca).1.val ≤ r.val ∨
        (rateLimitPhase inp b r ca).1.val ≤ inp.CurrentReplicas.val) ∧
      (r.val ≤ (rateLimitPhase inp b r ca).1.val ∨
        inp.CurrentReplicas.val ≤ (rateLimitPhase inp b r ca).1.val) ∧
      1 ≤ (rateLimitPhase inp b r ca).1.val := by
  have hlo := r.lo
  have hhi := r.hi
  have clo := inp.CurrentReplicas.lo
  have chi := inp.CurrentReplicas.hi
  unfold rateLimitPhase
  rcases hup : b.MaxScaleUpStepPercent with _ | pu <;>
    rcases hdown : b.MaxScaleDownStepPercent with _ | pd
  all_goals dsimp only
  all_goals try have hu := rateLimitStep_nonneg inp.CurrentReplicas pu
  all_goals try have hd := rateLimitStep_nonneg inp.CurrentReplicas pd
  all_goals try have hu2 := (rateLimitStep inp.CurrentReplicas pu).hi
  all_goals try have hd2 := (rateLimitStep inp.CurrentReplicas pd).hi
  all_goals repeat' split
  all_goals simp only [Int32.add_val, Int32.sub_val, Int32.neg_val, Int32.ofNat_val_one] at *
  all_goals omega


theorem wrap64_of_range (x : Int) (h1 : -9223372036854775808 ≤ x)
    (h2 : x ≤ 9223372036854775807) : wrap64 x = x := by
  unfold wrap64
  omega

theorem secondsDuration_eq (s : Int32) : secondsDuration s = s.val * 1000000000 := by
  have h1 := s.lo
  have h2 := s.hi
  exact wrap64_of_range (s.val * 1000000000) (by omega) (by omega)

/-- The cutoff of the stabilization window is `w` seconds before `now`. -/
theorem cutoff_eq (now : Int) (w : Int32) :
    Time.Add now (wrap64 (-secondsDuration w)) = now - w.val * 1000000000 := by
  have h1 := w.lo
  have h2 := w.hi
  rw [secondsDuration_eq, wrap64_of_range (-(w.val * 1000000000)) (by omega) (by omega)]
  show now + -(w.val * 1000000000) = now - w.val * 1000000000
  omega

theorem Time.After_iff (t u : Int) : Time.After t u = true ↔ u < t := by
  unfold Time.After
  exact decide_eq_true_iff

/-! ## C1: bounds of the decision -/

/-- C1, as stated, fails: with 20 running replicas, bounds `[2, 10]` and an
active scale-down cooldown, `Decide` returns 20, above `MaxReplicas`. -/
theorem C1_counterexample :
    1 ≤ inputAboveMax.Spec.Metrics.length ∧
    1 ≤ inputAboveMax.Spec.MinReplicas.val ∧
    inputAboveMax.Spec.MinReplicas.val ≤ inputAboveMax.Spec.MaxReplicas.val ∧
    (Decide binary64 inputAboveMax).1.DesiredReplicas.val = 20 ∧
    ¬ (inputAboveMax.Spec.MinReplicas.val ≤ (Decide binary64 inputAboveMax).1.DesiredReplicas.val ∧
      (Decide binary64 inputAboveMax).1.DesiredReplicas.val ≤ inputAboveMax.Spec.MaxReplicas.val) := by
  decide

/-- C1, amended: for an input with at least one metric and
`1 ≤ MinReplicas ≤ MaxReplicas`, the returned count lies in
`[MinReplicas, MaxReplicas]` when there is no behavior block, and also with a
behavior block provided the current count lies in `[MinReplicas, MaxReplicas]`
and no history entry newer than the stabilization cutoff exceeds
`MaxReplicas`. -/
theorem C1_bounds_amended (inp : Input fs) (hm : 1 ≤ inp.Spec.Metrics.length)
    (h1 : 1 ≤ inp.Spec.MinReplicas.val)
    (h2 : inp.Spec.MinReplicas.val ≤ inp.Spec.MaxReplicas.val)
    (hb : ∀ b, inp.Spec.Behavior = some b →
      inp.Spec.MinReplicas.val ≤ inp.CurrentReplicas.val ∧
      inp.CurrentReplicas.val ≤ inp.Spec.MaxReplicas.val ∧
      ∀ w, b.StabilizationWindowSeconds = some w → ∀ h ∈ inp.History,
        inp.Now - w.val * 1000000000 < h.Timestamp →
        h.DesiredReplicas.val ≤ inp.Spec.MaxReplicas.val) :
    inp.Spec.MinReplicas.val ≤ (Decide fs inp).1.DesiredReplicas.val ∧
      (Decide fs inp).1.DesiredReplicas.val ≤ inp.Spec.MaxReplicas.val := by
  obtain ⟨-, hd, -⟩ := Decide_of_metrics inp hm
  rw [hd]
  have hc1 : inp.Spec.MinReplicas.val ≤ (clamped fs inp).val := clampBounds_ge_min _ _ _ h2
  have hc2 : (clamped fs inp).val ≤ inp.Spec.MaxReplicas.val := clampBounds_le_max _ _ _
  unfold applyCooldownAndHistory
  rcases hbeh : inp.Spec.Behavior with _ | b
  · exact ⟨hc1, hc2⟩
  · obtain ⟨hcur1, hcur2, hhist⟩ := hb b hbeh
    dsimp only
    -- the cooldown phase stays within the bounds
    have hcd : inp.Spec.MinReplicas.val ≤ (cooldownPhase inp b (clamped fs inp)).1.val ∧
        (cooldownPhase inp b (clamped fs inp)).1.val ≤ inp.Spec.MaxReplicas.val := by
      rcases cooldownPhase_cases inp b (clamped fs inp) with h | h <;> rw [h]
      · exact ⟨hc1, hc2⟩
      · exact ⟨hcur1, hcur2⟩
    -- and so does the stabilization phase
    have hst1 := stabilizationPhase_ge inp b (cooldownPhase inp b (clamped fs inp)).1
    have hst2 : (stabilizationPhase inp b (cooldownPhase inp b (clamped fs inp)).1).val ≤
        inp.Spec.MaxReplicas.val := by
      rw [stabilizationPhase_eq]
      split
      · rename_i w hw
        split
        · apply windowScan_le_bound _ _ _ _ hcd.2
          intro h hmem hafter
          rw [cutoff_eq, Time.After_iff] at hafter
          exact hhist w hw h hmem hafter
        · exact hcd.2
      · exact hcd.2
    have hrl := rateLimitPhase_between inp b
      (stabilizationPhase inp b (cooldownPhase inp b (clamped fs inp)).1)
      (cooldownPhase inp b (clamped fs inp)).2 (by omega) (by omega)
    omega

/-- C1, amended, at an input with a full behavior block: the result 8 lies in
`[2, 10]`. -/
theorem C1_bounds_amended_witness :
    1 ≤ inputInRange.Spec.Metrics.length ∧
    (Decide binary64 inputInRange).1.DesiredReplicas.val = 8 ∧
    (inputInRange.Spec.MinReplicas.val ≤ (Decide binary64 inputInRange).1.DesiredReplicas.val ∧
      (Decide binary64 inputInRange).1.DesiredReplicas.val ≤ inputInRange.Spec.MaxReplicas.val) :=
  ⟨by decide, by decide,
    C1_bounds_amended inputInRange (by decide) (by decide) (by decide) (by
      intro b hb
      cases hb
      refine ⟨by decide, by decide, ?_⟩
      intro w hw
      cases hw
      decide)⟩


/-! ## C2: floor at one -/

theorem floor_one_le (x : Int32) : 1 ≤ (if x.val < 1 then (1 : Int32) else x).val := by
  split
  · decide
  · omega

/-- With a behavior block the rate-limiting phase returns at least 1 or returns
the current count unchanged. -/
theorem rateLimitPhase_floor (inp : Input fs) (b : BehaviorSpec) (r : Int32) (ca : Bool) :
    1 ≤ (rateLimitPhase inp b r ca).1.val ∨ (rateLimitPhase inp b r ca).1 = inp.CurrentReplicas := by
  have hlo := r.lo
  have hhi := r.hi
  have clo := inp.CurrentReplicas.lo
  have chi := inp.CurrentReplicas.hi
  unfold rateLimitPhase
  dsimp only
  by_cases h0 : (Int32.sub r inp.CurrentReplicas).val = 0
  · rw [if_pos h0]
    right
    apply Int32.ext
    rw [Int32.sub_val] at h0
    show r.val = inp.CurrentReplicas.val
    omega
  · rw [if_neg h0]
    left
    exact floor_one_le _

/-- C2, as stated, fails: without a behavior block and with `MinReplicas = 0`
a workload at zero replicas gets `DesiredReplicas = 0`; and with valid bounds
`[1, 10]` an active scale-up cooldown returns the current count 0. -/
theorem C2_counterexample :
    (1 ≤ inputZeroNoBehavior.Spec.Metrics.length ∧
      inputZeroNoBehavior.Spec.MinReplicas.val < 1 ∧
      (Decide binary64 inputZeroNoBehavior).1.DesiredReplicas.val = 0 ∧
      ¬ 1 ≤ (Decide binary64 inputZeroNoBehavior).1.DesiredReplicas.val) ∧
    (1 ≤ inputZeroCooldown.Spec.Metrics.length ∧
      (Decide binary64 inputZeroCooldown).1.DesiredReplicas.val = 0 ∧
      ¬ 1 ≤ (Decide binary64 inputZeroCooldown).1.DesiredReplicas.val) := by
  decide

/-- C2, amended: for an input with at least one metric the returned count is at
least 1 when a behavior block is present and the current count is at least 1
(whatever the bounds are), and when no behavior block is present and both
bounds are at least 1. -/
theorem C2_floor_amended (inp : Input fs) (hm : 1 ≤ inp.Spec.Metrics.length)
    (h : (inp.Spec.Behavior.isSome = true ∧ 1 ≤ inp.CurrentReplicas.val) ∨
      (inp.Spec.Behavior = none ∧ 1 ≤ inp.Spec.MinReplicas.val ∧
        1 ≤ inp.Spec.MaxReplicas.val)) :
    1 ≤ (Decide fs inp).1.DesiredReplicas.val := by
  obtain ⟨-, hd, -⟩ := Decide_of_metrics inp hm
  rw [hd]
  unfold applyCooldownAndHistory
  rcases hbeh : inp.Spec.Behavior with _ | b
  · rcases h with ⟨hs, -⟩ | ⟨-, hmin, hmax⟩
    · rw [hbeh] at hs
      cases hs
    · show 1 ≤ (clamped fs inp).val
      unfold clamped clampBounds
      dsimp only
      split <;> split <;> omega
  · rcases h with ⟨-, hcur⟩ | ⟨hn, -⟩
    · dsimp only
      rcases rateLimitPhase_floor inp b
        (stabilizationPhase inp b (cooldownPhase inp b (clamped fs inp)).1)
        (cooldownPhase inp b (clamped fs inp)).2 with h1 | h1
      · exact h1
      · rw [h1]
        exact hcur
    · rw [hbeh] at hn
      cases hn

/-- C2, amended, at an input with a behavior block, a current count of 8 and a
metric that asks for fewer replicas. -/
theorem C2_floor_amended_witness :
    1 ≤ inputInRange.Spec.Metrics.length ∧
    (inputInRange.Spec.Behavior.isSome = true ∧ 1 ≤ inputInRange.CurrentReplicas.val) ∧
    1 ≤ (Decide binary64 inputInRange).1.DesiredReplicas.val :=
  ⟨by decide, by decide, C2_floor_amended inputInRange (by decide) (Or.inl (by decide))⟩


/-! ## C3: cooldown forces the current count -/

/-- The saturation of `Time.Sub` does not change a comparison with a cooldown
given in `int32` seconds. -/
theorem elapsed_lt_iff (now last : Int) (s : Int32) :
    Time.Sub now last < secondsDuration s ↔ now - last < s.val * 1000000000 := by
  have h1 := s.lo
  have h2 := s.hi
  rw [secondsDuration_eq]
  unfold Time.Sub maxDuration minDuration
  split
  · omega
  · split <;> omega

theorem stabilizationPhase_current (inp : Input fs) (b : BehaviorSpec) :
    stabilizationPhase inp b inp.CurrentReplicas = inp.CurrentReplicas := by
  rw [stabilizationPhase_eq]
  split
  · rw [if_neg (lt_irrefl _)]
  · rfl

theorem rateLimitPhase_current (inp : Input fs) (b : BehaviorSpec) (ca : Bool) :
    rateLimitPhase inp b inp.CurrentReplicas ca = (inp.CurrentReplicas, ca) := by
  have h0 : (Int32.sub inp.CurrentReplicas inp.CurrentReplicas).val = 0 := by
    rw [Int32.sub_val]
    omega
  unfold rateLimitPhase
  dsimp only
  rw [if_pos h0]

/-- When the cooldown phase returns the current count, so does the whole of
`applyCooldownAndHistory`, with the same flag. -/
theorem applyCooldownAndHistory_of_cooldown (inp : Input fs) (b : BehaviorSpec) (d : Int32)
    (ca : Bool) (hb : inp.Spec.Behavior = some b)
    (hcd : cooldownPhase inp b d = (inp.CurrentReplicas, ca)) :
    applyCooldownAndHistory inp d = (inp.CurrentReplicas, ca) := by
  unfold applyCooldownAndHistory
  rw [hb]
  dsimp only
  rw [hcd]
  dsimp only
  rw [stabilizationPhase_current, rateLimitPhase_current]

/-- C3: with a behavior block and a known `LastScaleTime`, if the clamped
aggregate is above the current count and the scale-up cooldown `s` has not
elapsed, or it is below the current count and the scale-down cooldown `s` has
not elapsed, then `Decide` returns the current count and
`CooldownActive = true`. -/
theorem C3_cooldown_forces_current (inp : Input fs) (b : BehaviorSpec) (last : Int) (s : Int32)
    (hm : 1 ≤ inp.Spec.Metrics.length)
    (hb : inp.Spec.Behavior = some b) (hl : inp.LastScaleTime = some last)
    (hdir : ((clamped fs inp).val > inp.CurrentReplicas.val ∧
        b.ScaleUpCooldownSeconds = some s) ∨
      ((clamped fs inp).val < inp.CurrentReplicas.val ∧
        b.ScaleDownCooldownSeconds = some s))
    (he : inp.Now - last < s.val * 1000000000) :
    (Decide fs inp).1.DesiredReplicas = inp.CurrentReplicas ∧
      (Decide fs inp).1.CooldownActive = true := by
  obtain ⟨-, hd, hc⟩ := Decide_of_metrics inp hm
  rw [hd, hc]
  have he2 := (elapsed_lt_iff inp.Now last s).mpr he
  have hcd : cooldownPhase inp b (clamped fs inp) = (inp.CurrentReplicas, true) := by
    unfold cooldownPhase
    rw [hl]
    dsimp only
    rcases hdir with ⟨hgt, hs⟩ | ⟨hlt, hs⟩
    · rw [hs]
      dsimp only
      rw [if_pos ⟨hgt, he2⟩]
      dsimp only
      rcases hdn : b.ScaleDownCooldownSeconds with _ | sd
      · rfl
      · dsimp only
        split <;> rfl
    · rw [hs]
      dsimp only
      have hng : ¬ (clamped fs inp).val > inp.CurrentReplicas.val := by omega
      rcases hu : b.ScaleUpCooldownSeconds with _ | su
      · dsimp only
        rw [if_pos ⟨hlt, he2⟩]
      · dsimp only
        have hst : (if (clamped fs inp).val > inp.CurrentReplicas.val ∧
            Time.Sub inp.Now last < secondsDuration su then (inp.CurrentReplicas, true)
            else (clamped fs inp, false)) = (clamped fs inp, false) :=
          if_neg (fun h => hng h.1)
        rw [hst]
        dsimp only
        rw [if_pos ⟨hlt, he2⟩]
  rw [applyCooldownAndHistory_of_cooldown inp b _ true hb hcd]
  exact ⟨rfl, rfl⟩

/-- C3 at Scenario C: current 5, clamped aggregate 2, last scale 10 seconds
ago, scale-down cooldown 60 seconds: the result is 5 with the cooldown
reported. -/
theorem C3_cooldown_forces_current_witness :
    (clamped binary64 inputScenarioC).val = 2 ∧
    (Decide binary64 inputScenarioC).1.DesiredReplicas.val = 5 ∧
    ((Decide binary64 inputScenarioC).1.DesiredReplicas = inputScenarioC.CurrentReplicas ∧
      (Decide binary64 inputScenarioC).1.CooldownActive = true) :=
  ⟨by decide, by decide,
    C3_cooldown_forces_current inputScenarioC downCooldownOnly 90000000000 60 (by decide) rfl rfl
      (Or.inr ⟨by decide, rfl⟩) (by decide)⟩


/-! ## C4: stabilization invariant -/

/-- After rate limiting, with a current count that is not negative: the result
is at least the count `r` given to the phase when no scale-up cap is set, and
at least the smaller of `r` and the current count in any case. -/
theorem rateLimitPhase_ge (inp : Input fs) (b : BehaviorSpec) (r : Int32) (ca : Bool)
    (hc : 0 ≤ inp.CurrentReplicas.val) :
    (b.MaxScaleUpStepPercent = none → r.val ≤ (rateLimitPhase inp b r ca).1.val) ∧
      (r.val ≤ (rateLimitPhase inp b r ca).1.val ∨
        inp.CurrentReplicas.val ≤ (rateLimitPhase inp b r ca).1.val) := by
  have hlo := r.lo
  have hhi := r.hi
  have clo := inp.CurrentReplicas.lo
  have chi := inp.CurrentReplicas.hi
  unfold rateLimitPhase
  rcases hup : b.MaxScaleUpStepPercent with _ | pu <;>
    rcases hdown : b.MaxScaleDownStepPercent with _ | pd
  all_goals dsimp only
  all_goals try have hu := rateLimitStep_nonneg inp.CurrentReplicas pu
  all_goals try have hd := rateLimitStep_nonneg inp.CurrentReplicas pd
  all_goals try have hu2 := (rateLimitStep inp.CurrentReplicas pu).hi
  all_goals try have hd2 := (rateLimitStep inp.CurrentReplicas pd).hi
  all_goals refine ⟨?_, ?_⟩
  all_goals try intro hnone
  all_goals repeat' split
  all_goals simp only [Int32.add_val, Int32.sub_val, Int32.neg_val, Int32.ofNat_val_one,
    reduceCtorEq] at *
  all_goals omega

/-- C4, as stated, fails.  An entry of 8 taken exactly `w = 30` seconds ago lies
in the closed interval but is not scanned: the result is 3.  An entry of 20
inside the window is scanned, but a scale-up cap of 50 percent then limits the
result to 12.  With a negative current count the difference to an entry of
2147483647 wraps around and the result is 1. -/
theorem C4_counterexample :
    ((cooldownPhase inputWindowEdge ⟨some 30, none, none, none, none⟩
        (clamped binary64 inputWindowEdge)).1.val = 3 ∧
      inputWindowEdge.Now - 30 * 1000000000 ≤ 70000000000 ∧
      70000000000 ≤ inputWindowEdge.Now ∧
      (Decide binary64 inputWindowEdge).1.DesiredReplicas.val = 3 ∧
      ¬ (8 : Int) ≤ (Decide binary64 inputWindowEdge).1.DesiredReplicas.val) ∧
    ((cooldownPhase inputWindowUpCap ⟨some 30, none, none, some 50, none⟩
        (clamped binary64 inputWindowUpCap)).1.val = 3 ∧
      inputWindowUpCap.Now - 30 * 1000000000 ≤ 80000000000 ∧
      80000000000 ≤ inputWindowUpCap.Now ∧
      (Decide binary64 inputWindowUpCap).1.DesiredReplicas.val = 12 ∧
      ¬ (20 : Int) ≤ (Decide binary64 inputWindowUpCap).1.DesiredReplicas.val) ∧
    ((cooldownPhase inputWindowNegative ⟨some 30, none, none, none, some 50⟩
        (clamped binary64 inputWindowNegative)).1.val = -3 ∧
      inputWindowNegative.CurrentReplicas.val = -2 ∧
      (Decide binary64 inputWindowNegative).1.DesiredReplicas.val = 1 ∧
      ¬ (2147483647 : Int) ≤ (Decide binary64 inputWindowNegative).1.DesiredReplicas.val) := by
  decide

/-- C4, amended: with a stabilization window of `w` seconds, a current count
that is not negative and a cooldown-adjusted candidate below the current
count, the returned count is at least the `DesiredReplicas` of every history
entry strictly newer than `Now - w` seconds, provided no scale-up cap is set or
the entry does not exceed the current count; the cooldowns and the scale-down
cap are arbitrary. -/
theorem C4_stabilization_amended (inp : Input fs) (b : BehaviorSpec) (w : Int32)
    (h : HistorySample)
    (hm : 1 ≤ inp.Spec.Metrics.length)
    (hb : inp.Spec.Behavior = some b) (hw : b.StabilizationWindowSeconds = some w)
    (hcur : 0 ≤ inp.CurrentReplicas.val)
    (hd : (cooldownPhase inp b (clamped fs inp)).1.val < inp.CurrentReplicas.val)
    (hmem : h ∈ inp.History) (hin : inp.Now - w.val * 1000000000 < h.Timestamp)
    (hup : b.MaxScaleUpStepPercent = none ∨ h.DesiredReplicas.val ≤ inp.CurrentReplicas.val) :
    h.DesiredReplicas.val ≤ (Decide fs inp).1.DesiredReplicas.val := by
  obtain ⟨-, hdes, -⟩ := Decide_of_metrics inp hm
  rw [hdes]
  unfold applyCooldownAndHistory
  rw [hb]
  dsimp only
  have hscan : h.DesiredReplicas.val ≤
      (stabilizationPhase inp b (cooldownPhase inp b (clamped fs inp)).1).val := by
    rw [stabilizationPhase_eq, hw]
    dsimp only
    rw [if_pos hd]
    apply windowScan_ge_mem _ _ _ h hmem
    rw [cutoff_eq, Time.After_iff]
    exact hin
  obtain ⟨h1, h2⟩ := rateLimitPhase_ge inp b
    (stabilizationPhase inp b (cooldownPhase inp b (clamped fs inp)).1)
    (cooldownPhase inp b (clamped fs inp)).2 hcur
  rcases hup with hnone | hle
  · exact le_trans hscan (h1 hnone)
  · rcases h2 with h2 | h2 <;> omega

/-- C4, amended, at an input with every behavior field set: the entry of 8
taken 20 seconds ago keeps the result at 8 although the candidate is 5. -/
theorem C4_stabilization_amended_witness :
    (cooldownPhase inputInRange fullBehavior (clamped binary64 inputInRange)).1.val = 5 ∧
    (Decide binary64 inputInRange).1.DesiredReplicas.val = 8 ∧
    (8 : Int) ≤ (Decide binary64 inputInRange).1.DesiredReplicas.val :=
  ⟨by decide, by decide,
    C4_stabilization_amended inputInRange fullBehavior 30 ⟨80000000000, 8⟩ (by decide) rfl rfl
      (by decide) (by decide) (by decide) (by decide) (Or.inr (by decide))⟩


/-! ## C5: rate-limit invariant -/

theorem tdiv_of_pos (a b : Int) (hb : 0 < b) :
    Int.tdiv a b = if 0 ≤ a then a / b else -((-a) / b) := by
  split
  · rename_i h
    exact Int.tdiv_eq_ediv h (le_of_lt hb)
  · rename_i h
    have h2 : Int.tdiv (-a) b = (-a) / b := Int.tdiv_eq_ediv (by omega) (le_of_lt hb)
    rw [← h2, Int.neg_tdiv, neg_neg]

/-- The step the code allows never exceeds the bound of the specification when
the current count is positive. -/
theorem rateLimitStep_le_stepBound (current percent : Int32) (hc : 1 ≤ current.val) :
    (rateLimitStep current percent).val ≤ stepBound current percent := by
  have h1 := current.hi
  have h2 := percent.hi
  unfold rateLimitStep stepBound
  split
  · exact le_max_of_le_left (by decide)
  · rename_i hp
    dsimp only
    split
    · exact le_max_of_le_left (by decide)
    · apply le_max_of_le_right
      have hx : 0 ≤ current.val * percent.val :=
        Int.mul_nonneg (by omega) (by omega)
      have hw1 := (Int32.mul current percent).lo
      have hw2 := (Int32.mul current percent).hi
      have hwx : current.val * percent.val ≤ 2147483647 →
          (Int32.mul current percent).val = current.val * percent.val := by
        intro hle
        rw [Int32.mul_val]
        omega
      rw [Int32.div_val, Int32.ofNat_val_hundred, tdiv_of_pos _ _ (by decide)]
      generalize current.val * percent.val = x at *
      generalize (Int32.mul current percent).val = w at *
      by_cases hle : x ≤ 2147483647
      · rw [hwx hle, if_pos hx]
        omega
      · have hq : (if 0 ≤ w then w / 100 else -(-w / 100)) ≤ 21474836 := by
          split <;> omega
        have hq2 : -21474836 ≤ (if 0 ≤ w then w / 100 else -(-w / 100)) := by
          split <;> omega
        generalize (if 0 ≤ w then w / 100 else -(-w / 100)) = q at *
        omega

/-- With bounds and a current count that are not negative, the count after
clamping, cooldown and stabilization is not negative. -/
theorem stabilized_nonneg (inp : Input fs) (b : BehaviorSpec)
    (hmin : 0 ≤ inp.Spec.MinReplicas.val) (hmax : 0 ≤ inp.Spec.MaxReplicas.val)
    (hcur : 0 ≤ inp.CurrentReplicas.val) : 0 ≤ (stabilized fs inp b).val := by
  have hc : 0 ≤ (clamped fs inp).val := by
    unfold clamped clampBounds
    dsimp only
    split <;> split <;> omega
  have hcd : 0 ≤ (cooldownPhase inp b (clamped fs inp)).1.val := by
    rcases cooldownPhase_cases inp b (clamped fs inp) with h | h <;> rw [h]
    · exact hc
    · exact hcur
  exact le_trans hcd (stabilizationPhase_ge inp b _)

/-- With a behavior block, a current count of at least 1 and a count `r` after
clamping, cooldown and stabilization that is not negative, if `r` exceeds the
current count by more than `max(1, ⌊current · p / 100⌋)` for the scale-up cap
`p`, or falls short of it by more than that bound for the scale-down cap `p`,
then the returned count differs from the current count by at most that
bound. -/
theorem rate_limit_of_stabilized_nonneg (inp : Input fs) (b : BehaviorSpec) (p : Int32)
    (hm : 1 ≤ inp.Spec.Metrics.length) (hb : inp.Spec.Behavior = some b)
    (hcur : 1 ≤ inp.CurrentReplicas.val) (hr : 0 ≤ (stabilized fs inp b).val)
    (hcap : ((stabilized fs inp b).val - inp.CurrentReplicas.val > 0 ∧
        b.MaxScaleUpStepPercent = some p ∧
        (stabilized fs inp b).val - inp.CurrentReplicas.val > stepBound inp.CurrentReplicas p) ∨
      ((stabilized fs inp b).val - inp.CurrentReplicas.val < 0 ∧
        b.MaxScaleDownStepPercent = some p ∧
        -((stabilized fs inp b).val - inp.CurrentReplicas.val) >
          stepBound inp.CurrentReplicas p)) :
    |(Decide fs inp).1.DesiredReplicas.val - inp.CurrentReplicas.val| ≤
      stepBound inp.CurrentReplicas p := by
  obtain ⟨-, hdes, -⟩ := Decide_of_metrics inp hm
  rw [hdes]
  unfold applyCooldownAndHistory
  rw [hb]
  dsimp only
  have hlo := (stabilized fs inp b).lo
  have hhi := (stabilized fs inp b).hi
  have chi := inp.CurrentReplicas.hi
  have hal := rateLimitStep_le_stepBound inp.CurrentReplicas p hcur
  have ha0 := rateLimitStep_nonneg inp.CurrentReplicas p
  show |(rateLimitPhase inp b (stabilized fs inp b) _).1.val - inp.CurrentReplicas.val| ≤ _
  generalize stabilized fs inp b = r at *
  generalize (cooldownPhase inp b (clamped fs inp)).2 = ca
  generalize stepBound inp.CurrentReplicas p = bound at *
  rw [abs_le]
  unfold rateLimitPhase
  rcases hcap with ⟨hpos, hup, hgt⟩ | ⟨hneg, hdown, hgt⟩
  · rw [hup]
    rcases hdn : b.MaxScaleDownStepPercent with _ | pd
    all_goals dsimp only
    all_goals repeat' split
    all_goals simp only [Int32.add_val, Int32.sub_val, Int32.neg_val, Int32.ofNat_val_one] at *
    all_goals omega
  · rw [hdown]
    rcases hu : b.MaxScaleUpStepPercent with _ | pu
    all_goals dsimp only
    all_goals repeat' split
    all_goals simp only [Int32.add_val, Int32.sub_val, Int32.neg_val, Int32.ofNat_val_one] at *
    all_goals omega

/-- C5: for an input with at least one metric, a behavior block, a current
count of at least 1 and bounds that are not negative (the schema requires both
to be at least 1), let `r` be the count after clamping, cooldown and
stabilization and `delta = r - current`.  If `delta > 0`, the scale-up cap `p`
is set and `delta > max(1, ⌊current · p / 100⌋)`, or `delta < 0`, the
scale-down cap `p` is set and `-delta > max(1, ⌊current · p / 100⌋)`, then the
returned count differs from the current count by at most
`max(1, ⌊current · p / 100⌋)`. -/
theorem C5_rate_limit_invariant (inp : Input fs) (b : BehaviorSpec) (p : Int32)
    (hm : 1 ≤ inp.Spec.Metrics.length) (hb : inp.Spec.Behavior = some b)
    (hcur : 1 ≤ inp.CurrentReplicas.val)
    (hmin : 0 ≤ inp.Spec.MinReplicas.val) (hmax : 0 ≤ inp.Spec.MaxReplicas.val)
    (hcap : ((stabilized fs inp b).val - inp.CurrentReplicas.val > 0 ∧
        b.MaxScaleUpStepPercent = some p ∧
        (stabilized fs inp b).val - inp.CurrentReplicas.val > stepBound inp.CurrentReplicas p) ∨
      ((stabilized fs inp b).val - inp.CurrentReplicas.val < 0 ∧
        b.MaxScaleDownStepPercent = some p ∧
        -((stabilized fs inp b).val - inp.CurrentReplicas.val) >
          stepBound inp.CurrentReplicas p)) :
    |(Decide fs inp).1.DesiredReplicas.val - inp.CurrentReplicas.val| ≤
      stepBound inp.CurrentReplicas p :=
  rate_limit_of_stabilized_nonneg inp b p hm hb hcur
    (stabilized_nonneg inp b hmin hmax (le_trans (by decide) hcur)) hcap

/-- C5 at 10 running replicas, bounds `[1, 100]`, `r = 30` and a scale-up cap of
50 percent: the bound is 5 and the result is 15. -/
theorem C5_rate_limit_invariant_witness :
    (stabilized binary64 inputUpCap ⟨none, none, none, some 50, none⟩).val = 30 ∧
    stepBound inputUpCap.CurrentReplicas 50 = 5 ∧
    (Decide binary64 inputUpCap).1.DesiredReplicas.val = 15 ∧
    |(Decide binary64 inputUpCap).1.DesiredReplicas.val - inputUpCap.CurrentReplicas.val| ≤
      stepBound inputUpCap.CurrentReplicas 50 :=
  ⟨by decide, by decide, by decide,
    C5_rate_limit_invariant inputUpCap ⟨none, none, none, some 50, none⟩ 50 (by decide) rfl
      (by decide) (by decide) (by decide) (Or.inl ⟨by decide, rfl, by decide⟩)⟩


/-! ## C6: the error of `Decide` -/

/-- C6: `Decide` returns an error exactly when the metric list is empty; it
then returns the zero `Decision` with the error, and on every input with at
least one metric it returns a decision and no error. -/
theorem C6_error_iff_no_metrics (fs : FloatSem) (inp : Input fs) :
    ((Decide fs inp).2.isSome = true ↔ inp.Spec.Metrics.length = 0) ∧
    (inp.Spec.Metrics.length = 0 →
      Decide fs inp = (Decision.zero, some "no metrics defined in spec")) ∧
    (1 ≤ inp.Spec.Metrics.length →
      (Decide fs inp).2 = none ∧
      (Decide fs inp).1.DesiredReplicas = (applyCooldownAndHistory inp (clamped fs inp)).1) := by
  refine ⟨?_, ?_, ?_⟩
  · by_cases h : inp.Spec.Metrics.length = 0
    · simp [Decide, h]
    · simp [Decide, h]
  · intro h
    simp [Decide, h]
  · intro h
    exact ⟨(Decide_of_metrics inp h).1, (Decide_of_metrics inp h).2.1⟩

/-- C6 at an input without metrics and at Scenario A. -/
theorem C6_error_iff_no_metrics_witness :
    Decide binary64 inputNoMetrics = (Decision.zero, some "no metrics defined in spec") ∧
    (Decide binary64 inputScenarioA).2 = none :=
  ⟨(C6_error_iff_no_metrics binary64 inputNoMetrics).2.1 (by decide),
    ((C6_error_iff_no_metrics binary64 inputScenarioA).2.2 (by decide)).1⟩

/-! ## C7: history bound -/

theorem Store.get_append_self (s : Store) (key : String) (x : HistorySample) :
    (s.Append key x 20).Get key =
      (s.Get key ++ [x]).drop ((s.Get key ++ [x]).length - 20) := by
  unfold Store.Append Store.Get
  dsimp only
  rw [if_pos rfl]
  split
  · congr 1
    omega
  · rename_i h
    have h0 : (s.data key ++ [x]).length - 20 = 0 := by omega
    rw [h0]
    rfl

/-- Keeping the last 20 entries before appending more does not change the last
20 entries of the whole. -/
theorem drop_last_append (a b : List HistorySample) :
    (a.drop (a.length - 20) ++ b).drop ((a.drop (a.length - 20) ++ b).length - 20) =
      (a ++ b).drop ((a ++ b).length - 20) := by
  rw [← List.drop_append_of_le_length (by omega : a.length - 20 ≤ a.length), List.drop_drop]
  congr 1
  simp only [List.length_drop, List.length_append]
  omega

theorem Store.get_appendAll (s : Store) (key : String) (xs : List HistorySample)
    (hs : (s.Get key).length ≤ 20) :
    (s.appendAll key xs 20).Get key =
      (s.Get key ++ xs).drop ((s.Get key ++ xs).length - 20) := by
  induction xs generalizing s with
  | nil =>
    have h0 : (s.Get key ++ []).length - 20 = 0 := by
      simp only [List.append_nil]
      omega
    rw [h0]
    simp [Store.appendAll]
  | cons x t ih =>
    have hstep : (s.Append key x 20).Get key =
        (s.Get key ++ [x]).drop ((s.Get key ++ [x]).length - 20) :=
      Store.get_append_self s key x
    have hlen : ((s.Append key x 20).Get key).length ≤ 20 := by
      rw [hstep, List.length_drop]
      omega
    show ((s.Append key x 20).appendAll key t 20).Get key = _
    rw [ih _ hlen, hstep, drop_last_append]
    simp only [List.append_assoc, List.singleton_append]

/-- C7: after `n` samples are appended to one key of a new store with the
bound 20, `Get` returns the last `min n 20` of them in insertion order. -/
theorem C7_history_bound (key : String) (samples : List HistorySample) :
    ((NewStore.appendAll key samples 20).Get key).length = min samples.length 20 ∧
    (NewStore.appendAll key samples 20).Get key =
      samples.drop (samples.length - min samples.length 20) := by
  have h := Store.get_appendAll NewStore key samples (by simp [NewStore, Store.Get])
  have hnil : NewStore.Get key = [] := rfl
  rw [hnil, List.nil_append] at h
  have hm : samples.length - min samples.length 20 = samples.length - 20 := by omega
  rw [h, hm, List.length_drop]
  exact ⟨by omega, rfl⟩


/-- C7 at 21 appends: the first sample is gone and the other 20 remain in
order. -/
theorem C7_history_bound_witness :
    (NewStore.appendAll "default/web" ((List.range 21).map sampleAt) 20).Get "default/web" =
      ((List.range 21).map sampleAt).tail :=
  (C7_history_bound "default/web" ((List.range 21).map sampleAt)).2.trans (by decide)

/-! ## C8: missing-metric neutrality -/

theorem foldl_metricStep (inp : Input fs) (l : List (MetricSpec fs)) (acc : MetricAcc fs) :
    (l.foldl (metricStep inp) acc).metricDesired = acc.metricDesired ++ l.map (projection inp) ∧
    (l.foldl (metricStep inp) acc).metricWeights =
      acc.metricWeights ++ l.map (effectiveWeight inp) := by
  induction l generalizing acc with
  | nil => simp
  | cons m t ih =>
    rw [List.foldl_cons]
    obtain ⟨h1, h2⟩ := ih (metricStep inp acc m)
    rw [h1, h2]
    rcases hsm : inp.Samples m.Name with _ | sv <;>
      simp [metricStep, projection, effectiveWeight, hsm]

/-- The slices `Decide` collects are the projections and the recorded weights
of the metrics, in order. -/
theorem collected_eq (inp : Input fs) :
    (collected fs inp).metricDesired = inp.Spec.Metrics.map (projection inp) ∧
    (collected fs inp).metricWeights = inp.Spec.Metrics.map (effectiveWeight inp) := by
  obtain ⟨h1, h2⟩ := foldl_metricStep inp inp.Spec.Metrics ⟨[], [], []⟩
  exact ⟨by rw [collected, h1, List.nil_append], by rw [collected, h2, List.nil_append]⟩

theorem desiredFromMetric_strip (current : Int32) (v : fs.F) (m : MetricSpec fs) :
    desiredFromMetric current v (stripMetric m) = current := rfl

/-- C8: with unique metric names, for a configured metric `m` without a sample,
`Decide` returns the same count and the same cooldown flag as on the input
that gives `m` an arbitrary sample `v` and removes its `scaleUp`, `scaleDown`
and `weight`. -/
theorem C8_missing_metric_neutral (inp : Input fs) (pre post : List (MetricSpec fs))
    (m : MetricSpec fs) (v : fs.F)
    (hmet : inp.Spec.Metrics = pre ++ m :: post)
    (huniq : (inp.Spec.Metrics.map (fun ms => ms.Name)).Nodup)
    (hmiss : inp.Samples m.Name = none) :
    (Decide fs inp).1.DesiredReplicas =
        (Decide fs (withNeutralSample inp pre post m v)).1.DesiredReplicas ∧
      (Decide fs inp).1.CooldownActive =
        (Decide fs (withNeutralSample inp pre post m v)).1.CooldownActive := by
  have hlen : 1 ≤ inp.Spec.Metrics.length := by
    rw [hmet, List.length_append, List.length_cons]
    omega
  have hlen2 : 1 ≤ (withNeutralSample inp pre post m v).Spec.Metrics.length := by
    show 1 ≤ (pre ++ stripMetric m :: post).length
    rw [List.length_append, List.length_cons]
    omega
  obtain ⟨-, hd, hc⟩ := Decide_of_metrics inp hlen
  obtain ⟨-, hd2, hc2⟩ := Decide_of_metrics _ hlen2
  rw [hd, hc, hd2, hc2]
  -- the other metrics have another name
  rw [hmet, List.map_append, List.map_cons] at huniq
  have hpre : ∀ x ∈ pre, x.Name ≠ m.Name := by
    intro x hx he
    have hdis := (List.nodup_append.mp huniq).2.2
    exact hdis (List.mem_map_of_mem _ hx) (by rw [he]; exact List.mem_cons_self _ _)
  have hpost : ∀ x ∈ post, x.Name ≠ m.Name := by
    intro x hx he
    have hnd := (List.nodup_cons.mp (List.nodup_append.mp huniq).2.1).1
    exact hnd (by rw [← he]; exact List.mem_map_of_mem _ hx)
  -- so their projections and weights do not change
  have hother : ∀ x : MetricSpec fs, x.Name ≠ m.Name →
      projection (withNeutralSample inp pre post m v) x = projection inp x ∧
      effectiveWeight (withNeutralSample inp pre post m v) x = effectiveWeight inp x := by
    intro x hx
    unfold projection effectiveWeight withNeutralSample
    simp only [if_neg hx]
    exact ⟨trivial, trivial⟩
  have hself : projection (withNeutralSample inp pre post m v) (stripMetric m) =
        projection inp m ∧
      effectiveWeight (withNeutralSample inp pre post m v) (stripMetric m) =
        effectiveWeight inp m := by
    unfold projection effectiveWeight
    rw [hmiss]
    have hs : (withNeutralSample inp pre post m v).Samples (stripMetric m).Name = some v := by
      show (if m.Name = m.Name then some v else inp.Samples m.Name) = some v
      rw [if_pos rfl]
    rw [hs]
    exact ⟨rfl, rfl⟩
  have hproj : (withNeutralSample inp pre post m v).Spec.Metrics.map
      (projection (withNeutralSample inp pre post m v)) = inp.Spec.Metrics.map (projection inp) := by
    show (pre ++ stripMetric m :: post).map _ = _
    rw [hmet, List.map_append, List.map_append, List.map_cons, List.map_cons, hself.1,
      List.map_congr_left (fun x hx => (hother x (hpre x hx)).1),
      List.map_congr_left (fun x hx => (hother x (hpost x hx)).1)]
  have hwt : (withNeutralSample inp pre post m v).Spec.Metrics.map
      (effectiveWeight (withNeutralSample inp pre post m v)) =
      inp.Spec.Metrics.map (effectiveWeight inp) := by
    show (pre ++ stripMetric m :: post).map _ = _
    rw [hmet, List.map_append, List.map_append, List.map_cons, List.map_cons, hself.2,
      List.map_congr_left (fun x hx => (hother x (hpre x hx)).2),
      List.map_congr_left (fun x hx => (hother x (hpost x hx)).2)]
  have hcl : clamped fs (withNeutralSample inp pre post m v) = clamped fs inp := by
    unfold clamped
    rw [(collected_eq _).1, (collected_eq _).2, (collected_eq inp).1, (collected_eq inp).2,
      hproj, hwt]
    rfl
  rw [hcl]
  exact ⟨rfl, rfl⟩

set_option maxRecDepth 4000 in
/-- C8 under weighted aggregation: the metric `mem` declares the weight 3 and
has no sample; the result 5 is the one obtained when `mem` has the sample 55
and neither weight nor scale directions. -/
theorem C8_missing_metric_neutral_witness :
    (Decide binary64 inputMissingMem).1.DesiredReplicas.val = 5 ∧
    ((Decide binary64 inputMissingMem).1.DesiredReplicas =
        (Decide binary64 (withNeutralSample inputMissingMem
          [⟨"cpu", "cpu_query", none, some ⟨B64.ofInt 70, 2⟩, none⟩] [] memMetric
          (B64.ofInt 55))).1.DesiredReplicas ∧
      (Decide binary64 inputMissingMem).1.CooldownActive =
        (Decide binary64 (withNeutralSample inputMissingMem
          [⟨"cpu", "cpu_query", none, some ⟨B64.ofInt 70, 2⟩, none⟩] [] memMetric
          (B64.ofInt 55))).1.CooldownActive) :=
  ⟨by decide,
    C8_missing_metric_neutral inputMissingMem
      [⟨"cpu", "cpu_query", none, some ⟨B64.ofInt 70, 2⟩, none⟩] [] memMetric (B64.ofInt 55)
      rfl (by decide) rfl⟩


/-! ## C9: decisions without a behavior block -/

theorem clampBounds_eq_clampInto (d mn mx : Int32) (h : mn.val ≤ mx.val) :
    (clampBounds d mn mx).val = clampInto mn.val mx.val d.val := by
  unfold clampBounds clampInto
  dsimp only
  split <;> split <;> omega

/-- C9: with at least one metric, `MinReplicas ≤ MaxReplicas` and no behavior
block, the returned count is the aggregate of the per-metric projections
clamped into `[MinReplicas, MaxReplicas]`, and no cooldown is reported. -/
theorem C9_no_behavior (inp : Input fs) (hm : 1 ≤ inp.Spec.Metrics.length)
    (hle : inp.Spec.MinReplicas.val ≤ inp.Spec.MaxReplicas.val)
    (hb : inp.Spec.Behavior = none) :
    (Decide fs inp).1.DesiredReplicas.val =
        clampInto inp.Spec.MinReplicas.val inp.Spec.MaxReplicas.val
          (aggregate fs (inp.Spec.Metrics.map (projection inp))
            (inp.Spec.Metrics.map (effectiveWeight inp)) inp.Spec.Aggregation).val ∧
      (Decide fs inp).1.CooldownActive = false ∧
      (Decide fs inp).2 = none := by
  obtain ⟨he, hd, hc⟩ := Decide_of_metrics inp hm
  rw [hd, hc, he]
  unfold applyCooldownAndHistory
  rw [hb]
  dsimp only
  unfold clamped
  rw [(collected_eq inp).1, (collected_eq inp).2, clampBounds_eq_clampInto _ _ _ hle]
  exact ⟨rfl, rfl, rfl⟩

/-- C9 at Scenario A: current 4, bounds `[2, 10]`, one metric with scale-up
threshold 70 and step 2, sample 80: the result is 6. -/
theorem C9_no_behavior_witness :
    (Decide binary64 inputScenarioA).1.DesiredReplicas.val = 6 ∧
    ((Decide binary64 inputScenarioA).1.DesiredReplicas.val =
        clampInto inputScenarioA.Spec.MinReplicas.val inputScenarioA.Spec.MaxReplicas.val
          (aggregate binary64 (inputScenarioA.Spec.Metrics.map (projection inputScenarioA))
            (inputScenarioA.Spec.Metrics.map (effectiveWeight inputScenarioA))
            inputScenarioA.Spec.Aggregation).val ∧
      (Decide binary64 inputScenarioA).1.CooldownActive = false ∧
      (Decide binary64 inputScenarioA).2 = none) :=
  ⟨by decide, C9_no_behavior inputScenarioA (by decide) (by decide) rfl⟩

/-! ## C10: weighted aggregation

Integer-valued binary64 values of magnitude below `2^53` are added and
multiplied without rounding error, and the rounded quotient of two of them
truncates to the integer quotient when the divisor is at most `2^21`. -/

set_option exponentiation.threshold 8192

namespace B64

theorem bitLenFine_spec (fuel n : Nat) (h : n < 2 ^ fuel) :
    (0 < n → 2 ^ bitLenFine fuel n ≤ 2 * n) ∧ n < 2 ^ bitLenFine fuel n := by
  induction fuel generalizing n with
  | zero =>
    have h0 : n = 0 := by simpa using h
    subst h0
    simp [bitLenFine]
  | succ f ih =>
    unfold bitLenFine
    split
    · rename_i h0
      subst h0
      simp
    · rename_i h0
      have hn : n / 2 < 2 ^ f := by
        rw [pow_succ] at h
        omega
      obtain ⟨h1, h2⟩ := ih (n / 2) hn
      rw [pow_succ]
      refine ⟨fun _ => ?_, by omega⟩
      by_cases hz : n / 2 = 0
      · have hb : bitLenFine f (n / 2) = 0 := by
          rw [hz]
          cases f <;> simp [bitLenFine]
        rw [hb]
        omega
      · have h3 := h1 (by omega)
        omega

theorem bitLenAux_spec (fuel n : Nat) (h : n < 2 ^ (64 * (fuel + 1))) :
    (0 < n → 2 ^ bitLenAux fuel n ≤ 2 * n) ∧ n < 2 ^ bitLenAux fuel n := by
  induction fuel generalizing n with
  | zero =>
    unfold bitLenAux
    exact bitLenFine_spec 64 n (by simpa using h)
  | succ f ih =>
    unfold bitLenAux
    split
    · rename_i hlt
      exact bitLenFine_spec 64 n (by
        have : (2 : Nat) ^ 64 = 18446744073709551616 := by norm_num
        omega)
    · rename_i hge
      have hn : n / 18446744073709551616 < 2 ^ (64 * (f + 1)) := by
        have h2 : (2 : Nat) ^ (64 * (f + 1 + 1)) = 2 ^ (64 * (f + 1)) * 18446744073709551616 := by
          rw [show 64 * (f + 1 + 1) = 64 * (f + 1) + 64 by ring, pow_add]
          norm_num
        rw [h2] at h
        exact Nat.div_lt_of_lt_mul (by rw [Nat.mul_comm]; exact h)
      obtain ⟨h1, h2⟩ := ih _ hn
      have h3 := h1 (by omega)
      rw [pow_add]
      have h64 : (2 : Nat) ^ 64 = 18446744073709551616 := by norm_num
      rw [h64]
      generalize 2 ^ bitLenAux f (n / 18446744073709551616) = P at *
      refine ⟨fun _ => ?_, ?_⟩
      · have : P * 18446744073709551616 ≤ 2 * (n / 18446744073709551616) * 18446744073709551616 :=
          Nat.mul_le_mul_right _ h3
        omega
      · have : (n / 18446744073709551616 + 1) * 18446744073709551616 ≤ P * 18446744073709551616 :=
          Nat.mul_le_mul_right _ h2
        omega

/-- The specification of `bitLen`: `2^(bitLen n - 1) ≤ n < 2^(bitLen n)`. -/
theorem bitLen_spec (n : Nat) (h : n < 2 ^ 8192) :
    (0 < n → 2 ^ bitLen n ≤ 2 * n) ∧ n < 2 ^ bitLen n :=
  bitLenAux_spec 127 n h

theorem bitLen_unique (n b : Nat) (h : n < 2 ^ 8192) (hn : 0 < n)
    (h1 : 2 ^ b ≤ 2 * n) (h2 : n < 2 ^ b) : bitLen n = b := by
  obtain ⟨h3, h4⟩ := bitLen_spec n h
  have h3 := h3 hn
  rcases Nat.lt_trichotomy (bitLen n) b with hlt | heq | hgt
  · have : 2 ^ (bitLen n + 1) ≤ 2 ^ b := Nat.pow_le_pow_right (by decide) hlt
    rw [pow_succ] at this
    omega
  · exact heq
  · have : 2 ^ (b + 1) ≤ 2 ^ bitLen n := Nat.pow_le_pow_right (by decide) hgt
    rw [pow_succ] at this
    omega

theorem bitLen_shift (n j : Nat) (hn : 0 < n) (h : n * 2 ^ j < 2 ^ 8192) :
    bitLen (n * 2 ^ j) = bitLen n + j := by
  have hj : 0 < 2 ^ j := Nat.two_pow_pos j
  have hn8 : n < 2 ^ 8192 := lt_of_le_of_lt (Nat.le_mul_of_pos_right n hj) h
  obtain ⟨h3, h4⟩ := bitLen_spec n hn8
  have h3 := h3 hn
  apply bitLen_unique _ _ h (Nat.mul_pos hn hj)
  · rw [pow_add]
    calc 2 ^ bitLen n * 2 ^ j ≤ 2 * n * 2 ^ j := Nat.mul_le_mul_right _ h3
      _ = 2 * (n * 2 ^ j) := by ring
  · rw [pow_add]
    exact Nat.mul_lt_mul_of_pos_right h4 hj

theorem bitLen_pos (n : Nat) (h : n < 2 ^ 8192) (hn : 0 < n) : 0 < bitLen n := by
  obtain ⟨-, h4⟩ := bitLen_spec n h
  rcases Nat.eq_zero_or_pos (bitLen n) with h0 | h0
  · rw [h0] at h4
    simp at h4
    omega
  · exact h0

theorem bitLen_le_of_lt_pow (n k : Nat) (h : n < 2 ^ 8192) (hk : n < 2 ^ k) : bitLen n ≤ k := by
  rcases Nat.eq_zero_or_pos n with h0 | hn
  · subst h0
    simp [bitLen, bitLenAux, bitLenFine]
  · obtain ⟨h3, -⟩ := bitLen_spec n h
    have h3 := h3 hn
    by_contra hc
    have : 2 ^ (k + 1) ≤ 2 ^ bitLen n := Nat.pow_le_pow_right (by decide) (by omega)
    rw [pow_succ] at this
    omega


theorem divRoundEven_exact (x d : Nat) (hd : 0 < d) : divRoundEven (x * d) d = x := by
  unfold divRoundEven
  have h1 : x * d / d = x := Nat.mul_div_cancel x hd
  have h2 : x * d % d = 0 := Nat.mul_mod_left x d
  simp only [h1, h2]
  rw [if_neg]
  omega

theorem bitLen_one : bitLen 1 = 1 := by decide

/-- Rounding the integer `N < 2^53`, given as the quotient of `N * 2^j` by
`2^j`, returns `N` in canonical form. -/
theorem round_scaled_int (neg : Bool) (N j : Nat) (hN : 0 < N) (hN53 : N < 2 ^ 53)
    (hj : j ≤ 4096) :
    round neg (N <<< j) (1 <<< j) =
      fin neg (N <<< (53 - bitLen N)) ((bitLen N : Int) - 53) := by
  have h8 : N * 2 ^ j < 2 ^ 8192 := by
    calc N * 2 ^ j < 2 ^ 53 * 2 ^ j := Nat.mul_lt_mul_of_pos_right hN53 (Nat.two_pow_pos j)
      _ = 2 ^ (53 + j) := by rw [pow_add]
      _ ≤ 2 ^ 8192 := Nat.pow_le_pow_right (by decide) (by omega)
  have h8b : 1 * 2 ^ j < 2 ^ 8192 := by
    calc 1 * 2 ^ j < 2 ^ 1 * 2 ^ j := Nat.mul_lt_mul_of_pos_right (by decide) (Nat.two_pow_pos j)
      _ = 2 ^ (1 + j) := by rw [pow_add]
      _ ≤ 2 ^ 8192 := Nat.pow_le_pow_right (by decide) (by omega)
  have hN8 : N < 2 ^ 8192 :=
    lt_of_lt_of_le hN53 (Nat.pow_le_pow_right (by decide) (by decide))
  have ha : bitLen (N * 2 ^ j) = bitLen N + j := bitLen_shift N j hN h8
  have hb : bitLen (1 * 2 ^ j) = 1 + j := by
    rw [bitLen_shift 1 j (by decide) h8b, bitLen_one]
  have hA1 : 0 < bitLen N := bitLen_pos N hN8 hN
  have hA2 : bitLen N ≤ 53 := bitLen_le_of_lt_pow N 53 hN8 hN53
  obtain ⟨hs1, hs2⟩ := bitLen_spec N hN8
  have hs1 := hs1 hN
  have hn0 : N * 2 ^ j ≠ 0 := Nat.pos_iff_ne_zero.mp (Nat.mul_pos hN (Nat.two_pow_pos j))
  unfold round
  simp only [Nat.shiftLeft_eq, hn0, if_false, ha, hb]
  have e1 : (((bitLen N + j : Nat) : Int) - ((1 + j : Nat) : Int)).toNat = bitLen N - 1 := by
    omega
  have e2 : (((1 + j : Nat) : Int) - ((bitLen N + j : Nat) : Int)).toNat = 0 := by omega
  have e3 : ((bitLen N + j : Nat) : Int) - ((1 + j : Nat) : Int) - 52 = (bitLen N : Int) - 53 := by
    omega
  have hcond : 1 * 2 ^ j * 2 ^ (bitLen N - 1) ≤ N * 2 ^ j * 2 ^ 0 := by
    have hp : 2 ^ bitLen N = 2 ^ (bitLen N - 1) * 2 := by
      rw [← pow_succ]
      congr 1
      omega
    have : 2 ^ (bitLen N - 1) ≤ N := by omega
    calc 1 * 2 ^ j * 2 ^ (bitLen N - 1) = 2 ^ (bitLen N - 1) * 2 ^ j := by ring
      _ ≤ N * 2 ^ j := Nat.mul_le_mul_right _ this
      _ = N * 2 ^ j * 2 ^ 0 := by ring
  rw [e1, e2, if_pos hcond, e3]
  have e4 : ¬ ((bitLen N : Int) - 53 < -1074) := by omega
  simp only [e4, if_false]
  have e5 : (-((bitLen N : Int) - 53)).toNat = 53 - bitLen N := by omega
  have e6 : ((bitLen N : Int) - 53).toNat = 0 := by omega
  rw [e5, e6]
  have hq : divRoundEven (N * 2 ^ j * 2 ^ (53 - bitLen N)) (1 * 2 ^ j * 2 ^ 0) =
      N * 2 ^ (53 - bitLen N) := by
    have : N * 2 ^ j * 2 ^ (53 - bitLen N) = N * 2 ^ (53 - bitLen N) * (1 * 2 ^ j * 2 ^ 0) := by
      ring
    rw [this]
    exact divRoundEven_exact _ _ (by positivity)
  rw [hq]
  have hlt : N * 2 ^ (53 - bitLen N) < 9007199254740992 := by
    calc N * 2 ^ (53 - bitLen N) < 2 ^ bitLen N * 2 ^ (53 - bitLen N) :=
          Nat.mul_lt_mul_of_pos_right hs2 (Nat.two_pow_pos _)
      _ = 2 ^ 53 := by
          rw [← pow_add]
          congr 1
          omega
      _ = 9007199254740992 := by norm_num
  have hne : ¬ N * 2 ^ (53 - bitLen N) = 9007199254740992 := by omega
  simp only [hne, if_false]
  rw [if_neg (by omega)]


theorem ofInt_isInt (z : Int) (h : z.natAbs < 9007199254740992) : IsInt (ofInt z) z := by
  unfold IsInt ofInt
  by_cases hz : z = 0
  · left
    subst hz
    exact ⟨rfl, false, rfl⟩
  · right
    refine ⟨hz, h, ?_⟩
    have h0 : 0 < z.natAbs := Int.natAbs_pos.mpr hz
    have := round_scaled_int (decide (z < 0)) z.natAbs 0 h0 (by
      have : (2 : Nat) ^ 53 = 9007199254740992 := by norm_num
      omega) (by decide)
    exact this

theorem scaled_zero (s : Bool) (e k : Int) : scaled s 0 e k = 0 := by
  unfold scaled
  simp only [Nat.zero_shiftLeft]
  split <;> rfl

/-- The integer a canonical value stands for, scaled by `2^(-k)`. -/
theorem IsInt.scaled_eq {s : Bool} {m : Nat} {e : Int} {z : Int} (h : IsInt (fin s m e) z)
    (k : Int) (hk : k ≤ e) (hk0 : k ≤ 0) :
    scaled s m e k = z * 2 ^ (-k).toNat := by
  rcases h with ⟨hz, t, ht⟩ | ⟨hz, hlt, hx⟩
  · cases ht
    rw [scaled_zero, hz, zero_mul]
  · unfold canon at hx
    cases hx
    have hN0 : 0 < z.natAbs := Int.natAbs_pos.mpr hz
    have hN8 : z.natAbs < 2 ^ 8192 :=
      lt_of_lt_of_le hlt (by
        have : (9007199254740992 : Nat) = 2 ^ 53 := by norm_num
        rw [this]
        exact Nat.pow_le_pow_right (by decide) (by decide))
    have hA2 : bitLen z.natAbs ≤ 53 := bitLen_le_of_lt_pow _ 53 hN8 (by
      have : (2 : Nat) ^ 53 = 9007199254740992 := by norm_num
      omega)
    unfold scaled
    simp only [Nat.shiftLeft_eq]
    have hexp : z.natAbs * 2 ^ (53 - bitLen z.natAbs) *
        2 ^ ((bitLen z.natAbs : Int) - 53 - k).toNat = z.natAbs * 2 ^ (-k).toNat := by
      rw [Nat.mul_assoc, ← pow_add]
      congr 2
      omega
    rw [hexp]
    have habs : (z.natAbs : Int) = if z < 0 then -z else z := by
      split <;> omega
    simp only [Nat.cast_mul, Nat.cast_pow, Nat.cast_ofNat]
    rw [habs]
    by_cases hneg : z < 0
    · simp only [hneg, decide_True, if_true]
      ring
    · simp only [hneg, decide_False, if_false]
      rfl

theorem IsInt.exists_fin {x : B64} {z : Int} (h : IsInt x z) :
    ∃ s m e, x = fin s m e ∧ -1074 ≤ e ∧ e ≤ 0 := by
  rcases h with ⟨-, t, ht⟩ | ⟨hz, hlt, hx⟩
  · exact ⟨t, 0, -1074, ht, by decide, by decide⟩
  · have hN8 : z.natAbs < 2 ^ 8192 :=
      lt_of_lt_of_le hlt (by
        have : (9007199254740992 : Nat) = 2 ^ 53 := by norm_num
        rw [this]
        exact Nat.pow_le_pow_right (by decide) (by decide))
    have hA2 : bitLen z.natAbs ≤ 53 := bitLen_le_of_lt_pow _ 53 hN8 (by
      have : (2 : Nat) ^ 53 = 9007199254740992 := by norm_num
      omega)
    exact ⟨_, _, _, hx, by omega, by omega⟩

theorem mul_pow_neg_iff (z : Int) (K : Nat) : z * 2 ^ K < 0 ↔ z < 0 := by
  have hpow : (0 : Int) < 2 ^ K := by positivity
  constructor
  · intro h
    by_contra hc
    have := Int.mul_nonneg (not_lt.mp hc) (le_of_lt hpow)
    omega
  · intro h
    exact Int.mul_neg_of_neg_of_pos h hpow

theorem natAbs_mul_pow (z : Int) (K : Nat) : (z * 2 ^ K).natAbs = z.natAbs * 2 ^ K := by
  rw [Int.natAbs_mul, Int.natAbs_pow]
  rfl

theorem add_isInt {x y : B64} {a b : Int} (hx : IsInt x a) (hy : IsInt y b)
    (hab : (a + b).natAbs < 9007199254740992) : IsInt (add x y) (a + b) := by
  obtain ⟨s, m, e, rfl, he1, he2⟩ := hx.exists_fin
  obtain ⟨t, n, f, rfl, hf1, hf2⟩ := hy.exists_fin
  unfold add
  dsimp only
  have hk1 : (if e < f then e else f) ≤ e := by split <;> omega
  have hk2 : (if e < f then e else f) ≤ f := by split <;> omega
  have hk3 : (if e < f then e else f) ≤ 0 := by split <;> omega
  have hk4 : -1074 ≤ (if e < f then e else f) := by split <;> omega
  generalize (if e < f then e else f) = k at *
  rw [hx.scaled_eq k hk1 hk3, hy.scaled_eq k hk2 hk3, ← add_mul]
  have hpow : (0 : Int) < 2 ^ (-k).toNat := by positivity
  by_cases h0 : a + b = 0
  · rw [h0, zero_mul, if_pos rfl]
    exact Or.inl ⟨rfl, _, rfl⟩
  · have hne : (a + b) * 2 ^ (-k).toNat ≠ 0 := mul_ne_zero h0 (ne_of_gt hpow)
    rw [if_neg hne]
    right
    refine ⟨h0, hab, ?_⟩
    have hk0 : k.toNat = 0 := by omega
    have hneg : decide ((a + b) * 2 ^ (-k).toNat < 0) = decide (a + b < 0) := by
      congr 1
      exact propext (mul_pow_neg_iff _ _)
    rw [hk0, natAbs_mul_pow, hneg, Nat.shiftLeft_zero, ← Nat.shiftLeft_eq]
    exact round_scaled_int _ _ _ (Int.natAbs_pos.mpr h0) (by
      have : (2 : Nat) ^ 53 = 9007199254740992 := by norm_num
      omega) (by omega)


theorem xor_sign (a b : Int) (ha : a ≠ 0) (hb : b ≠ 0) :
    xor (decide (a < 0)) (decide (b < 0)) = decide (a * b < 0) := by
  rcases lt_or_gt_of_ne ha with h1 | h1 <;> rcases lt_or_gt_of_ne hb with h2 | h2
  · have h3 : ¬ a * b < 0 := not_lt.mpr (le_of_lt (Int.mul_pos_of_neg_of_neg h1 h2))
    simp only [h1, h2, h3, decide_True, decide_False, Bool.xor_self]
  · have h3 : a * b < 0 := Int.mul_neg_of_neg_of_pos h1 h2
    have h4 : ¬ b < 0 := by omega
    simp only [h1, h3, h4, decide_True, decide_False, Bool.xor_false]
  · have h3 : a * b < 0 := Int.mul_neg_of_pos_of_neg h1 h2
    have h4 : ¬ a < 0 := by omega
    simp only [h2, h3, h4, decide_True, decide_False, Bool.false_xor]
  · have h3 : ¬ a * b < 0 := not_lt.mpr (le_of_lt (Int.mul_pos h1 h2))
    have h4 : ¬ a < 0 := by omega
    have h5 : ¬ b < 0 := by omega
    simp only [h3, h4, h5, decide_False, Bool.xor_self]

theorem round_zero (neg : Bool) (d : Nat) : round neg 0 d = fin neg 0 (-1074) := by
  unfold round
  rw [if_pos rfl]

theorem IsInt.zero_iff {s : Bool} {m : Nat} {e : Int} {z : Int} (h : IsInt (fin s m e) z) :
    m = 0 ↔ z = 0 := by
  rcases h with ⟨hz, t, ht⟩ | ⟨hz, hlt, hx⟩
  · cases ht
    exact ⟨fun _ => hz, fun _ => rfl⟩
  · unfold canon at hx
    cases hx
    have hN0 : 0 < z.natAbs := Int.natAbs_pos.mpr hz
    constructor
    · intro h0
      rw [Nat.shiftLeft_eq] at h0
      have := Nat.mul_pos hN0 (Nat.two_pow_pos (53 - bitLen z.natAbs))
      omega
    · intro h0
      exact absurd h0 hz

theorem IsInt.sign_eq {s : Bool} {m : Nat} {e : Int} {z : Int} (h : IsInt (fin s m e) z)
    (hz : z ≠ 0) : s = decide (z < 0) ∧ m = z.natAbs <<< (53 - bitLen z.natAbs) ∧
      e = (bitLen z.natAbs : Int) - 53 := by
  rcases h with ⟨hz0, -⟩ | ⟨-, -, hx⟩
  · exact absurd hz0 hz
  · unfold canon at hx
    cases hx
    exact ⟨rfl, rfl, rfl⟩

theorem natAbs_lt_bitLen_le (N : Nat) (h : N < 9007199254740992) : bitLen N ≤ 53 := by
  have hN8 : N < 2 ^ 8192 :=
    lt_of_lt_of_le h (by
      have : (9007199254740992 : Nat) = 2 ^ 53 := by norm_num
      rw [this]
      exact Nat.pow_le_pow_right (by decide) (by decide))
  exact bitLen_le_of_lt_pow _ 53 hN8 (by
    have : (2 : Nat) ^ 53 = 9007199254740992 := by norm_num
    omega)

theorem mul_isInt {x y : B64} {a b : Int} (hx : IsInt x a) (hy : IsInt y b)
    (hab : (a * b).natAbs < 9007199254740992) : IsInt (mul x y) (a * b) := by
  obtain ⟨s, m, e, rfl, he1, he2⟩ := hx.exists_fin
  obtain ⟨t, n, f, rfl, hf1, hf2⟩ := hy.exists_fin
  unfold mul
  dsimp only
  by_cases ha : a = 0
  · have hm : m = 0 := hx.zero_iff.mpr ha
    simp only [hm, ha, zero_mul, Nat.zero_shiftLeft, round_zero]
    exact Or.inl ⟨rfl, _, rfl⟩
  by_cases hb : b = 0
  · have hn : n = 0 := hy.zero_iff.mpr hb
    simp only [hn, hb, mul_zero, Nat.zero_shiftLeft, round_zero]
    exact Or.inl ⟨rfl, _, rfl⟩
  obtain ⟨hs, hm, he⟩ := hx.sign_eq ha
  obtain ⟨ht, hn, hf⟩ := hy.sign_eq hb
  have hA : bitLen a.natAbs ≤ 53 := by
    rcases hx with ⟨h0, -⟩ | ⟨-, hlt, -⟩
    · exact absurd h0 ha
    · exact natAbs_lt_bitLen_le _ hlt
  have hB : bitLen b.natAbs ≤ 53 := by
    rcases hy with ⟨h0, -⟩ | ⟨-, hlt, -⟩
    · exact absurd h0 hb
    · exact natAbs_lt_bitLen_le _ hlt
  right
  refine ⟨mul_ne_zero ha hb, hab, ?_⟩
  have hJ : (e + f).toNat = 0 := by omega
  have hmn : m * n = (a * b).natAbs <<< (-(e + f)).toNat := by
    rw [hm, hn, Int.natAbs_mul]
    simp only [Nat.shiftLeft_eq]
    have : (-(e + f)).toNat = (53 - bitLen a.natAbs) + (53 - bitLen b.natAbs) := by omega
    rw [this, pow_add]
    ring
  rw [hJ, Nat.shiftLeft_zero, hmn, hs, ht, xor_sign a b ha hb]
  exact round_scaled_int _ _ _ (Int.natAbs_pos.mpr (mul_ne_zero ha hb)) (by
    have : (2 : Nat) ^ 53 = 9007199254740992 := by norm_num
    omega) (by omega)

theorem eq_zero_of_isInt {x : B64} {z : Int} (hx : IsInt x z) :
    eq x zero = decide (z = 0) := by
  obtain ⟨s, m, e, rfl, he1, he2⟩ := hx.exists_fin
  unfold eq zero
  dsimp only
  have hk : (if e < -1074 then e else -1074) = -1074 := by split <;> omega
  rw [hk, hx.scaled_eq (-1074) he1 (by decide), scaled_zero]
  congr 1
  apply propext
  constructor
  · intro h
    rcases mul_eq_zero.mp h with h1 | h1
    · exact h1
    · exact absurd h1 (by positivity)
  · intro h
    rw [h, zero_mul]


theorem divRoundEven_bounds (u v : Nat) (hv : 0 < v) :
    2 * (divRoundEven u v * v) ≤ 2 * u + v ∧ 2 * u ≤ 2 * (divRoundEven u v * v) + v := by
  unfold divRoundEven
  have h1 := Nat.div_add_mod u v
  have h2 := Nat.mod_lt u hv
  have h3 : v * (u / v) = u / v * v := Nat.mul_comm _ _
  dsimp only
  split
  · rename_i hc
    rw [Nat.add_mul]
    rcases hc with hc | hc <;> omega
  · rename_i hc
    have : ¬ 2 * (u % v) > v := fun h => hc (Or.inl h)
    omega

/-- The exponent `round` chooses is at most `-21` when the quotient is at most
`2^31`. -/
theorem round_exp_le (n d : Nat) (hn : 0 < n) (hd : 0 < d) (hn8 : n < 2 ^ 8192)
    (hd8 : d < 2 ^ 8192) (hle : n ≤ 2147483648 * d) :
    (if d <<< ((bitLen n : Int) - bitLen d).toNat ≤ n <<< ((bitLen d : Int) - bitLen n).toNat
      then (bitLen n : Int) - bitLen d else (bitLen n : Int) - bitLen d - 1) ≤ 31 := by
  obtain ⟨ha1, ha2⟩ := bitLen_spec n hn8
  have ha1 := ha1 hn
  obtain ⟨hb1, hb2⟩ := bitLen_spec d hd8
  have hb1 := hb1 hd
  by_contra hc
  have hc := not_le.mp hc
  split at hc
  · rename_i hcond
    have hab : bitLen d + 32 ≤ bitLen n := by omega
    have e1 : ((bitLen n : Int) - bitLen d).toNat = bitLen n - bitLen d := by omega
    have e2 : ((bitLen d : Int) - bitLen n).toNat = 0 := by omega
    rw [e1, e2, Nat.shiftLeft_zero, Nat.shiftLeft_eq] at hcond
    have h32 : 2 ^ 32 ≤ 2 ^ (bitLen n - bitLen d) := Nat.pow_le_pow_right (by decide) (by omega)
    have : d * 2 ^ 32 ≤ d * 2 ^ (bitLen n - bitLen d) := Nat.mul_le_mul_left _ h32
    have h232 : (2 : Nat) ^ 32 = 4294967296 := by norm_num
    omega
  · have hab : bitLen d + 33 ≤ bitLen n := by omega
    have h1 : 2 ^ (bitLen d + 33) ≤ 2 ^ bitLen n := Nat.pow_le_pow_right (by decide) hab
    rw [pow_add] at h1
    have h233 : (2 : Nat) ^ 33 = 8589934592 := by norm_num
    rw [h233] at h1
    generalize 2 ^ bitLen d = P at *
    generalize 2 ^ bitLen n = Q at *
    omega

theorem quot_bounds (q n d Nn Dn T P : Nat) (hd : 0 < d) (hDn : 0 < Dn)
    (h1 : 2 * (q * d) ≤ 2 * (n * P) + d) (h2 : 2 * (n * P) ≤ 2 * (q * d) + d)
    (h3 : n * Dn = Nn * d) (h4 : T * Dn ≤ Nn) (h5 : Nn + 1 ≤ (T + 1) * Dn)
    (h6 : Dn ≤ P) : T * P ≤ q ∧ q < (T + 1) * P := by
  constructor
  · by_contra hc
    have hc : q + 1 ≤ T * P := by omega
    -- 2 n P Dn ≤ 2 q d Dn + d Dn ; n Dn = Nn d ; so 2 Nn d P ≤ 2 q d Dn + d Dn
    -- 2 T Dn d P ≤ 2 Nn d P
    -- q ≤ T P - 1 → 2 q d Dn + d Dn ≤ 2 (T P - 1) d Dn + d Dn = 2 T P d Dn - d Dn
    have e1 : 2 * (n * P) * Dn ≤ (2 * (q * d) + d) * Dn := Nat.mul_le_mul_right _ h2
    have e2 : (q + 1) * (d * Dn) ≤ T * P * (d * Dn) := Nat.mul_le_mul_right _ hc
    have e3 : T * Dn * (d * P) ≤ Nn * (d * P) := Nat.mul_le_mul_right _ h4
    have e4 : 2 * (n * P) * Dn = 2 * (Nn * (d * P)) := by
      calc 2 * (n * P) * Dn = 2 * (n * Dn * P) := by ring
        _ = 2 * (Nn * d * P) := by rw [h3]
        _ = 2 * (Nn * (d * P)) := by ring
    have e5 : 0 < d * Dn := Nat.mul_pos hd hDn
    have e6 : T * Dn * (d * P) = T * P * (d * Dn) := by ring
    have e7 : (2 * (q * d) + d) * Dn = 2 * (q * (d * Dn)) + d * Dn := by ring
    have e8 : (q + 1) * (d * Dn) = q * (d * Dn) + d * Dn := by ring
    generalize d * Dn = X at *
    generalize T * P * X = Y at *
    generalize q * X = Z at *
    omega
  · by_contra hc
    have hc : (T + 1) * P ≤ q := by omega
    have e1 : 2 * (q * d) * Dn ≤ (2 * (n * P) + d) * Dn := Nat.mul_le_mul_right _ h1
    have e2 : (T + 1) * P * (d * Dn) ≤ q * (d * Dn) := Nat.mul_le_mul_right _ hc
    have e3 : (Nn + 1) * (d * P) ≤ (T + 1) * Dn * (d * P) := Nat.mul_le_mul_right _ h5
    have e4 : (2 * (n * P) + d) * Dn = 2 * (Nn * (d * P)) + d * Dn := by
      calc (2 * (n * P) + d) * Dn = 2 * (n * Dn * P) + d * Dn := by ring
        _ = 2 * (Nn * d * P) + d * Dn := by rw [h3]
        _ = 2 * (Nn * (d * P)) + d * Dn := by ring
    have e5 : d * Dn ≤ d * P := Nat.mul_le_mul_left _ h6
    have e6 : (T + 1) * Dn * (d * P) = (T + 1) * P * (d * Dn) := by ring
    have e7 : 2 * (q * d) * Dn = 2 * (q * (d * Dn)) := by ring
    have e8 : (Nn + 1) * (d * P) = Nn * (d * P) + d * P := by ring
    have e9 : 0 < d * P := Nat.mul_pos hd (lt_of_lt_of_le hDn h6)
    generalize d * Dn = X at *
    generalize d * P = W at *
    generalize (T + 1) * P * X = Y at *
    generalize q * X = Z at *
    generalize Nn * W = V at *
    omega

/-- When `n / d = Nn / Dn` with `Dn ≤ 2^21` and a quotient of at most `2^31`,
the value `round` returns truncates to the integer quotient of `Nn` by `Dn`. -/
theorem round_trunc (neg : Bool) (n d Nn Dn : Nat) (hn : 0 < n) (hd : 0 < d)
    (hn8 : n < 2 ^ 8192) (hd8 : d < 2 ^ 8192) (hDn : 0 < Dn) (hDn21 : Dn ≤ 2097152)
    (hrel : n * Dn = Nn * d) (hle : Nn ≤ 2147483648 * Dn) :
    ∃ m e, round neg n d = fin neg m e ∧ e ≤ 0 ∧ m / 2 ^ (-e).toNat = Nn / Dn := by
  have hnd : n ≤ 2147483648 * d := by
    have h1 : n * Dn ≤ 2147483648 * d * Dn := by
      rw [hrel]
      calc Nn * d ≤ 2147483648 * Dn * d := Nat.mul_le_mul_right _ hle
        _ = 2147483648 * d * Dn := by ring
    exact Nat.le_of_mul_le_mul_right h1 hDn
  have hl := round_exp_le n d hn hd hn8 hd8 hnd
  unfold round
  rw [if_neg (Nat.pos_iff_ne_zero.mp hn)]
  dsimp only
  generalize (if d <<< ((bitLen n : Int) - bitLen d).toNat ≤
      n <<< ((bitLen d : Int) - bitLen n).toNat
      then (bitLen n : Int) - bitLen d else (bitLen n : Int) - bitLen d - 1) = l at *
  have he1 : (if l - 52 < -1074 then -1074 else l - 52) ≤ -21 := by split <;> omega
  have he2 : -1074 ≤ (if l - 52 < -1074 then -1074 else l - 52) := by split <;> omega
  generalize (if l - 52 < -1074 then -1074 else l - 52) = e at *
  have het : e.toNat = 0 := by omega
  rw [het, Nat.shiftLeft_zero, Nat.shiftLeft_eq]
  obtain ⟨hq1, hq2⟩ := divRoundEven_bounds (n * 2 ^ (-e).toNat) d hd
  have hS : 21 ≤ (-e).toNat := by omega
  have hP : Dn ≤ 2 ^ (-e).toNat := by
    have : 2 ^ 21 ≤ 2 ^ (-e).toNat := Nat.pow_le_pow_right (by decide) hS
    have h221 : (2 : Nat) ^ 21 = 2097152 := by norm_num
    omega
  have hT1 : Nn / Dn * Dn ≤ Nn := Nat.div_mul_le_self Nn Dn
  have hT2 : Nn + 1 ≤ (Nn / Dn + 1) * Dn := by
    have := Nat.lt_div_mul_add hDn (a := Nn)
    rw [Nat.add_mul, Nat.one_mul]
    omega
  obtain ⟨hlo, hhi⟩ := quot_bounds _ n d Nn Dn (Nn / Dn) (2 ^ (-e).toNat) hd hDn hq1 hq2 hrel
    hT1 hT2 hP
  have hdiv : divRoundEven (n * 2 ^ (-e).toNat) d / 2 ^ (-e).toNat = Nn / Dn :=
    Nat.div_eq_of_lt_le (by rw [Nat.mul_comm] at hlo; rw [Nat.mul_comm]; exact hlo)
      (by rw [Nat.mul_comm] at hhi; rw [Nat.mul_comm]; exact hhi)
  generalize divRoundEven (n * 2 ^ (-e).toNat) d = q at *
  by_cases hq : q = 9007199254740992
  · rw [if_pos hq]
    dsimp only
    rw [if_neg (by omega)]
    refine ⟨_, _, rfl, by omega, ?_⟩
    rw [← hdiv, hq]
    have hS1 : (-e).toNat = (-(e + 1)).toNat + 1 := by omega
    rw [hS1, pow_succ]
    have : (9007199254740992 : Nat) = 4503599627370496 * 2 := by norm_num
    rw [this, Nat.mul_div_mul_right _ _ (by decide)]
  · rw [if_neg hq]
    dsimp only
    rw [if_neg (by omega)]
    exact ⟨_, _, rfl, by omega, hdiv⟩


theorem tdiv_natAbs (N D : Int) (hD : 0 < D) :
    Int.tdiv N D =
      if N < 0 then -((N.natAbs / D.natAbs : Nat) : Int) else ((N.natAbs / D.natAbs : Nat) : Int) := by
  have hDn : (D.natAbs : Int) = D := by omega
  rw [Int.natCast_div, hDn]
  split
  · rename_i hneg
    have hNn : (N.natAbs : Int) = -N := by omega
    have h2 : Int.tdiv (-N) D = (-N) / D := Int.tdiv_eq_ediv (by omega) (le_of_lt hD)
    rw [hNn, ← h2, Int.neg_tdiv, neg_neg]
  · rename_i hneg
    have hNn : (N.natAbs : Int) = N := by omega
    rw [hNn]
    exact Int.tdiv_eq_ediv (by omega) (le_of_lt hD)

theorem shift_lt (N a b : Nat) (hN : N < 9007199254740992) (ha : a ≤ 53) (hb : b ≤ 53) :
    N * 2 ^ a * 2 ^ b < 2 ^ 8192 := by
  have h53 : (2 : Nat) ^ 53 = 9007199254740992 := by norm_num
  calc N * 2 ^ a * 2 ^ b ≤ N * 2 ^ 53 * 2 ^ 53 :=
        Nat.mul_le_mul (Nat.mul_le_mul_left _ (Nat.pow_le_pow_right (by decide) ha))
          (Nat.pow_le_pow_right (by decide) hb)
    _ < 2 ^ 53 * 2 ^ 53 * 2 ^ 53 := by
        rw [h53]
        omega
    _ = 2 ^ 159 := by norm_num
    _ ≤ 2 ^ 8192 := Nat.pow_le_pow_right (by decide) (by decide)

theorem toInt32_fin (s : Bool) (m : Nat) (e : Int)
    (h : -2147483648 ≤ trunc s m e ∧ trunc s m e ≤ 2147483647) :
    (toInt32 (fin s m e)).val = trunc s m e := by
  simp only [toInt32, dif_pos h]

/-- The quotient of two integer-valued binary64 values, converted to `int32`,
is the integer quotient truncated toward zero, when the divisor is at most
`2^21` and the quotient fits. -/
theorem toInt32_div {x y : B64} {N D : Int} (hx : IsInt x N) (hy : IsInt y D)
    (hD0 : 0 < D) (hD : D ≤ 2097152) (hlo : -2147483648 * D ≤ N)
    (hhi : N ≤ 2147483647 * D) : (toInt32 (div x y)).val = Int.tdiv N D := by
  obtain ⟨s, m, e, rfl, he1, he2⟩ := hx.exists_fin
  obtain ⟨t, n, f, rfl, hf1, hf2⟩ := hy.exists_fin
  have hDne : D ≠ 0 := by omega
  obtain ⟨ht, hn, hf⟩ := hy.sign_eq hDne
  have hn0 : n ≠ 0 := fun h => hDne (hy.zero_iff.mp h)
  have hDlt : D.natAbs < 9007199254740992 := by omega
  have hB : bitLen D.natAbs ≤ 53 := natAbs_lt_bitLen_le _ hDlt
  -- the integer quotient and its range
  have hT := tdiv_natAbs N D hD0
  have hDn : (D.natAbs : Int) = D := by omega
  have hNle : N.natAbs ≤ 2147483648 * D.natAbs := by omega
  have hTle : N.natAbs / D.natAbs ≤ 2147483648 :=
    Nat.div_le_of_le_mul (by rw [Nat.mul_comm]; exact hNle)
  have hTpos : ¬ N < 0 → N.natAbs / D.natAbs ≤ 2147483647 := by
    intro hneg
    apply Nat.div_le_of_le_mul
    rw [Nat.mul_comm]
    omega
  unfold div
  dsimp only
  rw [if_neg hn0]
  by_cases hN : N = 0
  · have hm : m = 0 := hx.zero_iff.mpr hN
    rw [hm, Nat.zero_shiftLeft, round_zero, hN]
    unfold toInt32 trunc
    simp
  · obtain ⟨hs, hm, he⟩ := hx.sign_eq hN
    have hNlt : N.natAbs < 9007199254740992 := by
      rcases hx with ⟨h0, -⟩ | ⟨-, hlt, -⟩
      · exact absurd h0 hN
      · exact hlt
    have hA : bitLen N.natAbs ≤ 53 := natAbs_lt_bitLen_le _ hNlt
    have hNpos : 0 < N.natAbs := Int.natAbs_pos.mpr hN
    have hDpos : 0 < D.natAbs := Int.natAbs_pos.mpr hDne
    have hrel : m <<< (e - f).toNat * D.natAbs = N.natAbs * (n <<< (f - e).toNat) := by
      rw [hm, hn]
      simp only [Nat.shiftLeft_eq]
      have hexp : 53 - bitLen N.natAbs + (e - f).toNat = 53 - bitLen D.natAbs + (f - e).toNat := by
        omega
      calc N.natAbs * 2 ^ (53 - bitLen N.natAbs) * 2 ^ (e - f).toNat * D.natAbs
          = N.natAbs * D.natAbs * 2 ^ (53 - bitLen N.natAbs + (e - f).toNat) := by
            rw [pow_add]
            ring
        _ = N.natAbs * D.natAbs * 2 ^ (53 - bitLen D.natAbs + (f - e).toNat) := by rw [hexp]
        _ = N.natAbs * (D.natAbs * 2 ^ (53 - bitLen D.natAbs) * 2 ^ (f - e).toNat) := by
            rw [pow_add]
            ring
    have hn8 : m <<< (e - f).toNat < 2 ^ 8192 := by
      rw [hm]
      simp only [Nat.shiftLeft_eq]
      exact shift_lt _ _ _ hNlt (by omega) (by omega)
    have hd8 : n <<< (f - e).toNat < 2 ^ 8192 := by
      rw [hn]
      simp only [Nat.shiftLeft_eq]
      exact shift_lt _ _ _ hDlt (by omega) (by omega)
    have hnpos : 0 < m <<< (e - f).toNat := by
      rw [hm]
      simp only [Nat.shiftLeft_eq]
      positivity
    have hdpos : 0 < n <<< (f - e).toNat := by
      rw [hn]
      simp only [Nat.shiftLeft_eq]
      positivity
    obtain ⟨mr, er, hr, her, hval⟩ := round_trunc (xor s t) _ _ N.natAbs D.natAbs hnpos hdpos
      hn8 hd8 hDpos (by omega) hrel hNle
    rw [hr]
    have htr : trunc (xor s t) mr er = Int.tdiv N D := by
      unfold trunc
      have het : er.toNat = 0 := by omega
      rw [het, Nat.shiftLeft_zero, Nat.shiftRight_eq_div_pow, hval, hT, hs, ht]
      have hDneg : ¬ D < 0 := by omega
      simp only [hDneg, decide_False, Bool.xor_false]
      by_cases hneg : N < 0
      · simp only [hneg, decide_True, if_true]
      · simp only [hneg, decide_False, if_false]
        rfl
    have hrange : -2147483648 ≤ trunc (xor s t) mr er ∧ trunc (xor s t) mr er ≤ 2147483647 := by
      rw [htr, hT]
      clear htr hT hr hval hrel hn8 hd8 hnpos hdpos
      generalize N.natAbs / D.natAbs = Tn at *
      by_cases hneg : N < 0
      · rw [if_pos hneg]
        omega
      · rw [if_neg hneg]
        have := hTpos hneg
        omega
    rw [toInt32_fin _ _ _ hrange]
    exact htr

end B64

theorem truncRat_div (N : Int) (D : Nat) (hD : 0 < D) :
    truncRat ((N : Rat) / (D : Rat)) = Int.tdiv N D := by
  have hDq : (0 : Rat) < (D : Rat) := by exact_mod_cast hD
  unfold truncRat
  rw [tdiv_of_pos N D (by exact_mod_cast hD)]
  by_cases hN : 0 ≤ N
  · have hq : (0 : Rat) ≤ (N : Rat) / (D : Rat) :=
      div_nonneg (by exact_mod_cast hN) (le_of_lt hDq)
    rw [if_pos hq, if_pos hN]
    exact Rat.floor_intCast_div_natCast N D
  · have hq : ¬ (0 : Rat) ≤ (N : Rat) / (D : Rat) := by
      rw [not_le]
      exact div_neg_of_neg_of_pos (by exact_mod_cast not_le.mp hN) hDq
    rw [if_neg hq, if_neg hN]
    have hneg : -((N : Rat) / (D : Rat)) = ((-N : Int) : Rat) / (D : Rat) := by
      push_cast
      ring
    rw [hneg, Rat.floor_intCast_div_natCast]

theorem getD_append_length {α : Type} (pre : List α) (w : α) (wt : List α) (d : α) :
    (pre ++ w :: wt).getD pre.length d = w := by
  induction pre with
  | nil => rfl
  | cons x t ih => simpa using ih

/-- The loop of the `weighted` strategy is a fold over the pairs of a
projection and its weight, when the two slices have the same length. -/
theorem weightedLoop_eq_foldl (fs : FloatSem) (vs : List Int32) :
    ∀ (ws pre : List fs.F) (num den : fs.F), vs.length = ws.length →
      weightedLoop fs (pre ++ ws) vs pre.length num den =
        (List.zip vs ws).foldl (weightedStep fs) (num, den) := by
  induction vs with
  | nil =>
    intro ws pre num den h
    cases ws with
    | nil => rfl
    | cons w t => cases h
  | cons v vt ih =>
    intro ws pre num den h
    cases ws with
    | nil => cases h
    | cons w wt =>
      have hget : (pre ++ w :: wt).getD pre.length fs.zero = w :=
        getD_append_length pre w wt fs.zero
      have hpre : pre ++ w :: wt = (pre ++ [w]) ++ wt := by simp
      have hlen : pre.length + 1 = (pre ++ [w]).length := by simp
      unfold weightedLoop
      dsimp only
      rw [hget, hpre, hlen, ih wt (pre ++ [w]) _ _ (by simpa using h)]
      rfl


theorem B64.zero_isInt : B64.IsInt B64.zero 0 := Or.inl ⟨rfl, false, rfl⟩

/-- The sums the loop of the `weighted` strategy accumulates on binary64 are
exact for natural weights of total at most `2^21`. -/
theorem foldl_weightedStep_isInt (zs : List (Int32 × Nat)) :
    ∀ (num den : B64) (N D : Int), B64.IsInt num N → B64.IsInt den D → 0 ≤ D →
      -2147483648 * D ≤ N → N ≤ 2147483647 * D →
      D + (zs.map (fun z => (z.2 : Int))).sum ≤ 2097152 →
      B64.IsInt ((zs.map (fun z => (z.1, B64.ofInt (z.2 : Int)))).foldl
          (weightedStep binary64) (num, den)).1
          (N + (zs.map (fun z => z.1.val * (z.2 : Int))).sum) ∧
        B64.IsInt ((zs.map (fun z => (z.1, B64.ofInt (z.2 : Int)))).foldl
          (weightedStep binary64) (num, den)).2
          (D + (zs.map (fun z => (z.2 : Int))).sum) ∧
        -2147483648 * (D + (zs.map (fun z => (z.2 : Int))).sum) ≤
          N + (zs.map (fun z => z.1.val * (z.2 : Int))).sum ∧
        N + (zs.map (fun z => z.1.val * (z.2 : Int))).sum ≤
          2147483647 * (D + (zs.map (fun z => (z.2 : Int))).sum) := by
  induction zs with
  | nil =>
    intro num den N D hN hD _ hlo hhi _
    simp only [List.map_nil, List.sum_nil, List.foldl_nil, add_zero]
    exact ⟨hN, hD, hlo, hhi⟩
  | cons z t ih =>
    intro num den N D hN hD hD0 hlo hhi hsum
    simp only [List.map_cons, List.sum_cons, List.foldl_cons] at hsum ⊢
    have hrest : 0 ≤ (t.map (fun z => (z.2 : Int))).sum := by
      apply List.sum_nonneg
      intro x hx
      obtain ⟨y, -, rfl⟩ := List.mem_map.mp hx
      exact Int.natCast_nonneg _
    have hz2 : (0 : Int) ≤ (z.2 : Int) := Int.natCast_nonneg _
    have hv1 := z.1.lo
    have hv2 := z.1.hi
    have hp1 : -2147483648 * (z.2 : Int) ≤ z.1.val * (z.2 : Int) :=
      Int.mul_le_mul_of_nonneg_right hv1 hz2
    have hp2 : z.1.val * (z.2 : Int) ≤ 2147483647 * (z.2 : Int) :=
      Int.mul_le_mul_of_nonneg_right hv2 hz2
    have hv : B64.IsInt (B64.ofInt z.1.val) z.1.val := B64.ofInt_isInt _ (by omega)
    have hw : B64.IsInt (B64.ofInt (z.2 : Int)) (z.2 : Int) := B64.ofInt_isInt _ (by omega)
    have hprod : B64.IsInt (B64.mul (B64.ofInt z.1.val) (B64.ofInt (z.2 : Int)))
        (z.1.val * (z.2 : Int)) := B64.mul_isInt hv hw (by omega)
    have hnum : B64.IsInt (B64.add num (B64.mul (B64.ofInt z.1.val) (B64.ofInt (z.2 : Int))))
        (N + z.1.val * (z.2 : Int)) := B64.add_isInt hN hprod (by omega)
    have hden : B64.IsInt (B64.add den (B64.ofInt (z.2 : Int))) (D + (z.2 : Int)) :=
      B64.add_isInt hD hw (by omega)
    have := ih _ _ _ _ hnum hden (by omega) (by omega) (by omega) (by omega)
    simp only [← add_assoc] at this ⊢
    exact this


theorem zip_map_ofInt (p : List Int32) (w : List Nat) :
    List.zip p (w.map (fun (n : Nat) => B64.ofInt (n : Int))) =
      (List.zip p w).map (fun z => (z.1, B64.ofInt (z.2 : Int))) := by
  induction p generalizing w with
  | nil => rfl
  | cons a t ih =>
    cases w with
    | nil => rfl
    | cons b u => simp [ih]

theorem sum_snd_zip (p : List Int32) (w : List Nat) (h : w.length = p.length) :
    ((List.zip p w).map (fun z => (z.2 : Int))).sum = (w.sum : Int) := by
  induction p generalizing w with
  | nil =>
    cases w with
    | nil => rfl
    | cons b u => cases h
  | cons a t ih =>
    cases w with
    | nil => cases h
    | cons b u =>
      simp only [List.zip_cons_cons, List.map_cons, List.sum_cons, Nat.cast_add]
      rw [ih u (by simpa using h)]

theorem sum_map_natCast (w : List Nat) : (w.map (fun (n : Nat) => (n : Rat))).sum = (w.sum : Rat) := by
  induction w with
  | nil => simp
  | cons b u ih => simp only [List.map_cons, List.sum_cons, Nat.cast_add, ih]

theorem sum_zipWith_cast (p : List Int32) (w : List Nat) :
    (List.zipWith (fun a b => (a.val : Rat) * b) p (w.map (fun (n : Nat) => (n : Rat)))).sum =
      ((((List.zip p w).map (fun z => z.1.val * (z.2 : Int))).sum : Int) : Rat) := by
  induction p generalizing w with
  | nil => simp
  | cons a t ih =>
    cases w with
    | nil => simp
    | cons b u =>
      simp only [List.map_cons, List.zipWith_cons_cons, List.sum_cons, List.zip_cons_cons]
      rw [ih u]
      push_cast
      rfl

theorem aggregate_weighted (fs : FloatSem) (d0 : Int32) (rest : List Int32)
    (weights : List fs.F) :
    aggregate fs (d0 :: rest) weights AggregationWeighted =
      if fs.eq (weightedLoop fs weights (d0 :: rest) 0 fs.zero fs.zero).2 fs.zero = true then d0
      else fs.toInt32 (fs.div (weightedLoop fs weights (d0 :: rest) 0 fs.zero fs.zero).1
        (weightedLoop fs weights (d0 :: rest) 0 fs.zero fs.zero).2) := by
  have h1 : ¬ AggregationWeighted = AggregationMin := by decide
  have h2 : ¬ AggregationWeighted = AggregationAverage := by decide
  unfold aggregate
  simp only [h1, h2, if_false, if_true]

/-- On binary64 the `weighted` strategy is exact for natural weights of total at
most `2^21`. -/
theorem aggregate_weighted_nat (p : List Int32) (w : List Nat) (hne : p ≠ [])
    (hlen : w.length = p.length) (hsum : w.sum ≤ 2097152) :
    (aggregate binary64 p (w.map (fun (n : Nat) => B64.ofInt (n : Int))) AggregationWeighted).val =
      weightedSpec p (w.map (fun (n : Nat) => (n : Rat))) := by
  cases p with
  | nil => exact absurd rfl hne
  | cons d0 rest =>
    have hloop := weightedLoop_eq_foldl binary64 (d0 :: rest)
      (w.map (fun (n : Nat) => B64.ofInt (n : Int))) [] B64.zero B64.zero (by
        rw [List.length_map]
        exact hlen.symm)
    simp only [List.nil_append, List.length_nil] at hloop
    have hD := sum_snd_zip (d0 :: rest) w hlen
    obtain ⟨hnum, hden, hlo, hhi⟩ := foldl_weightedStep_isInt (List.zip (d0 :: rest) w)
      B64.zero B64.zero 0 0 B64.zero_isInt B64.zero_isInt (le_refl _) (by decide) (by decide)
      (by rw [hD]; omega)
    rw [← zip_map_ofInt] at hnum hden
    simp only [zero_add] at hnum hden hlo hhi
    rw [hD] at hden hlo hhi
    rw [aggregate_weighted]
    unfold weightedSpec
    rw [sum_map_natCast, sum_zipWith_cast]
    show (if B64.eq (weightedLoop binary64 _ _ 0 B64.zero B64.zero).2 B64.zero = true then d0
      else B64.toInt32 (B64.div (weightedLoop binary64 _ _ 0 B64.zero B64.zero).1
        (weightedLoop binary64 _ _ 0 B64.zero B64.zero).2)).val = _
    rw [hloop, B64.eq_zero_of_isInt hden]
    by_cases hw : w.sum = 0
    · have h1 : ((w.sum : Nat) : Int) = 0 := by omega
      have h2 : ((w.sum : Nat) : Rat) = 0 := by exact_mod_cast hw
      rw [if_pos (by rw [h1]; rfl), if_pos h2]
      rfl
    · have h1 : ¬ ((w.sum : Nat) : Int) = 0 := by omega
      have h2 : ¬ ((w.sum : Nat) : Rat) = 0 := by exact_mod_cast hw
      rw [if_neg (by simpa using h1), if_neg h2]
      rw [B64.toInt32_div hnum hden (by omega) (by omega) hlo hhi]
      exact (truncRat_div _ _ (by omega)).symm


theorem B64.toRat_ofInt (n : Nat) (h : n < 9007199254740992) :
    B64.toRat (B64.ofInt (n : Int)) = (n : Rat) := by
  have hint := B64.ofInt_isInt (n : Int) (by omega)
  rcases hint with ⟨hz, s, hs⟩ | ⟨hz, -, hx⟩
  · rw [hs]
    have h0 : n = 0 := by omega
    simp [B64.toRat, h0]
  · rw [hx]
    have hnat : (n : Int).natAbs = n := Int.natAbs_ofNat n
    have hneg : ¬ ((n : Int) < 0) := by omega
    have hA : B64.bitLen n ≤ 53 := B64.natAbs_lt_bitLen_le n h
    unfold B64.canon B64.toRat
    rw [hnat]
    simp only [hneg, decide_False, Bool.false_eq_true, if_false, one_mul, Nat.shiftLeft_eq,
      Nat.cast_mul, Nat.cast_pow, Nat.cast_ofNat]
    rw [mul_assoc, ← zpow_natCast, ← zpow_add₀ (by norm_num : (2 : Rat) ≠ 0)]
    have hexp : ((53 - B64.bitLen n : Nat) : Int) + ((B64.bitLen n : Int) - 53) = 0 := by omega
    rw [hexp, zpow_zero, mul_one]

theorem map_toRat_ofInt (w : List Nat) (h : ∀ n ∈ w, n < 9007199254740992) :
    (w.map (fun (n : Nat) => B64.ofInt (n : Int))).map B64.toRat =
      w.map (fun (n : Nat) => (n : Rat)) := by
  rw [List.map_map]
  apply List.map_congr_left
  intro n hn
  exact B64.toRat_ofInt n (h n hn)

theorem le_sum_of_mem (w : List Nat) (n : Nat) (h : n ∈ w) : n ≤ w.sum := by
  induction w with
  | nil => cases h
  | cons a t ih =>
    rw [List.sum_cons]
    rcases List.mem_cons.mp h with rfl | ht
    · omega
    · have := ih ht
      omega

/-- C10, as stated, fails on IEEE-754 binary64: for the projections `[3, 3, 3]`
and the weights `0.1`, `0.2`, `0.3` (as `float64`, all positive) the exact
value of `Σ(p_i · w_i) / Σ w_i` is 3, but the rounded sums give the quotient
`2.9999999999999996` and the strategy returns 2. -/
theorem C10_counterexample :
    tenthWeights = [B64.round false 1 10, B64.round false 2 10, B64.round false 3 10] ∧
    (∀ x ∈ tenthWeights.map B64.toRat, 0 < x) ∧
    0 < (tenthWeights.map B64.toRat).sum ∧
    weightedSpec [3, 3, 3] (tenthWeights.map B64.toRat) = 3 ∧
    (aggregate binary64 [3, 3, 3] tenthWeights AggregationWeighted).val = 2 := by
  refine ⟨by decide, ?_, ?_, ?_, by decide⟩
  · norm_num [tenthWeights, B64.toRat]
  · norm_num [tenthWeights, B64.toRat]
  · have h3 : (3 : Int32).val = 3 := rfl
    norm_num [weightedSpec, truncRat, tenthWeights, B64.toRat, h3]

/-- C10, amended: on IEEE-754 binary64, for a non-empty list of projections and
an equally long list of weights that are the `float64` values of natural
numbers of total at most `2^21 = 2097152`, the `weighted` strategy returns
`Σ(p_i · w_i) / Σ w_i` rounded toward zero when the total weight is positive,
and the first projection when it is zero. -/
theorem C10_weighted_amended (p : List Int32) (w : List Nat) (hne : p ≠ [])
    (hlen : w.length = p.length) (hsum : w.sum ≤ 2097152) :
    (aggregate binary64 p (w.map (fun (n : Nat) => B64.ofInt (n : Int)))
        AggregationWeighted).val =
      weightedSpec p ((w.map (fun (n : Nat) => B64.ofInt (n : Int))).map B64.toRat) := by
  rw [map_toRat_ofInt w (fun n hn => by
    have := le_sum_of_mem w n hn
    omega)]
  exact aggregate_weighted_nat p w hne hlen hsum

/-- C10, amended, at Scenario B: projections `[4, 8]` with weights `[1, 3]`
give 7. -/
theorem C10_weighted_amended_witness :
    (aggregate binary64 [4, 8] ([1, 3].map (fun (n : Nat) => B64.ofInt (n : Int)))
        AggregationWeighted).val = 7 ∧
    (aggregate binary64 [4, 8] ([1, 3].map (fun (n : Nat) => B64.ofInt (n : Int)))
        AggregationWeighted).val =
      weightedSpec [4, 8] (([1, 3].map (fun (n : Nat) => B64.ofInt (n : Int))).map B64.toRat) :=
  ⟨by decide, C10_weighted_amended [4, 8] [1, 3] (by decide) rfl (by decide)⟩

/-! ## C11: scale-down wins the tie-break -/

/-- When the scale-down direction fires, `desiredFromMetric` returns the 32-bit
difference of the current count and the scale-down step, floored at 1, whatever
the scale-up direction is. -/
theorem desiredFromMetric_down (current : Int32) (sample : fs.F) (ms : MetricSpec fs)
    (down : ScaleDirection fs) (hd : ms.ScaleDown = some down)
    (hlt : fs.lt sample down.Threshold = true) :
    desiredFromMetric current sample ms =
      if (Int32.sub current down.Step).val < 1 then 1 else Int32.sub current down.Step := by
  unfold desiredFromMetric
  rw [hd]
  dsimp only
  rw [if_pos hlt]

/-- When the scale-down direction fires and the difference of the current count
and the scale-down step lies in the 32-bit range, `desiredFromMetric` returns
that difference floored at 1. -/
theorem desiredFromMetric_down_val (current : Int32) (sample : fs.F) (ms : MetricSpec fs)
    (down : ScaleDirection fs) (hd : ms.ScaleDown = some down)
    (hlt : fs.lt sample down.Threshold = true)
    (hfit : -2147483648 ≤ current.val - down.Step.val ∧
      current.val - down.Step.val ≤ 2147483647) :
    (desiredFromMetric current sample ms).val = max 1 (current.val - down.Step.val) := by
  rw [desiredFromMetric_down current sample ms down hd hlt]
  have hs : (Int32.sub current down.Step).val = current.val - down.Step.val :=
    Int32.wrap_val_of_range hfit.1 hfit.2
  split
  · rename_i h
    rw [hs] at h
    rw [Int32.ofNat_val_one]
    omega
  · rename_i h
    rw [hs] at h ⊢
    omega

/-- C11: for every current count and scale-down step that are not negative (a
replica count is never negative and the schema requires a step of at least 0),
every sample and every metric whose `scaleDown` is configured with the sample
below its threshold, `desiredFromMetric` returns
`max(1, current - scaleDown.step)`, whether or not `scaleUp` is configured and
fires: the step is subtracted from the original current count. -/
theorem C11_scale_down_wins (current : Int32) (sample : fs.F) (ms : MetricSpec fs)
    (down : ScaleDirection fs) (hd : ms.ScaleDown = some down)
    (hlt : fs.lt sample down.Threshold = true)
    (hcur : 0 ≤ current.val) (hstep : 0 ≤ down.Step.val) :
    (desiredFromMetric current sample ms).val = max 1 (current.val - down.Step.val) := by
  have h1 := current.hi
  have h2 := down.Step.hi
  exact desiredFromMetric_down_val current sample ms down hd hlt ⟨by omega, by omega⟩

/-- C11 where both directions fire: current 5, sample 80 above the scale-up
threshold 70 and below the scale-down threshold 90: the result is `5 - 3 = 2`,
not `5 + 2 - 3`. -/
theorem C11_scale_down_wins_witness :
    binary64.lt (B64.ofInt 70) (B64.ofInt 80) = true ∧
    binary64.lt (B64.ofInt 80) (B64.ofInt 90) = true ∧
    (desiredFromMetric 5 (B64.ofInt 80) bothFireMetric).val = 2 ∧
    (desiredFromMetric 5 (B64.ofInt 80) bothFireMetric).val = max 1 ((5 : Int32).val - (3 : Int32).val) :=
  ⟨by decide, by decide, by decide,
    C11_scale_down_wins 5 (B64.ofInt 80) bothFireMetric ⟨B64.ofInt 90, 3⟩ rfl (by decide)
      (by decide) (by decide)⟩

/-! ## C12: the default aggregation is the maximum -/

theorem maxLoop_cons (init v : Int32) (rest : List Int32) :
    maxLoop init (v :: rest) = maxLoop (if v.val > init.val then v else init) rest := rfl

theorem maxLoop_ge_init (init : Int32) (rest : List Int32) :
    init.val ≤ (maxLoop init rest).val := by
  induction rest generalizing init with
  | nil => exact le_refl _
  | cons v t ih =>
    rw [maxLoop_cons]
    have := ih (if v.val > init.val then v else init)
    by_cases h : v.val > init.val
    · rw [if_pos h] at this ⊢
      omega
    · rw [if_neg h] at this ⊢
      exact this

theorem maxLoop_ge_mem (init : Int32) (rest : List Int32) (x : Int32) (hx : x ∈ rest) :
    x.val ≤ (maxLoop init rest).val := by
  induction rest generalizing init with
  | nil => cases hx
  | cons v t ih =>
    rw [maxLoop_cons]
    rcases List.mem_cons.mp hx with rfl | ht
    · have := maxLoop_ge_init (if x.val > init.val then x else init) t
      by_cases h : x.val > init.val
      · rw [if_pos h] at this ⊢
        exact this
      · rw [if_neg h] at this ⊢
        omega
    · exact ih _ ht

theorem maxLoop_mem (init : Int32) (rest : List Int32) :
    maxLoop init rest ∈ init :: rest := by
  induction rest generalizing init with
  | nil => exact List.mem_cons_self _ _
  | cons v t ih =>
    rw [maxLoop_cons]
    have := ih (if v.val > init.val then v else init)
    rcases List.mem_cons.mp this with h | h
    · rw [h]
      split
      · exact List.mem_cons_of_mem _ (List.mem_cons_self _ _)
      · exact List.mem_cons_self _ _
    · exact List.mem_cons_of_mem _ (List.mem_cons_of_mem _ h)

/-- C12: for a non-empty list of projections and a strategy other than `min`,
`average` and `weighted`, `aggregate` returns the maximum projection: a value
that occurs in the list and is at least every element of it. -/
theorem C12_default_is_max (fs : FloatSem) (desired : List Int32) (weights : List fs.F)
    (strategy : AggregationStrategy) (hne : desired ≠ [])
    (h1 : strategy ≠ AggregationMin) (h2 : strategy ≠ AggregationAverage)
    (h3 : strategy ≠ AggregationWeighted) :
    aggregate fs desired weights strategy ∈ desired ∧
      ∀ x ∈ desired, x.val ≤ (aggregate fs desired weights strategy).val := by
  cases desired with
  | nil => exact absurd rfl hne
  | cons d0 rest =>
    have hagg : aggregate fs (d0 :: rest) weights strategy = maxLoop d0 rest := by
      unfold aggregate
      simp only [h1, h2, h3, if_false]
    rw [hagg]
    refine ⟨maxLoop_mem d0 rest, ?_⟩
    intro x hx
    rcases List.mem_cons.mp hx with rfl | ht
    · exact maxLoop_ge_init _ _
    · exact maxLoop_ge_mem _ _ _ ht

/-- C12 for the unset strategy, for `max` itself and for an unrecognized
strategy: the projections `[4, 9, 6]` aggregate to 9. -/
theorem C12_default_is_max_witness :
    (aggregate binary64 [4, 9, 6] [] "").val = 9 ∧
    (aggregate binary64 [4, 9, 6] [] AggregationMax).val = 9 ∧
    (aggregate binary64 [4, 9, 6] [] "median" ∈ ([4, 9, 6] : List Int32) ∧
      ∀ x ∈ ([4, 9, 6] : List Int32), x.val ≤ (aggregate binary64 [4, 9, 6] [] "median").val) :=
  ⟨by decide, by decide,
    C12_default_is_max binary64 [4, 9, 6] [] "median" (by decide) (by decide) (by decide)
      (by decide)⟩

/-! ## C16: the allowed rate-limit step -/

/-- C16, as stated, fails: for the cap `p = 0`, which the schema allows,
`rateLimitStep` returns 0 and not `max(1, 0) = 1`; and for a current count of
1073741824 with `p = 200` the 32-bit product wraps to 0, so the step is 1 and
not 2147483648. -/
theorem C16_counterexample :
    ((0 : Int) ≤ (5 : Int32).val ∧ (0 : Int) ≤ (0 : Int32).val ∧
      (rateLimitStep 5 0).val = 0 ∧ stepBound 5 0 = 1 ∧
      ¬ (rateLimitStep 5 0).val = stepBound 5 0) ∧
    ((rateLimitStep 1073741824 200).val = 1 ∧ stepBound 1073741824 200 = 2147483648 ∧
      ¬ (rateLimitStep 1073741824 200).val = stepBound 1073741824 200) := by
  decide

/-- C16, amended: for a current count that is not negative and a cap `p ≥ 0`
whose product with the current count fits in 32 bits, `rateLimitStep` returns
`max(1, ⌊current · p / 100⌋)` when `p ≥ 1`, and 0 when `p = 0`. -/
theorem C16_allowed_step_amended (current percent : Int32) (hc : 0 ≤ current.val)
    (hp : 0 ≤ percent.val) (hfit : current.val * percent.val ≤ 2147483647) :
    (rateLimitStep current percent).val =
      if percent.val = 0 then 0 else stepBound current percent := by
  unfold rateLimitStep stepBound
  by_cases h0 : percent.val = 0
  · rw [if_pos h0, if_pos (by omega)]
    rfl
  · rw [if_neg h0, if_neg (by omega)]
    dsimp only
    have hx : 0 ≤ current.val * percent.val := Int.mul_nonneg hc hp
    have hm : (Int32.mul current percent).val = current.val * percent.val := by
      rw [Int32.mul_val]
      omega
    have hd : (Int32.div (Int32.mul current percent) 100).val =
        current.val * percent.val / 100 := by
      rw [Int32.div_val, hm, Int32.ofNat_val_hundred, tdiv_of_pos _ _ (by decide), if_pos hx]
      omega
    split
    · rename_i hs
      rw [hd] at hs
      rw [Int32.ofNat_val_one, max_eq_left (by omega)]
    · rename_i hs
      rw [hd] at hs ⊢
      rw [max_eq_right (by omega)]

/-- C16, amended, at a current count of 10: the cap 50 allows 5 and the cap 0
allows nothing. -/
theorem C16_allowed_step_amended_witness :
    (rateLimitStep 10 50).val = 5 ∧
    (rateLimitStep 10 50).val = (if (50 : Int32).val = 0 then 0 else stepBound 10 50) ∧
    (rateLimitStep 10 0).val = 0 :=
  ⟨by decide, C16_allowed_step_amended 10 50 (by decide) (by decide) (by decide), by decide⟩

/-! ## C17: average aggregation -/

theorem sumLoop_foldl_val (l : List Int32) (acc : Int32) (a : Int)
    (h : acc.val = (Int32.wrap a).val) :
    (l.foldl (fun sum v => Int32.add sum v) acc).val = (Int32.wrap (a + exactSum l)).val := by
  induction l generalizing acc a with
  | nil =>
    simp only [List.foldl_nil, exactSum, List.map_nil, List.sum_nil, add_zero]
    exact h
  | cons v t ih =>
    rw [List.foldl_cons]
    have hstep : (Int32.add acc v).val = (Int32.wrap (a + v.val)).val := by
      rw [Int32.add_val, h]
      show _ = (a + v.val + 2147483648) % 4294967296 - 2147483648
      show ((a + 2147483648) % 4294967296 - 2147483648 + v.val + 2147483648) % 4294967296
        - 2147483648 = _
      omega
    rw [ih _ _ hstep]
    simp only [exactSum, List.map_cons, List.sum_cons, add_assoc]

/-- The 32-bit running sum is the exact sum reduced to 32 bits. -/
theorem sumLoop_val (l : List Int32) : (sumLoop l).val = (Int32.wrap (exactSum l)).val := by
  have := sumLoop_foldl_val l (Int32.wrap 0) 0 rfl
  rw [zero_add] at this
  exact this

theorem exactSum_bounds (l : List Int32) (lo hi : Int)
    (h : ∀ x ∈ l, lo ≤ x.val ∧ x.val ≤ hi) :
    lo * l.length ≤ exactSum l ∧ exactSum l ≤ hi * l.length := by
  induction l with
  | nil => simp [exactSum]
  | cons v t ih =>
    have hv := h v (List.mem_cons_self _ _)
    have ht := ih (fun x hx => h x (List.mem_cons_of_mem _ hx))
    simp only [exactSum, List.map_cons, List.sum_cons, List.length_cons, Nat.cast_add,
      Nat.cast_one, mul_add, mul_one] at ht ⊢
    constructor <;> omega

theorem aggregate_average (fs : FloatSem) (d0 : Int32) (rest : List Int32)
    (weights : List fs.F) :
    aggregate fs (d0 :: rest) weights AggregationAverage =
      Int32.div (sumLoop (d0 :: rest)) (Int32.wrap ((d0 :: rest).length)) := by
  have h1 : ¬ AggregationAverage = AggregationMin := by decide
  unfold aggregate
  simp only [h1, if_false, if_true]

/-- C17, as stated, fails when the 32-bit sum overflows: the projections
2147483647 and 1 are not negative, their sum wraps to -2147483648 and the
average strategy returns -1073741824, which is neither the truncated quotient
1073741824 nor between 1 and 2147483647. -/
theorem C17_counterexample :
    (∀ x ∈ ([2147483647, 1] : List Int32), 0 ≤ x.val) ∧
    exactSum [2147483647, 1] = 2147483648 ∧
    (aggregate binary64 [2147483647, 1] [] AggregationAverage).val = -1073741824 ∧
    ¬ (aggregate binary64 [2147483647, 1] [] AggregationAverage).val
      = Int.tdiv (exactSum [2147483647, 1]) 2 ∧
    ¬ (1 : Int) ≤ (aggregate binary64 [2147483647, 1] [] AggregationAverage).val := by
  decide

/-- C17, amended: for a non-empty list of fewer than `2^31` projections whose
exact sum fits in 32 bits, the `average` strategy returns the sum divided by
the count, truncated toward zero; for projections that are not negative the
result times the count is at most the sum, and the result lies between any
lower and upper bound of the projections. -/
theorem C17_average_amended (fs : FloatSem) (desired : List Int32) (weights : List fs.F)
    (hne : desired ≠ []) (hlen : (desired.length : Int) ≤ 2147483647)
    (hfit : -2147483648 ≤ exactSum desired ∧ exactSum desired ≤ 2147483647) :
    (aggregate fs desired weights AggregationAverage).val =
        Int.tdiv (exactSum desired) desired.length ∧
      ((∀ x ∈ desired, 0 ≤ x.val) →
        (aggregate fs desired weights AggregationAverage).val * desired.length
            ≤ exactSum desired ∧
          ∀ lo hi : Int, (∀ x ∈ desired, lo ≤ x.val ∧ x.val ≤ hi) →
            lo ≤ (aggregate fs desired weights AggregationAverage).val ∧
              (aggregate fs desired weights AggregationAverage).val ≤ hi) := by
  cases desired with
  | nil => exact absurd rfl hne
  | cons d0 rest =>
    have hn : (0 : Int) < ((d0 :: rest).length : Int) := by
      rw [List.length_cons]
      omega
    have hsum : (sumLoop (d0 :: rest)).val = exactSum (d0 :: rest) := by
      rw [sumLoop_val]
      exact Int32.wrap_val_of_range hfit.1 hfit.2
    have hcnt : (Int32.wrap ((d0 :: rest).length)).val = ((d0 :: rest).length : Int) :=
      Int32.wrap_val_of_range (by omega) hlen
    have hq := tdiv_of_pos (exactSum (d0 :: rest)) ((d0 :: rest).length : Int) hn
    have hval : (aggregate fs (d0 :: rest) weights AggregationAverage).val =
        Int.tdiv (exactSum (d0 :: rest)) ((d0 :: rest).length) := by
      rw [aggregate_average, Int32.div_val, hsum, hcnt]
      generalize exactSum (d0 :: rest) = S at *
      generalize ((d0 :: rest).length : Int) = n at *
      rw [hq]
      by_cases hS : 0 ≤ S
      · rw [if_pos hS]
        have h1 : 0 ≤ S / n := Int.ediv_nonneg hS (le_of_lt hn)
        have h2 : S / n ≤ S := Int.ediv_le_self n hS
        omega
      · rw [if_neg hS]
        have h1 : 0 ≤ -S / n := Int.ediv_nonneg (by omega) (le_of_lt hn)
        have h2 : -S / n ≤ -S := Int.ediv_le_self n (by omega)
        omega
    refine ⟨hval, ?_⟩
    intro hnn
    have hS0 : 0 ≤ exactSum (d0 :: rest) := by
      have := (exactSum_bounds (d0 :: rest) 0 2147483647
        (fun x hx => ⟨hnn x hx, x.hi⟩)).1
      omega
    rw [hval, hq, if_pos hS0]
    refine ⟨Int.ediv_mul_le _ (ne_of_gt hn), ?_⟩
    intro lo hi hb
    obtain ⟨hb1, hb2⟩ := exactSum_bounds (d0 :: rest) lo hi hb
    exact ⟨Int.le_ediv_of_mul_le hn hb1, Int.ediv_le_of_le_mul hn hb2⟩

/-- C17, amended, at the projections `[4, 7]`: the sum 11 divided by 2 is
truncated to 5, which lies between 4 and 7. -/
theorem C17_average_amended_witness :
    (aggregate binary64 [4, 7] [] AggregationAverage).val = 5 ∧
    (aggregate binary64 [4, 7] [] AggregationAverage).val =
      Int.tdiv (exactSum [4, 7]) (([4, 7] : List Int32).length) :=
  ⟨by decide,
    (C17_average_amended binary64 [4, 7] [] (by decide) (by decide) (by decide)).1⟩

/-! ## C19: an active cooldown returns the current count -/

theorem rateLimitPhase_flag (inp : Input fs) (b : BehaviorSpec) (r : Int32) (ca : Bool) :
    (rateLimitPhase inp b r ca).2 = ca := by
  unfold rateLimitPhase
  dsimp only
  by_cases h0 : (Int32.sub r inp.CurrentReplicas).val = 0
  · rw [if_pos h0]
  · rw [if_neg h0]

/-- The flag `applyCooldownAndHistory` returns is the flag of the cooldown
step. -/
theorem applyCooldownAndHistory_flag (inp : Input fs) (b : BehaviorSpec) (d : Int32)
    (hb : inp.Spec.Behavior = some b) :
    (applyCooldownAndHistory inp d).2 = (cooldownPhase inp b d).2 := by
  unfold applyCooldownAndHistory
  rw [hb]
  dsimp only
  rw [rateLimitPhase_flag]

/-- C19: for an input with at least one metric, if the returned
`CooldownActive` is true then the returned count is the current count. -/
theorem C19_cooldown_active_keeps_current (inp : Input fs)
    (hm : 1 ≤ inp.Spec.Metrics.length)
    (hca : (Decide fs inp).1.CooldownActive = true) :
    (Decide fs inp).1.DesiredReplicas = inp.CurrentReplicas := by
  obtain ⟨-, hd, hc⟩ := Decide_of_metrics inp hm
  rw [hc] at hca
  rw [hd]
  rcases hbeh : inp.Spec.Behavior with _ | b
  · unfold applyCooldownAndHistory at hca
    rw [hbeh] at hca
    cases hca
  · rw [applyCooldownAndHistory_flag inp b _ hbeh] at hca
    rcases cooldownPhase_cases inp b (clamped fs inp) with h | h
    · rw [h] at hca
      cases hca
    · rw [applyCooldownAndHistory_of_cooldown inp b _ true hbeh h]

/-- C19 at Scenario C: the cooldown is reported and the result is the current
count 5. -/
theorem C19_cooldown_active_keeps_current_witness :
    (Decide binary64 inputScenarioC).1.CooldownActive = true ∧
    (Decide binary64 inputScenarioC).1.DesiredReplicas = inputScenarioC.CurrentReplicas :=
  ⟨by decide, C19_cooldown_active_keeps_current inputScenarioC (by decide) (by decide)⟩

/-! ## C18: cooldowns are direction-specific -/

theorem not_elapsed_lt (now last : Int) (s : Int32) (h : s.val * 1000000000 ≤ now - last) :
    ¬ Time.Sub now last < secondsDuration s := by
  rw [elapsed_lt_iff]
  omega

/-- The cooldown step leaves `d` alone when neither cooldown applies. -/
theorem cooldownPhase_pass (inp : Input fs) (b : BehaviorSpec) (d : Int32)
    (hu : ∀ s last, b.ScaleUpCooldownSeconds = some s → inp.LastScaleTime = some last →
      ¬ (d.val > inp.CurrentReplicas.val ∧ Time.Sub inp.Now last < secondsDuration s))
    (hd : ∀ s last, b.ScaleDownCooldownSeconds = some s → inp.LastScaleTime = some last →
      ¬ (d.val < inp.CurrentReplicas.val ∧ Time.Sub inp.Now last < secondsDuration s)) :
    cooldownPhase inp b d = (d, false) := by
  unfold cooldownPhase
  rcases hl : inp.LastScaleTime with _ | last
  · rfl
  · rcases hus : b.ScaleUpCooldownSeconds with _ | su
    · rcases hds : b.ScaleDownCooldownSeconds with _ | sd
      · rfl
      · dsimp only
        rw [if_neg (hd sd last hds hl)]
    · dsimp only
      rw [if_neg (hu su last hus hl)]
      rcases hds : b.ScaleDownCooldownSeconds with _ | sd
      · rfl
      · dsimp only
        rw [if_neg (hd sd last hds hl)]

/-- C18: with a behavior block, a clamped aggregate above the current count is
left unchanged by the cooldown step, and no cooldown is reported, when the
scale-up cooldown is unset or has elapsed since the last scale, however the
scale-down cooldown is set; symmetrically for a clamped aggregate below the
current count and the scale-down cooldown; and no cooldown is reported when
the last scale time is unknown. -/
theorem C18_cooldown_direction (inp : Input fs) (b : BehaviorSpec)
    (hm : 1 ≤ inp.Spec.Metrics.length) (hb : inp.Spec.Behavior = some b) :
    ((clamped fs inp).val > inp.CurrentReplicas.val →
      (b.ScaleUpCooldownSeconds = none ∨
        ∃ s last, b.ScaleUpCooldownSeconds = some s ∧ inp.LastScaleTime = some last ∧
          s.val * 1000000000 ≤ inp.Now - last) →
      cooldownPhase inp b (clamped fs inp) = (clamped fs inp, false) ∧
        (Decide fs inp).1.CooldownActive = false) ∧
    ((clamped fs inp).val < inp.CurrentReplicas.val →
      (b.ScaleDownCooldownSeconds = none ∨
        ∃ s last, b.ScaleDownCooldownSeconds = some s ∧ inp.LastScaleTime = some last ∧
          s.val * 1000000000 ≤ inp.Now - last) →
      cooldownPhase inp b (clamped fs inp) = (clamped fs inp, false) ∧
        (Decide fs inp).1.CooldownActive = false) ∧
    (inp.LastScaleTime = none →
      cooldownPhase inp b (clamped fs inp) = (clamped fs inp, false) ∧
        (Decide fs inp).1.CooldownActive = false) := by
  obtain ⟨-, -, hc⟩ := Decide_of_metrics inp hm
  have hflag : cooldownPhase inp b (clamped fs inp) = (clamped fs inp, false) →
      (Decide fs inp).1.CooldownActive = false := by
    intro hx
    rw [hc, applyCooldownAndHistory_flag inp b _ hb, hx]
  refine ⟨?_, ?_, ?_⟩
  · intro hgt hcd
    have hph : cooldownPhase inp b (clamped fs inp) = (clamped fs inp, false) := by
      apply cooldownPhase_pass
      · intro s last hs hl h
        rcases hcd with hnone | ⟨s2, last2, hs2, hl2, hel⟩
        · rw [hnone] at hs
          cases hs
        · rw [hs] at hs2
          rw [hl] at hl2
          cases hs2
          cases hl2
          exact not_elapsed_lt _ _ _ hel h.2
      · intro s last _ _ h
        omega
    exact ⟨hph, hflag hph⟩
  · intro hlt hcd
    have hph : cooldownPhase inp b (clamped fs inp) = (clamped fs inp, false) := by
      apply cooldownPhase_pass
      · intro s last _ _ h
        omega
      · intro s last hs hl h
        rcases hcd with hnone | ⟨s2, last2, hs2, hl2, hel⟩
        · rw [hnone] at hs
          cases hs
        · rw [hs] at hs2
          rw [hl] at hl2
          cases hs2
          cases hl2
          exact not_elapsed_lt _ _ _ hel h.2
    exact ⟨hph, hflag hph⟩
  · intro hl
    have hph : cooldownPhase inp b (clamped fs inp) = (clamped fs inp, false) := by
      unfold cooldownPhase
      rw [hl]
    exact ⟨hph, hflag hph⟩

/-- C18 at an upward move: the scale-up cooldown of 5 seconds has elapsed, the
scale-down cooldown of 600 seconds has not, and the result is 6 without a
cooldown. -/
theorem C18_cooldown_direction_witness :
    (clamped binary64 inputUpAllowed).val = 6 ∧
    (Decide binary64 inputUpAllowed).1.DesiredReplicas.val = 6 ∧
    (cooldownPhase inputUpAllowed ⟨none, some 5, some 600, none, none⟩
        (clamped binary64 inputUpAllowed) = (clamped binary64 inputUpAllowed, false) ∧
      (Decide binary64 inputUpAllowed).1.CooldownActive = false) :=
  ⟨by decide, by decide,
    (C18_cooldown_direction inputUpAllowed ⟨none, some 5, some 600, none, none⟩ (by decide)
      rfl).1 (by decide) (Or.inr ⟨5, 90000000000, rfl, rfl, by decide⟩)⟩
/-! ## C14: the stabilization step -/

theorem windowMax_cons (d v : Int) (vals : List Int) :
    windowMax d (v :: vals) = windowMax (max d v) vals := rfl

/-- The scan of the history returns the maximum of its start value and the
values of the entries newer than the cutoff. -/
theorem windowScan_val (cutoff : Int) (hist : List HistorySample) (init : Int32) :
    (windowScan cutoff hist init).val =
      windowMax init.val
        ((hist.filter (fun h => decide (cutoff < h.Timestamp))).map
          (fun h => h.DesiredReplicas.val)) := by
  induction hist generalizing init with
  | nil => rfl
  | cons h t ih =>
    rw [windowScan_cons, ih]
    by_cases hin : cutoff < h.Timestamp
    · have hf : (List.filter (fun h => decide (cutoff < h.Timestamp)) (h :: t)) =
          h :: List.filter (fun h => decide (cutoff < h.Timestamp)) t := by
        rw [List.filter_cons_of_pos]
        exact decide_eq_true hin
      rw [hf, List.map_cons, windowMax_cons]
      by_cases hgt : h.DesiredReplicas.val > init.val
      · rw [if_pos ⟨(Time.After_iff _ _).2 hin, hgt⟩, max_eq_right (le_of_lt hgt)]
      · rw [if_neg (fun hc => hgt hc.2), max_eq_left (by omega)]
    · have hf : (List.filter (fun h => decide (cutoff < h.Timestamp)) (h :: t)) =
          List.filter (fun h => decide (cutoff < h.Timestamp)) t := by
        rw [List.filter_cons_of_neg]
        simpa using hin
      rw [hf, if_neg (fun hc => hin ((Time.After_iff _ _).1 hc.1))]

theorem windowMax_ge (d : Int) (vals : List Int) : d ≤ windowMax d vals := by
  induction vals generalizing d with
  | nil => exact le_refl _
  | cons v t ih =>
    rw [windowMax_cons]
    exact le_trans (le_max_left _ _) (ih _)

/-- Without step caps, rate limiting returns a count of at least 1 unchanged. -/
theorem rateLimitPhase_no_caps (inp : Input fs) (b : BehaviorSpec) (r : Int32) (ca : Bool)
    (hup : b.MaxScaleUpStepPercent = none) (hdn : b.MaxScaleDownStepPercent = none)
    (hr : 1 ≤ r.val) : (rateLimitPhase inp b r ca).1 = r := by
  unfold rateLimitPhase
  rw [hup, hdn]
  dsimp only
  by_cases h0 : (Int32.sub r inp.CurrentReplicas).val = 0
  · rw [if_pos h0]
  · rw [if_neg h0]
    dsimp only
    rw [if_neg (by omega)]

/-- C14: for an input with at least one metric and `1 ≤ MinReplicas ≤
MaxReplicas` whose behavior block sets a stabilization window of `w` seconds
and neither step cap, if the clamped, cooldown-adjusted candidate `d` is below
the current count then the returned count is the maximum of `d` and the
`DesiredReplicas` of the history entries strictly newer than `Now - w`
seconds; no other entry enters the result. -/
theorem C14_stabilization_step (inp : Input fs) (b : BehaviorSpec) (w : Int32)
    (hm : 1 ≤ inp.Spec.Metrics.length)
    (hmin : 1 ≤ inp.Spec.MinReplicas.val)
    (hle : inp.Spec.MinReplicas.val ≤ inp.Spec.MaxReplicas.val)
    (hb : inp.Spec.Behavior = some b) (hw : b.StabilizationWindowSeconds = some w)
    (hup : b.MaxScaleUpStepPercent = none) (hdn : b.MaxScaleDownStepPercent = none)
    (hd : (cooled fs inp b).val < inp.CurrentReplicas.val) :
    (Decide fs inp).1.DesiredReplicas.val =
      windowMax (cooled fs inp b).val
        ((inp.History.filter (inWindow inp.Now w)).map (fun h => h.DesiredReplicas.val)) := by
  obtain ⟨-, hdes, -⟩ := Decide_of_metrics inp hm
  have hc1 : 1 ≤ (cooled fs inp b).val := by
    unfold cooled at hd ⊢
    rcases cooldownPhase_cases inp b (clamped fs inp) with h | h
    · rw [h]
      show 1 ≤ (clamped fs inp).val
      unfold clamped
      have := clampBounds_ge_min
        (aggregate fs (collected fs inp).metricDesired (collected fs inp).metricWeights
          inp.Spec.Aggregation) inp.Spec.MinReplicas inp.Spec.MaxReplicas hle
      omega
    · rw [h] at hd
      exact absurd hd (lt_irrefl _)
  have hst : (stabilizationPhase inp b (cooled fs inp b)).val =
      windowMax (cooled fs inp b).val
        ((inp.History.filter (inWindow inp.Now w)).map (fun h => h.DesiredReplicas.val)) := by
    rw [stabilizationPhase_eq, hw]
    dsimp only
    rw [if_pos hd, windowScan_val, cutoff_eq]
    rfl
  have hr1 : 1 ≤ (stabilizationPhase inp b (cooled fs inp b)).val := by
    rw [hst]
    exact le_trans hc1 (windowMax_ge _ _)
  rw [hdes]
  unfold applyCooldownAndHistory
  rw [hb]
  dsimp only
  show (rateLimitPhase inp b (stabilizationPhase inp b (cooled fs inp b))
    (cooldownPhase inp b (clamped fs inp)).2).1.val = _
  rw [rateLimitPhase_no_caps inp b _ _ hup hdn hr1]
  exact hst

/-- C14 at Scenario D: candidate 3, current count 8, an entry of 8 taken 20
seconds ago and an entry of 9 taken exactly 30 seconds ago, window 30: the
result is 8. -/
theorem C14_stabilization_step_witness :
    (cooled binary64 inputScenarioD ⟨some 30, none, none, none, none⟩).val = 3 ∧
    inputScenarioD.History.filter (inWindow inputScenarioD.Now 30) = [⟨80000000000, 8⟩] ∧
    windowMax 3 [8] = 8 ∧
    (Decide binary64 inputScenarioD).1.DesiredReplicas.val = 8 ∧
    (Decide binary64 inputScenarioD).1.DesiredReplicas.val =
      windowMax (cooled binary64 inputScenarioD ⟨some 30, none, none, none, none⟩).val
        ((inputScenarioD.History.filter (inWindow inputScenarioD.Now 30)).map
          (fun h => h.DesiredReplicas.val)) :=
  ⟨by decide, by decide, by decide, by decide,
    C14_stabilization_step inputScenarioD ⟨some 30, none, none, none, none⟩ 30 (by decide)
      (by decide) (by decide) rfl rfl rfl rfl (by decide)⟩

/-! ## C15: release of a scale-down after the window -/

/-- With only a stabilization window set, a candidate below the current count
`c`, a history without values above `c` and an entry of `c` inside the window,
`Decide` returns `c`. -/
theorem Decide_held (inp : Input fs) (w : Int32) (t : Int)
    (hm : 1 ≤ inp.Spec.Metrics.length)
    (hb : inp.Spec.Behavior = some ⟨some w, none, none, none, none⟩)
    (hlt : (clamped fs inp).val < inp.CurrentReplicas.val)
    (hall : ∀ h ∈ inp.History, h.DesiredReplicas.val ≤ inp.CurrentReplicas.val)
    (hmem : (⟨t, inp.CurrentReplicas⟩ : HistorySample) ∈ inp.History)
    (hin : inp.Now - w.val * 1000000000 < t) :
    (Decide fs inp).2 = none ∧ (Decide fs inp).1.DesiredReplicas = inp.CurrentReplicas := by
  obtain ⟨herr, hdes, -⟩ := Decide_of_metrics inp hm
  refine ⟨herr, ?_⟩
  have hcd : cooldownPhase inp ⟨some w, none, none, none, none⟩ (clamped fs inp) =
      (clamped fs inp, false) := by
    apply cooldownPhase_pass
    · intro s last hs
      cases hs
    · intro s last hs
      cases hs
  have hst : stabilizationPhase inp ⟨some w, none, none, none, none⟩ (clamped fs inp) =
      inp.CurrentReplicas := by
    apply Int32.ext
    rw [stabilizationPhase_eq]
    dsimp only
    rw [if_pos hlt]
    apply le_antisymm
    · exact windowScan_le_bound _ _ _ _ (le_of_lt hlt) (fun h hh _ => hall h hh)
    · apply windowScan_ge_mem _ _ _ ⟨t, inp.CurrentReplicas⟩ hmem
      rw [cutoff_eq, Time.After_iff]
      exact hin
  rw [hdes]
  unfold applyCooldownAndHistory
  rw [hb]
  dsimp only
  rw [hcd]
  dsimp only
  rw [hst, rateLimitPhase_current]

/-- Appending to a history of at most any length with the bound 20 keeps the
new entry and adds no other. -/
theorem Store.get_append_mem (s : Store) (key : String) (x : HistorySample) :
    x ∈ (s.Append key x 20).Get key ∧
      ∀ h ∈ (s.Append key x 20).Get key, h ∈ s.Get key ∨ h = x := by
  rw [Store.get_append_self]
  constructor
  · rw [List.drop_append_of_le_length (by simp only [List.length_append, List.length_singleton]; omega)]
    exact List.mem_append_right _ (List.mem_singleton.2 rfl)
  · intro h hh
    have := List.mem_of_mem_drop hh
    rcases List.mem_append.1 this with h1 | h1
    · exact Or.inl h1
    · exact Or.inr (List.mem_singleton.1 h1)

/-- While cycles follow each other within the window, every cycle of a run with
a low candidate returns the current count `c`. -/
theorem runCycles_held (inp : Input fs) (key : String) (w : Int32)
    (hm : 1 ≤ inp.Spec.Metrics.length)
    (hb : inp.Spec.Behavior = some ⟨some w, none, none, none, none⟩)
    (hlt : (clamped fs inp).val < inp.CurrentReplicas.val)
    (nows : List Int) (s : Store) (prev : Int)
    (hall : ∀ h ∈ s.Get key, h.DesiredReplicas.val ≤ inp.CurrentReplicas.val)
    (hmem : (⟨prev, inp.CurrentReplicas⟩ : HistorySample) ∈ s.Get key)
    (hsp : spaced (w.val * 1000000000) prev nows) :
    (runCycles fs key inp s nows).length = nows.length ∧
      ∀ dec ∈ runCycles fs key inp s nows, dec.DesiredReplicas = inp.CurrentReplicas := by
  induction nows generalizing s prev with
  | nil => exact ⟨rfl, fun dec hd => by cases hd⟩
  | cons t ts ih =>
    obtain ⟨hgap, hrest⟩ := hsp
    have hstep := Decide_held
      ({ ({ inp with Now := t } : Input fs) with History := s.Get key } : Input fs) w prev hm hb
      hlt hall hmem (by show t - w.val * 1000000000 < prev; omega)
    obtain ⟨herr, hdes⟩ := hstep
    have hrec : decideAndRecord fs s key { inp with Now := t } =
        (s.Append key ⟨t, inp.CurrentReplicas⟩ 20,
          (Decide fs ({ ({ inp with Now := t } : Input fs) with History := s.Get key })).1,
          none) := by
      unfold decideAndRecord
      dsimp only
      rw [herr]
      dsimp only
      rw [hdes]
    obtain ⟨hnew, hold⟩ := Store.get_append_mem s key ⟨t, inp.CurrentReplicas⟩
    have hall2 : ∀ h ∈ (s.Append key ⟨t, inp.CurrentReplicas⟩ 20).Get key,
        h.DesiredReplicas.val ≤ inp.CurrentReplicas.val := by
      intro h hh
      rcases hold h hh with h1 | h1
      · exact hall h h1
      · rw [h1]
    obtain ⟨hlen, hdecs⟩ := ih _ t hall2 hnew hrest
    have hrun : runCycles fs key inp s (t :: ts) =
        (decideAndRecord fs s key { inp with Now := t }).2.1 ::
          runCycles fs key inp (decideAndRecord fs s key { inp with Now := t }).1 ts := rfl
    rw [hrun, hrec]
    dsimp only
    refine ⟨by rw [List.length_cons, hlen, List.length_cons], ?_⟩
    intro dec hd
    rcases List.mem_cons.1 hd with h1 | h1
    · rw [h1]
      exact hdes
    · exact hdecs dec h1

/-- C15, evaluated on the code: in a run in which the history starts as the
single entry `{t0, c}`, the behavior block only sets a stabilization window of
`w` seconds, the current count stays `c`, the clamped candidate is `d < c` in
every cycle, and every cycle comes less than `w` seconds after the one before
it (the first less than `w` seconds after `t0`), every cycle returns `c` and
none returns `d`, however long after `t0` it runs. -/
theorem C15_window_never_released (inp : Input fs) (key : String) (s : Store) (w c d : Int32)
    (t0 : Int) (nows : List Int)
    (hm : 1 ≤ inp.Spec.Metrics.length)
    (hb : inp.Spec.Behavior = some ⟨some w, none, none, none, none⟩)
    (hc : inp.CurrentReplicas = c) (hd : clamped fs inp = d) (hlt : d.val < c.val)
    (hs : s.Get key = [⟨t0, c⟩])
    (hsp : spaced (w.val * 1000000000) t0 nows) :
    (runCycles fs key inp s nows).length = nows.length ∧
      ∀ dec ∈ runCycles fs key inp s nows,
        dec.DesiredReplicas = c ∧ dec.DesiredReplicas ≠ d := by
  subst hc hd
  have h := runCycles_held inp key w hm hb hlt nows s t0
    (by
      intro h hh
      rw [hs] at hh
      rw [List.mem_singleton.1 hh])
    (by
      rw [hs]
      exact List.mem_singleton.2 rfl)
    hsp
  refine ⟨h.1, fun dec hdec => ⟨h.2 dec hdec, ?_⟩⟩
  rw [h.2 dec hdec]
  intro heq
  rw [heq] at hlt
  exact lt_irrefl _ hlt

/-- C15 at `c = 8`, `d = 3`, `w = 30` seconds, `t0 = 0` and cycles at 20 and 40
seconds: the cycle at 40 seconds, the first more than 30 seconds after `t0`,
returns 8 and not 3.  A single cycle at 40 seconds on the same store returns
3. -/
theorem C15_window_never_released_witness :
    (runCycles binary64 "default/web" inputLowSignal storeOneEntry
        [20000000000, 40000000000]).map (fun dec => dec.DesiredReplicas.val) = [8, 8] ∧
    (runCycles binary64 "default/web" inputLowSignal storeOneEntry
        [40000000000]).map (fun dec => dec.DesiredReplicas.val) = [3] ∧
    ((runCycles binary64 "default/web" inputLowSignal storeOneEntry
        [20000000000, 40000000000]).length = 2 ∧
      ∀ dec ∈ runCycles binary64 "default/web" inputLowSignal storeOneEntry
          [20000000000, 40000000000],
        dec.DesiredReplicas = 8 ∧ dec.DesiredReplicas ≠ 3) :=
  ⟨by decide, by decide,
    C15_window_never_released inputLowSignal "default/web" storeOneEntry 30 8 3 0
      [20000000000, 40000000000] (by decide) rfl rfl (by decide) (by decide) (by decide)
      ⟨by decide, by decide, trivial⟩⟩

/-! ## C13: DryRun never mutates the workload -/

/-- The autoscaler held after the first part of `Reconcile` is the one the
configuration source returned. -/
theorem decidePhase_pa (r : Reconciler fs) (d : Decided fs) (h : decidePhase r = Sum.inr d) :
    r.GetAutoscaler = GetResult.found d.pa := by
  unfold decidePhase at h
  rcases hg : r.GetAutoscaler with pa | _ | msg
  · rw [hg] at h
    dsimp only at h
    split at h
    · cases h
    · split at h
      · cases h
      · cases h
      · split at h
        · cases h
        · split at h
          · cases h
          · split at h
            · cases h
            · cases h
              rfl
  · rw [hg] at h
    cases h
  · rw [hg] at h
    cases h

theorem setCondition_LastScaleTime (r : Reconciler fs) (st : PrometheusAutoscalerStatus)
    (a b c d : String) : (setCondition r st a b c d).LastScaleTime = st.LastScaleTime := rfl

/-- An early return of `Reconcile` patches nothing and leaves `LastScaleTime`
as it was read. -/
theorem decidePhase_frame (r : Reconciler fs) (o : Outcome) (h : decidePhase r = Sum.inl o) :
    (∀ n, Effect.patch n ∉ o.Effects) ∧
      ∀ pa, r.GetAutoscaler = GetResult.found pa →
        (∀ st, Effect.statusUpdate st ∈ o.Effects →
          st.LastScaleTime = pa.Status.LastScaleTime) ∧
        (∀ st, o.Status = some st → st.LastScaleTime = pa.Status.LastScaleTime) := by
  unfold decidePhase at h
  rcases hg : r.GetAutoscaler with pa | _ | msg
  · rw [hg] at h
    dsimp only at h
    have key : ∀ st : PrometheusAutoscalerStatus, ∀ n : Int,
        st.LastScaleTime = pa.Status.LastScaleTime →
        ((∀ m, Effect.patch m ∉ [Effect.statusUpdate st]) ∧
          ∀ pa2, GetResult.found pa = GetResult.found pa2 →
            (∀ st2, Effect.statusUpdate st2 ∈ [Effect.statusUpdate st] →
              st2.LastScaleTime = pa2.Status.LastScaleTime) ∧
            (∀ st2, some st = some st2 → st2.LastScaleTime = pa2.Status.LastScaleTime)) := by
      intro st _ hst
      refine ⟨?_, ?_⟩
      · intro m hm
        cases List.mem_singleton.1 hm
      · intro pa2 hpa
        cases hpa
        refine ⟨?_, ?_⟩
        · intro st2 h2
          cases List.mem_singleton.1 h2
          exact hst
        · intro st2 h2
          cases h2
          exact hst
    have key0 : ∀ st : Option PrometheusAutoscalerStatus, st = none ∨ st = some pa.Status →
        ((∀ m, Effect.patch m ∉ ([] : List Effect)) ∧
          ∀ pa2, GetResult.found pa = GetResult.found pa2 →
            (∀ st2, Effect.statusUpdate st2 ∈ ([] : List Effect) →
              st2.LastScaleTime = pa2.Status.LastScaleTime) ∧
            (∀ st2, st = some st2 → st2.LastScaleTime = pa2.Status.LastScaleTime)) := by
      intro st hst
      refine ⟨fun m hm => List.not_mem_nil _ hm, ?_⟩
      intro pa2 hpa
      cases hpa
      refine ⟨fun st2 h2 => absurd h2 (List.not_mem_nil _), ?_⟩
      intro st2 h2
      rcases hst with h3 | h3
      · rw [h3] at h2
        cases h2
      · rw [h3] at h2
        cases h2
        rfl
    split at h
    · cases h
      exact key0 _ (Or.inr rfl)
    · split at h
      · cases h
        exact key _ 0 rfl
      · cases h
        exact key0 _ (Or.inr rfl)
      · split at h
        · cases h
          exact key _ 0 rfl
        · split at h
          · cases h
            exact key _ 0 rfl
          · split at h
            · cases h
              exact key _ 0 rfl
            · cases h
  · rw [hg] at h
    cases h
    refine ⟨fun m hm => List.not_mem_nil _ hm, ?_⟩
    intro pa2 hpa
    cases hpa
  · rw [hg] at h
    cases h
    refine ⟨fun m hm => List.not_mem_nil _ hm, ?_⟩
    intro pa2 hpa
    cases hpa

/-- In DryRun mode the second part of `Reconcile` persists the status with
the condition `Ready=True/DryRun` and asks for a retry after 30 seconds. -/
theorem applyPhase_dryRun (r : Reconciler fs) (d : Decided fs)
    (hmode : d.pa.Spec.Mode = ModeDryRun) :
    applyPhase r d =
      ⟨30000000000, none,
        [Effect.statusUpdate
          (setCondition r
            { d.pa.Status with
              LastPrometheusSample := r.Marshal d.samples
              DesiredReplicas := some d.decision.DesiredReplicas
              CurrentReplicas := some d.currentReplicas }
            "Ready" ConditionTrue "DryRun"
            "Computed desired replicas in DryRun mode; no changes applied")],
        r.HistoryStore.Append (d.pa.Namespace ++ "/" ++ d.pa.Name)
          ⟨d.input.Now, d.decision.DesiredReplicas⟩ 20,
        some (setCondition r
          { d.pa.Status with
            LastPrometheusSample := r.Marshal d.samples
            DesiredReplicas := some d.decision.DesiredReplicas
            CurrentReplicas := some d.currentReplicas }
          "Ready" ConditionTrue "DryRun"
          "Computed desired replicas in DryRun mode; no changes applied")⟩ := by
  unfold applyPhase
  dsimp only
  rw [if_pos hmode]

/-- C13: when every autoscaler the configuration source can return is in
DryRun mode, then whatever the collaborators answer, `Reconcile` issues no
patch of the target, every status it persists and the status it holds at the
return carry the `LastScaleTime` that was read, and when the engine has
decided without an error it persists exactly one status, with the condition
`Ready=True` and reason `DryRun` set on the conditions that were read and the
decision recorded, and returns a retry after 30 seconds and no error. -/
theorem C13_dry_run_frame (r : Reconciler fs)
    (hdry : ∀ pa, r.GetAutoscaler = GetResult.found pa → pa.Spec.Mode = ModeDryRun) :
    (∀ n, Effect.patch n ∉ (Reconcile r).Effects) ∧
    (∀ pa, r.GetAutoscaler = GetResult.found pa →
      (∀ st, Effect.statusUpdate st ∈ (Reconcile r).Effects →
        st.LastScaleTime = pa.Status.LastScaleTime) ∧
      (∀ st, (Reconcile r).Status = some st → st.LastScaleTime = pa.Status.LastScaleTime)) ∧
    (∀ d, decidePhase r = Sum.inr d →
      (Reconcile r).RequeueAfter = 30000000000 ∧ (Reconcile r).Err = none ∧
      ∃ st, (Reconcile r).Status = some st ∧
        (Reconcile r).Effects = [Effect.statusUpdate st] ∧
        st.DesiredReplicas = some d.decision.DesiredReplicas ∧
        st.Conditions = r.SetStatusCondition d.pa.Status.Conditions
          ⟨"Ready", ConditionTrue, "DryRun",
            "Computed desired replicas in DryRun mode; no changes applied",
            r.ConditionTime⟩) := by
  rcases hdp : decidePhase r with o | d
  · have hrec : Reconcile r = o := by
      unfold Reconcile
      rw [hdp]
    rw [hrec]
    obtain ⟨h1, h2⟩ := decidePhase_frame r o hdp
    exact ⟨h1, h2, fun d hd => by cases hd⟩
  · have hpa := decidePhase_pa r d hdp
    have hmode := hdry d.pa hpa
    have hrec : Reconcile r = applyPhase r d := by
      unfold Reconcile
      rw [hdp]
    rw [hrec, applyPhase_dryRun r d hmode]
    dsimp only
    refine ⟨?_, ?_, ?_⟩
    · intro n hn
      cases List.mem_singleton.1 hn
    · intro pa hpa2
      rw [hpa] at hpa2
      cases hpa2
      refine ⟨?_, ?_⟩
      · intro st hst
        cases List.mem_singleton.1 hst
        rfl
      · intro st hst
        cases hst
        rfl
    · intro d2 hd2
      cases hd2
      exact ⟨rfl, rfl, _, rfl, rfl, rfl, rfl⟩

/-- C13 at a DryRun autoscaler whose metric asks for 6 replicas on a
deployment of 4: the only write is one status update with desired 6, current
4, the `LastScaleTime` that was read and `Ready=True/DryRun`; the result is a
retry after 30 seconds without an error, although the status update itself
fails. -/
theorem C13_dry_run_frame_witness :
    (Reconcile dryRunReconciler).Effects =
      [Effect.statusUpdate ⟨some 4, some 6, some 10000000000, "\x7b\"cpu\":80\x7d",
        [⟨"Ready", "True", "DryRun",
          "Computed desired replicas in DryRun mode; no changes applied", 100000000001⟩]⟩] ∧
    (Reconcile dryRunReconciler).RequeueAfter = 30000000000 ∧
    (Reconcile dryRunReconciler).Err = none ∧
    ∀ n, Effect.patch n ∉ (Reconcile dryRunReconciler).Effects :=
  ⟨by decide, by decide, by decide,
    (C13_dry_run_frame dryRunReconciler (fun pa h => by cases h; rfl)).1⟩

/-- What the first part of `Reconcile` hands on: the input is built from the
history of the autoscaler's key, the reconciler's clock and the status that
was read, and the decision is the engine's answer to it. -/
theorem decidePhase_input (r : Reconciler fs) (d : Decided fs)
    (h : decidePhase r = Sum.inr d) :
    d.input.History = r.HistoryStore.Get (d.pa.Namespace ++ "/" ++ d.pa.Name) ∧
      d.input.Now = r.Now ∧ d.input.Spec = d.pa.Spec ∧
      d.input.CurrentReplicas = d.currentReplicas ∧
      d.input.LastScaleTime = d.pa.Status.LastScaleTime ∧
      r.PolicyEngine d.input = (d.decision, none) := by
  unfold decidePhase at h
  rcases hg : r.GetAutoscaler with pa | _ | msg
  · rw [hg] at h
    dsimp only at h
    split at h
    · cases h
    · split at h
      · cases h
      · cases h
      · split at h
        · cases h
        · split at h
          · cases h
          · split at h
            · cases h
            · rename_i heq
              cases h
              exact ⟨rfl, rfl, rfl, rfl, rfl, heq⟩
  · rw [hg] at h
    cases h
  · rw [hg] at h
    cases h

/-- Every way through the second part of `Reconcile` appends the decision to
the history of the autoscaler's key, with the bound 20. -/
theorem applyPhase_HistoryStore (r : Reconciler fs) (d : Decided fs) :
    (applyPhase r d).HistoryStore =
      r.HistoryStore.Append (d.pa.Namespace ++ "/" ++ d.pa.Name)
        ⟨d.input.Now, d.decision.DesiredReplicas⟩ 20 := by
  unfold applyPhase
  dsimp only
  split
  · rfl
  · split
    · rfl
    · split <;> rfl

/-- With the engine `Decide`, a call of `Reconcile` that reaches a decision
leaves the store that `decideAndRecord` leaves for the same input. -/
theorem Reconcile_records (r : Reconciler fs) (d : Decided fs)
    (he : r.PolicyEngine = Decide fs) (h : decidePhase r = Sum.inr d) :
    (Reconcile r).HistoryStore =
      (decideAndRecord fs r.HistoryStore (d.pa.Namespace ++ "/" ++ d.pa.Name) d.input).1 ∧
    d.decision =
      (decideAndRecord fs r.HistoryStore (d.pa.Namespace ++ "/" ++ d.pa.Name) d.input).2.1 := by
  obtain ⟨hh, -, -, -, -, hdec⟩ := decidePhase_input r d h
  have hrec : Reconcile r = applyPhase r d := by
    unfold Reconcile
    rw [h]
  have hin : ({ d.input with History := r.HistoryStore.Get (d.pa.Namespace ++ "/" ++ d.pa.Name) } :
      Input fs) = d.input := by
    rw [← hh]
  rw [hrec, applyPhase_HistoryStore]
  unfold decideAndRecord
  dsimp only
  rw [hin, ← he, hdec]
  exact ⟨rfl, rfl⟩

/-- Two calls of `Reconcile` for an autoscaler with a stabilization window of
30 seconds, a deployment of 8 replicas and a metric asking for 3, on a history
that starts as `{0, 8}`: at 20 and at 40 seconds the status records the
desired count 8, the history then holds 8 three times, and nothing is
patched. -/
theorem Reconcile_holds_low_signal :
    ((Reconcile (lowSignalReconciler storeOneEntry 20000000000)).Status.map
        (fun st => st.DesiredReplicas) = some (some 8)) ∧
    ((Reconcile (lowSignalReconciler
        (Reconcile (lowSignalReconciler storeOneEntry 20000000000)).HistoryStore
        40000000000)).Status.map (fun st => st.DesiredReplicas) = some (some 8)) ∧
    ((Reconcile (lowSignalReconciler
        (Reconcile (lowSignalReconciler storeOneEntry 20000000000)).HistoryStore
        40000000000)).HistoryStore.Get "default/web" =
      [⟨0, 8⟩, ⟨20000000000, 8⟩, ⟨40000000000, 8⟩]) ∧
    ((Reconcile (lowSignalReconciler
        (Reconcile (lowSignalReconciler storeOneEntry 20000000000)).HistoryStore
        40000000000)).Effects.length = 1) := by
  decide

end Autoscaler
